import Mathlib

/-!
Verification development for the dag_compute library.

The Rust source (src/lib.rs) implements a one-shot computation DAG:
nodes are stored in a slotmap arena (insertion order = slot order for a
fresh map, and both iteration of `retain` and key issue follow that
order), a secondary map holds per-node live-reference counters, and
`compute` toposorts from the designated output, sweeps unreachable
nodes, then evaluates nodes in order while eagerly dropping inputs
whose counter reaches zero.

The shallow embedding below mirrors that code: the arena is an
association list ordered by insertion with `Nat` keys issued by a
counter, `SecondaryMap` is a second association list, panics
(`assert!`, `expect`, `unwrap`) are modelled as an `Option PanicErr`
returned next to the state reached when the panic fires, and the
shared-ownership `Arc` strong counts of cached values are tracked in an
explicit ghost map so that `Arc::try_unwrap` can be modelled.  The
recursive `toposort_helper` takes a worklist (the pending inputs of the
node being visited) plus a fuel argument so that it is structurally
recursive; fuel exhaustion is a distinct error and `computation_order`
passes a bound large enough that it is never hit (proved below).
`compute` additionally returns the list of observable events (function
invocations with their argument lists, node removals) that happened
before it returned or panicked.
-/

namespace DagCompute

/-- Arena keys: the slotmap issues fresh keys in insertion order; we model
them as naturals issued by a counter. -/
abbrev Key := Nat

/-- Association list lookup, first matching key wins (keys are unique in
all reachable states). -/
def alGet {β : Type _} : List (Key × β) → Key → Option β
  | [], _ => none
  | (k, v) :: rest, q => if k = q then some v else alGet rest q

/-- Association list in-place update of the first entry with the given key;
no entry is added when the key is absent (callers check presence first,
mirroring `get_mut(..).unwrap()`). -/
def alSet {β : Type _} : List (Key × β) → Key → β → List (Key × β)
  | [], _, _ => []
  | (k, v) :: rest, q, w => if k = q then (k, w) :: rest else (k, v) :: alSet rest q w

/-- Association list removal of every entry with the given key (keys are
unique, so at most one). -/
def alRemove {β : Type _} (l : List (Key × β)) (q : Key) : List (Key × β) :=
  l.filter (fun p => p.1 ≠ q)

/-- Modify the entry at a key if present (used for refcount bumps). -/
def alModify {β : Type _} (l : List (Key × β)) (q : Key) (f : β → β) : List (Key × β) :=
  match alGet l q with
  | none => l
  | some v => alSet l q (f v)

/-- Model of `Node<T>` from src/lib.rs: diagnostic name, evaluation
function, ordered input keys, and the cached output (`Option<Arc<T>>` in
Rust; the Arc strong counts are tracked separately in the ghost `arcs`
map of the evaluation state). -/
structure Node (T : Type) where
  name : String
  func : List T → T
  input_nodes : List Key
  output_cache : Option T

/-- Model of `NodeHandle`: an opaque pair of arena key and owning-graph
identity token. -/
structure NodeHandle where
  node_key : Key
  graph_id : Nat
deriving DecidableEq

/-- Model of `ComputationGraph<T>`.  `graph_id` is the per-instance token
(the Rust code uses the numeric address of the slotmap; here it is a
parameter of `newGraph`), and `next_key` is the arena key counter. -/
structure ComputationGraph (T : Type) where
  node_storage : List (Key × Node T)
  node_refcount : List (Key × Nat)
  output_node : Option Key
  graph_id : Nat
  next_key : Key

/-- Every panic site of the Rust code, one tag per call site kind. -/
inductive PanicErr where
  | outputAlreadyDesignated
  | wrongGraph
  | missingStorage
  | missingRefcount
  | selfLoop
  | cycleDetected
  | outputNotDesignated
  | sweepMissingRefcount
  | refcountZeroAssert
  | notYetEvaluated
  | alreadyEvaluated
  | storageLenNotOne
  | tryUnwrapFail
  | fuelOut
deriving DecidableEq, Repr

/-- Observable events of `compute`: dead-code sweep removals, in-loop
removals of inputs whose counter reached zero, and node function
invocations together with the argument values handed to the function. -/
inductive TraceEv (T : Type) where
  | sweepRemove (k : Key)
  | removeNode (k : Key)
  | invoke (k : Key) (args : List T)
deriving DecidableEq

/-- Model of `ComputationGraph::default` / `new`; the pointer-derived
instance token becomes the explicit argument `gid`. -/
def newGraph (T : Type) (gid : Nat) : ComputationGraph T :=
  { node_storage := [], node_refcount := [], output_node := none,
    graph_id := gid, next_key := 0 }

/-- Model of `insert_node`: allocate a fresh key, store an empty node,
insert a zero refcount, return the handle. -/
def insert_node {T : Type} (g : ComputationGraph T) (name : String) (func : List T → T) :
    ComputationGraph T × NodeHandle :=
  let k := g.next_key
  ({ g with
      node_storage := g.node_storage ++ [(k, ⟨name, func, [], none⟩)],
      node_refcount := g.node_refcount ++ [(k, 0)],
      next_key := k + 1 },
   ⟨k, g.graph_id⟩)

/-- Model of `designate_output`: checks in source order (output not yet
designated, handle owned by this graph, node present), then records the
output and bumps its refcount.  On a panic the state reached at the
panic point (here: unchanged) is returned next to the error. -/
def designate_output {T : Type} (g : ComputationGraph T) (h : NodeHandle) :
    Option PanicErr × ComputationGraph T :=
  if g.output_node.isSome then (some .outputAlreadyDesignated, g)
  else if h.graph_id ≠ g.graph_id then (some .wrongGraph, g)
  else if (alGet g.node_storage h.node_key).isNone then (some .missingStorage, g)
  else
    match alGet g.node_refcount h.node_key with
    | none => (some .missingRefcount, g)
    | some c =>
        (none, { g with
                  output_node := some h.node_key,
                  node_refcount := alSet g.node_refcount h.node_key (c + 1) })

/-- The refcount increment loop of `set_inputs` (`for key in input_keys`):
increments happen left to right and a missing entry panics after the
earlier increments already took effect. -/
def incrEach : List Key → List (Key × Nat) → Option PanicErr × List (Key × Nat)
  | [], rc => (none, rc)
  | k :: rest, rc =>
    match alGet rc k with
    | none => (some .missingRefcount, rc)
    | some c => incrEach rest (alSet rc k (c + 1))

/-- Model of `set_inputs`: graph ownership check, key extraction, direct
self-loop assert, refcount increments (one per occurrence), then the
input list of the target node is replaced.  Note that, as in the
source, nothing is decremented for a previously stored input list. -/
def set_inputs {T : Type} (g : ComputationGraph T) (h : NodeHandle)
    (inputs : List NodeHandle) : Option PanicErr × ComputationGraph T :=
  if h.graph_id ≠ g.graph_id then (some .wrongGraph, g)
  else
    let input_keys := inputs.map (fun x => x.node_key)
    if h.node_key ∈ input_keys then (some .selfLoop, g)
    else
      match incrEach input_keys g.node_refcount with
      | (some e, rc2) => (some e, { g with node_refcount := rc2 })
      | (none, rc2) =>
        match alGet g.node_storage h.node_key with
        | none => (some .missingStorage, { g with node_refcount := rc2 })
        | some nd =>
            (none, { g with
                      node_refcount := rc2,
                      node_storage := alSet g.node_storage h.node_key
                        { nd with input_nodes := input_keys } })

/-- Input edges of a key as stored (empty list when the key is absent). -/
def inputsOf {T : Type} (s : List (Key × Node T)) (k : Key) : List Key :=
  match alGet s k with
  | none => []
  | some nd => nd.input_nodes

/-- Model of the recursive `toposort_helper`.  The worklist argument holds
the pending nodes of the `for input in ..` loop of one recursive call
(the initial call passes the singleton output worklist); `temp` is the
currently-visiting set (a list, newest first) and `fl` the finished
list, to which a node is prepended after its inputs are done.  `fuel`
only makes the recursion structural: `computation_order` passes a bound
that is provably never exhausted. -/
def toposort_helper {T : Type} (s : List (Key × Node T)) :
    Nat → List Key → List Key → List Key → Except PanicErr (List Key)
  | _, [], fl, _ => .ok fl
  | 0, _ :: _, _, _ => .error .fuelOut
  | fuel + 1, node :: rest, fl, temp =>
    if node ∈ fl then toposort_helper s fuel rest fl temp
    else if node ∈ temp then .error .cycleDetected
    else
      match alGet s node with
      | none => .error .missingStorage
      | some nd =>
        match toposort_helper s fuel nd.input_nodes fl (node :: temp) with
        | .error e => .error e
        | .ok fl2 => toposort_helper s fuel rest (node :: fl2) temp

/-- Fuel bound passed to the toposort; large enough that fuel never runs
out (lemma `toposort_no_fuelOut`). -/
def fuelBound {T : Type} (s : List (Key × Node T)) : Nat :=
  s.length + (s.map (fun p => p.2.input_nodes.length)).sum + 2

/-- The refcount decrement loop of the sweep closure
(`for input_key in &del_node.input_nodes`): decrementing an input whose
entry was already removed is the `unwrap` panic of the closure. -/
def decEach : List Key → List (Key × Nat) → Option PanicErr × List (Key × Nat)
  | [], rc => (none, rc)
  | k :: rest, rc =>
    match alGet rc k with
    | none => (some .sweepMissingRefcount, rc)
    | some c => decEach rest (alSet rc k (c - 1))

/-- Model of the `node_storage.retain(..)` sweep of `computation_order`:
slots are visited in insertion order; a node absent from the sort list
is removed after decrementing the counter of each of its inputs and
dropping its own refcount entry. -/
def sweepStorage {T : Type} (keep : List Key) :
    List (Key × Node T) → List (Key × Nat) →
    Option PanicErr × List (Key × Node T) × List (Key × Nat) × List (TraceEv T)
  | [], rc => (none, [], rc, [])
  | (k, nd) :: rest, rc =>
    if k ∈ keep then
      let r := sweepStorage keep rest rc
      (r.1, (k, nd) :: r.2.1, r.2.2.1, r.2.2.2)
    else
      let d := decEach nd.input_nodes rc
      match d.1 with
      | some e => (some e, rest, d.2, [])
      | none =>
        let r := sweepStorage keep rest (alRemove d.2 k)
        (r.1, r.2.1, r.2.2.1, .sweepRemove k :: r.2.2.2)

/-- Model of `computation_order`: require a designated output, toposort
from it, sweep unreachable nodes, and reverse the DFS finish list into
evaluation order. -/
def computation_order {T : Type} (g : ComputationGraph T) :
    Option PanicErr × ComputationGraph T × List Key × List (TraceEv T) :=
  match g.output_node with
  | none => (some .outputNotDesignated, g, [], [])
  | some out =>
    match toposort_helper g.node_storage (fuelBound g.node_storage) [out] [] [] with
    | .error e => (some e, g, [], [])
    | .ok sort_list =>
      let sw := sweepStorage sort_list g.node_storage g.node_refcount
      match sw.1 with
      | some e =>
          (some e, { g with node_storage := sw.2.1, node_refcount := sw.2.2.1 },
           [], sw.2.2.2)
      | none =>
          (none, { g with node_storage := sw.2.1, node_refcount := sw.2.2.1 },
           sort_list.reverse, sw.2.2.2)

/-- State threaded through the evaluation loop: the arena, the refcounts,
and the ghost strong-count map of the cached `Arc` values (one entry
per live cached value, counting the copy held by the node record plus
any outstanding clones). -/
structure LoopState (T : Type) where
  storage : List (Key × Node T)
  refcount : List (Key × Nat)
  arcs : List (Key × Nat)

/-- Drop one strong count of a cached value; the entry disappears when the
last count is dropped (the value is deallocated). -/
def arcDec (a : List (Key × Nat)) (k : Key) : List (Key × Nat) :=
  match alGet a k with
  | none => a
  | some c => if c ≤ 1 then alRemove a k else alSet a k (c - 1)

/-- The per-input collection loop of `compute`: for each declared input in
order, assert a positive refcount, decrement it, mark the input for
cleanup when the count reached zero, and clone the cached value
(bumping its strong count).  Returns the collected argument values and
the cleanup list in source order. -/
def stepInputs {T : Type} : List Key → LoopState T →
    Option PanicErr × LoopState T × List T × List Key
  | [], st => (none, st, [], [])
  | k :: rest, st =>
    match alGet st.refcount k with
    | none => (some .missingRefcount, st, [], [])
    | some c =>
      if c = 0 then (some .refcountZeroAssert, st, [], [])
      else
        let st1 : LoopState T := ⟨st.storage, alSet st.refcount k (c - 1), st.arcs⟩
        match alGet st1.storage k with
        | none => (some .missingStorage, st1, [], [])
        | some nd =>
          match nd.output_cache with
          | none => (some .notYetEvaluated, st1, [], [])
          | some v =>
            let st2 : LoopState T := ⟨st1.storage, st1.refcount, alModify st1.arcs k (· + 1)⟩
            let r := stepInputs rest st2
            (r.1, r.2.1, v :: r.2.2.1, if c - 1 = 0 then k :: r.2.2.2 else r.2.2.2)

/-- The cleanup of one loop iteration (`for old_key in nodes_cleanup`):
remove the node record and its refcount entry, dropping the strong
count the record held on its cached value. -/
def removeKeys {T : Type} (cl : List Key) (st : LoopState T) : LoopState T :=
  cl.foldl (fun st k => ⟨alRemove st.storage k, alRemove st.refcount k, arcDec st.arcs k⟩) st

/-- One iteration of the evaluation loop of `compute` for the node at
`n`: look the node up, collect the input values (decrementing their
counters), remove the inputs marked for cleanup, then evaluate the node
function (a present cache is the double-evaluation panic) and cache the
result with a fresh strong count; finally the collected input clones go
out of scope and their strong counts drop.  Events: the cleanup
removals followed by the invocation. -/
def runStep {T : Type} (n : Key) (st : LoopState T) :
    Option PanicErr × LoopState T × List (TraceEv T) :=
  match alGet st.storage n with
  | none => (some .missingStorage, st, [])
  | some nd =>
    let si := stepInputs nd.input_nodes st
    match si.1 with
    | some e => (some e, si.2.1, [])
    | none =>
      let args := si.2.2.1
      let cleanup := si.2.2.2
      let st2 := removeKeys cleanup si.2.1
      match alGet st2.storage n with
      | none => (some .missingStorage, st2, cleanup.map TraceEv.removeNode)
      | some nd2 =>
        match nd2.output_cache with
        | some _ => (some .alreadyEvaluated, st2, cleanup.map TraceEv.removeNode)
        | none =>
          let v := nd2.func args
          let storage3 := alSet st2.storage n { nd2 with output_cache := some v }
          let arcs3 := st2.arcs ++ [(n, 1)]
          let arcs4 := nd.input_nodes.foldl arcDec arcs3
          (none, ⟨storage3, st2.refcount, arcs4⟩,
           cleanup.map TraceEv.removeNode ++ [TraceEv.invoke n args])

/-- The evaluation loop of `compute` over the computed order; stops at the
first panic, keeping the events that already happened. -/
def runLoop {T : Type} : List Key → LoopState T →
    Option PanicErr × LoopState T × List (TraceEv T)
  | [], st => (none, st, [])
  | n :: rest, st =>
    let r := runStep n st
    match r.1 with
    | some e => (some e, r.2.1, r.2.2)
    | none =>
      let r2 := runLoop rest r.2.1
      (r2.1, r2.2.1, r.2.2 ++ r2.2.2)

/-- The terminal extraction of `compute`: assert that exactly one node is
left, take the output node out of the arena, read its cached value, and
reclaim it as uniquely owned — cloning the `Arc` and dropping the node
record leaves the strong count at its pre-extraction value, so
`Arc::try_unwrap` succeeds exactly when that count is one. -/
def finalize {T : Type} (out : Key) (st : LoopState T) : Except PanicErr T :=
  if st.storage.length ≠ 1 then .error .storageLenNotOne
  else
    match alGet st.storage out with
    | none => .error .missingStorage
    | some nd =>
      match nd.output_cache with
      | none => .error .notYetEvaluated
      | some v =>
        match alGet st.arcs out with
        | some 1 => .ok v
        | _ => .error .tryUnwrapFail

/-- Model of `compute`: order determination (toposort plus sweep), the
evaluation loop, and the final extraction, returning the result (or the
panic) together with the full event trace up to that point. -/
def compute {T : Type} (g : ComputationGraph T) :
    Except PanicErr T × List (TraceEv T) :=
  match g.output_node with
  | none => (.error .outputNotDesignated, [])
  | some out =>
    let co := computation_order g
    match co.1 with
    | some e => (.error e, co.2.2.2)
    | none =>
      let g1 := co.2.1
      let rl := runLoop co.2.2.1 ⟨g1.node_storage, g1.node_refcount, []⟩
      match rl.1 with
      | some e => (.error e, co.2.2.2 ++ rl.2.2)
      | none =>
        match finalize out rl.2.1 with
        | .ok v => (.ok v, co.2.2.2 ++ rl.2.2)
        | .error e => (.error e, co.2.2.2 ++ rl.2.2)

/-! ### Branch equations for the evaluation functions

Conditional unfolding equations, one per control-flow branch; all later
proofs go through these instead of unfolding the matches directly. -/

theorem stepInputs_nil {T : Type} (st : LoopState T) :
    stepInputs [] st = (none, st, [], []) := rfl

theorem stepInputs_cons_missing {T : Type} (k : Key) (rest : List Key) (st : LoopState T)
    (h1 : alGet st.refcount k = none) :
    stepInputs (k :: rest) st = (some .missingRefcount, st, [], []) := by
  simp [stepInputs, h1]

theorem stepInputs_cons_zero {T : Type} (k : Key) (rest : List Key) (st : LoopState T)
    (h1 : alGet st.refcount k = some 0) :
    stepInputs (k :: rest) st = (some .refcountZeroAssert, st, [], []) := by
  simp [stepInputs, h1]

theorem stepInputs_cons_goneStorage {T : Type} (k : Key) (rest : List Key)
    (st : LoopState T) (c : Nat)
    (h1 : alGet st.refcount k = some c) (hc : c ≠ 0)
    (h2 : alGet st.storage k = none) :
    stepInputs (k :: rest) st =
      (some .missingStorage, ⟨st.storage, alSet st.refcount k (c - 1), st.arcs⟩, [], []) := by
  simp [stepInputs, h1, hc, h2]

theorem stepInputs_cons_nocache {T : Type} (k : Key) (rest : List Key)
    (st : LoopState T) (c : Nat) (nd : Node T)
    (h1 : alGet st.refcount k = some c) (hc : c ≠ 0)
    (h2 : alGet st.storage k = some nd) (h3 : nd.output_cache = none) :
    stepInputs (k :: rest) st =
      (some .notYetEvaluated, ⟨st.storage, alSet st.refcount k (c - 1), st.arcs⟩, [], []) := by
  simp [stepInputs, h1, hc, h2, h3]

theorem stepInputs_cons_ok {T : Type} (k : Key) (rest : List Key)
    (st : LoopState T) (c : Nat) (nd : Node T) (v : T)
    (h1 : alGet st.refcount k = some c) (hc : c ≠ 0)
    (h2 : alGet st.storage k = some nd) (h3 : nd.output_cache = some v) :
    stepInputs (k :: rest) st =
      ((stepInputs rest ⟨st.storage, alSet st.refcount k (c - 1),
          alModify st.arcs k (· + 1)⟩).1,
       (stepInputs rest ⟨st.storage, alSet st.refcount k (c - 1),
          alModify st.arcs k (· + 1)⟩).2.1,
       v :: (stepInputs rest ⟨st.storage, alSet st.refcount k (c - 1),
          alModify st.arcs k (· + 1)⟩).2.2.1,
       if c - 1 = 0 then
         k :: (stepInputs rest ⟨st.storage, alSet st.refcount k (c - 1),
            alModify st.arcs k (· + 1)⟩).2.2.2
       else (stepInputs rest ⟨st.storage, alSet st.refcount k (c - 1),
          alModify st.arcs k (· + 1)⟩).2.2.2) := by
  simp [stepInputs, h1, hc, h2, h3]

theorem runStep_missing {T : Type} (n : Key) (st : LoopState T)
    (h1 : alGet st.storage n = none) :
    runStep n st = (some .missingStorage, st, []) := by
  simp [runStep, h1]

theorem runStep_inputErr {T : Type} (n : Key) (st : LoopState T) (nd : Node T)
    (e : PanicErr) (h1 : alGet st.storage n = some nd)
    (h2 : (stepInputs nd.input_nodes st).1 = some e) :
    runStep n st = (some e, (stepInputs nd.input_nodes st).2.1, []) := by
  simp [runStep, h1, h2]

theorem runStep_goneSelf {T : Type} (n : Key) (st : LoopState T) (nd : Node T)
    (h1 : alGet st.storage n = some nd)
    (h2 : (stepInputs nd.input_nodes st).1 = none)
    (h3 : alGet (removeKeys (stepInputs nd.input_nodes st).2.2.2
        (stepInputs nd.input_nodes st).2.1).storage n = none) :
    runStep n st = (some .missingStorage,
      removeKeys (stepInputs nd.input_nodes st).2.2.2 (stepInputs nd.input_nodes st).2.1,
      (stepInputs nd.input_nodes st).2.2.2.map TraceEv.removeNode) := by
  simp [runStep, h1, h2, h3]

theorem runStep_already {T : Type} (n : Key) (st : LoopState T) (nd nd2 : Node T) (v : T)
    (h1 : alGet st.storage n = some nd)
    (h2 : (stepInputs nd.input_nodes st).1 = none)
    (h3 : alGet (removeKeys (stepInputs nd.input_nodes st).2.2.2
        (stepInputs nd.input_nodes st).2.1).storage n = some nd2)
    (h4 : nd2.output_cache = some v) :
    runStep n st = (some .alreadyEvaluated,
      removeKeys (stepInputs nd.input_nodes st).2.2.2 (stepInputs nd.input_nodes st).2.1,
      (stepInputs nd.input_nodes st).2.2.2.map TraceEv.removeNode) := by
  simp [runStep, h1, h2, h3, h4]

theorem runStep_ok {T : Type} (n : Key) (st : LoopState T) (nd nd2 : Node T)
    (h1 : alGet st.storage n = some nd)
    (h2 : (stepInputs nd.input_nodes st).1 = none)
    (h3 : alGet (removeKeys (stepInputs nd.input_nodes st).2.2.2
        (stepInputs nd.input_nodes st).2.1).storage n = some nd2)
    (h4 : nd2.output_cache = none) :
    runStep n st = (none,
      ⟨alSet (removeKeys (stepInputs nd.input_nodes st).2.2.2
          (stepInputs nd.input_nodes st).2.1).storage n
          { nd2 with output_cache := some (nd2.func (stepInputs nd.input_nodes st).2.2.1) },
        (removeKeys (stepInputs nd.input_nodes st).2.2.2
          (stepInputs nd.input_nodes st).2.1).refcount,
        nd.input_nodes.foldl arcDec
          ((removeKeys (stepInputs nd.input_nodes st).2.2.2
            (stepInputs nd.input_nodes st).2.1).arcs ++ [(n, 1)])⟩,
      (stepInputs nd.input_nodes st).2.2.2.map TraceEv.removeNode ++
        [TraceEv.invoke n (stepInputs nd.input_nodes st).2.2.1]) := by
  simp [runStep, h1, h2, h3, h4]

theorem runLoop_nil {T : Type} (st : LoopState T) :
    runLoop [] st = (none, st, []) := rfl

theorem runLoop_cons_err {T : Type} (n : Key) (rest : List Key) (st : LoopState T)
    (e : PanicErr) (h : (runStep n st).1 = some e) :
    runLoop (n :: rest) st = (some e, (runStep n st).2.1, (runStep n st).2.2) := by
  simp [runLoop, h]

theorem runLoop_cons_ok {T : Type} (n : Key) (rest : List Key) (st : LoopState T)
    (h : (runStep n st).1 = none) :
    runLoop (n :: rest) st =
      ((runLoop rest (runStep n st).2.1).1,
       (runLoop rest (runStep n st).2.1).2.1,
       (runStep n st).2.2 ++ (runLoop rest (runStep n st).2.1).2.2) := by
  simp [runLoop, h]

theorem decEach_cons_missing (k : Key) (rest : List Key) (rc : List (Key × Nat))
    (h : alGet rc k = none) :
    decEach (k :: rest) rc = (some .sweepMissingRefcount, rc) := by
  simp [decEach, h]

theorem decEach_cons_some (k : Key) (rest : List Key) (rc : List (Key × Nat)) (c : Nat)
    (h : alGet rc k = some c) :
    decEach (k :: rest) rc = decEach rest (alSet rc k (c - 1)) := by
  simp [decEach, h]

theorem sweepStorage_nil {T : Type} (keep : List Key) (rc : List (Key × Nat)) :
    sweepStorage (T := T) keep [] rc = (none, [], rc, []) := rfl

theorem sweepStorage_cons_keep {T : Type} (keep : List Key) (k : Key) (nd : Node T)
    (rest : List (Key × Node T)) (rc : List (Key × Nat)) (hk : k ∈ keep) :
    sweepStorage keep ((k, nd) :: rest) rc =
      ((sweepStorage keep rest rc).1,
       (k, nd) :: (sweepStorage keep rest rc).2.1,
       (sweepStorage keep rest rc).2.2.1,
       (sweepStorage keep rest rc).2.2.2) := by
  simp [sweepStorage, hk]

theorem sweepStorage_cons_dead_err {T : Type} (keep : List Key) (k : Key) (nd : Node T)
    (rest : List (Key × Node T)) (rc : List (Key × Nat)) (e : PanicErr)
    (hk : k ∉ keep) (hd : (decEach nd.input_nodes rc).1 = some e) :
    sweepStorage keep ((k, nd) :: rest) rc =
      (some e, rest, (decEach nd.input_nodes rc).2, []) := by
  simp [sweepStorage, hk, hd]

theorem sweepStorage_cons_dead_ok {T : Type} (keep : List Key) (k : Key) (nd : Node T)
    (rest : List (Key × Node T)) (rc : List (Key × Nat))
    (hk : k ∉ keep) (hd : (decEach nd.input_nodes rc).1 = none) :
    sweepStorage keep ((k, nd) :: rest) rc =
      ((sweepStorage keep rest (alRemove (decEach nd.input_nodes rc).2 k)).1,
       (sweepStorage keep rest (alRemove (decEach nd.input_nodes rc).2 k)).2.1,
       (sweepStorage keep rest (alRemove (decEach nd.input_nodes rc).2 k)).2.2.1,
       TraceEv.sweepRemove k ::
         (sweepStorage keep rest (alRemove (decEach nd.input_nodes rc).2 k)).2.2.2) := by
  simp [sweepStorage, hk, hd]

theorem computation_order_noOutput {T : Type} (g : ComputationGraph T)
    (h : g.output_node = none) :
    computation_order g = (some .outputNotDesignated, g, [], []) := by
  simp [computation_order, h]

theorem computation_order_tsErr {T : Type} (g : ComputationGraph T) (out : Key)
    (e : PanicErr) (hout : g.output_node = some out)
    (hts : toposort_helper g.node_storage (fuelBound g.node_storage) [out] [] [] =
      .error e) :
    computation_order g = (some e, g, [], []) := by
  simp [computation_order, hout, hts]

theorem computation_order_sweepErr {T : Type} (g : ComputationGraph T) (out : Key)
    (sort_list : List Key) (e : PanicErr) (hout : g.output_node = some out)
    (hts : toposort_helper g.node_storage (fuelBound g.node_storage) [out] [] [] =
      .ok sort_list)
    (hsw : (sweepStorage sort_list g.node_storage g.node_refcount).1 = some e) :
    computation_order g =
      (some e,
       { g with
          node_storage := (sweepStorage sort_list g.node_storage g.node_refcount).2.1,
          node_refcount := (sweepStorage sort_list g.node_storage g.node_refcount).2.2.1 },
       [], (sweepStorage sort_list g.node_storage g.node_refcount).2.2.2) := by
  simp [computation_order, hout, hts, hsw]

theorem computation_order_ok {T : Type} (g : ComputationGraph T) (out : Key)
    (sort_list : List Key) (hout : g.output_node = some out)
    (hts : toposort_helper g.node_storage (fuelBound g.node_storage) [out] [] [] =
      .ok sort_list)
    (hsw : (sweepStorage sort_list g.node_storage g.node_refcount).1 = none) :
    computation_order g =
      (none,
       { g with
          node_storage := (sweepStorage sort_list g.node_storage g.node_refcount).2.1,
          node_refcount := (sweepStorage sort_list g.node_storage g.node_refcount).2.2.1 },
       sort_list.reverse,
       (sweepStorage sort_list g.node_storage g.node_refcount).2.2.2) := by
  simp [computation_order, hout, hts, hsw]

theorem compute_noOutput {T : Type} (g : ComputationGraph T)
    (h : g.output_node = none) :
    compute g = (.error .outputNotDesignated, []) := by
  simp [compute, h]

theorem compute_orderErr {T : Type} (g : ComputationGraph T) (out : Key) (e : PanicErr)
    (hout : g.output_node = some out)
    (h1 : (computation_order g).1 = some e) :
    compute g = (.error e, (computation_order g).2.2.2) := by
  simp [compute, hout, h1]

theorem compute_loopErr {T : Type} (g : ComputationGraph T) (out : Key) (e : PanicErr)
    (hout : g.output_node = some out)
    (h1 : (computation_order g).1 = none)
    (h2 : (runLoop (computation_order g).2.2.1
        ⟨(computation_order g).2.1.node_storage,
          (computation_order g).2.1.node_refcount, []⟩).1 = some e) :
    compute g = (.error e,
      (computation_order g).2.2.2 ++
        (runLoop (computation_order g).2.2.1
          ⟨(computation_order g).2.1.node_storage,
            (computation_order g).2.1.node_refcount, []⟩).2.2) := by
  simp [compute, hout, h1, h2]

theorem compute_finalized {T : Type} (g : ComputationGraph T) (out : Key)
    (hout : g.output_node = some out)
    (h1 : (computation_order g).1 = none)
    (h2 : (runLoop (computation_order g).2.2.1
        ⟨(computation_order g).2.1.node_storage,
          (computation_order g).2.1.node_refcount, []⟩).1 = none) :
    compute g =
      (match finalize out (runLoop (computation_order g).2.2.1
          ⟨(computation_order g).2.1.node_storage,
            (computation_order g).2.1.node_refcount, []⟩).2.1 with
       | .ok v => (Except.ok v,
          (computation_order g).2.2.2 ++
            (runLoop (computation_order g).2.2.1
              ⟨(computation_order g).2.1.node_storage,
                (computation_order g).2.1.node_refcount, []⟩).2.2)
       | .error e => (Except.error e,
          (computation_order g).2.2.2 ++
            (runLoop (computation_order g).2.2.1
              ⟨(computation_order g).2.1.node_storage,
                (computation_order g).2.1.node_refcount, []⟩).2.2)) := by
  simp only [compute, hout, h1, h2]

theorem ts_nil {T : Type} (s : List (Key × Node T)) (fuel : Nat) (fl temp : List Key) :
    toposort_helper s fuel [] fl temp = .ok fl := by
  cases fuel <;> rfl

theorem ts_zero {T : Type} (s : List (Key × Node T)) (node : Key) (rest fl temp : List Key) :
    toposort_helper s 0 (node :: rest) fl temp = .error .fuelOut := rfl

theorem ts_cons_mem {T : Type} (s : List (Key × Node T)) (fuel : Nat) (node : Key)
    (rest fl temp : List Key) (h : node ∈ fl) :
    toposort_helper s (fuel + 1) (node :: rest) fl temp =
      toposort_helper s fuel rest fl temp := by
  simp [toposort_helper, h]

theorem ts_cons_cycle {T : Type} (s : List (Key × Node T)) (fuel : Nat) (node : Key)
    (rest fl temp : List Key) (h1 : node ∉ fl) (h2 : node ∈ temp) :
    toposort_helper s (fuel + 1) (node :: rest) fl temp = .error .cycleDetected := by
  simp [toposort_helper, h1, h2]

theorem ts_cons_missing {T : Type} (s : List (Key × Node T)) (fuel : Nat) (node : Key)
    (rest fl temp : List Key) (h1 : node ∉ fl) (h2 : node ∉ temp)
    (h3 : alGet s node = none) :
    toposort_helper s (fuel + 1) (node :: rest) fl temp = .error .missingStorage := by
  simp [toposort_helper, h1, h2, h3]

theorem ts_cons_visit_err {T : Type} (s : List (Key × Node T)) (fuel : Nat) (node : Key)
    (rest fl temp : List Key) (nd : Node T) (e : PanicErr)
    (h1 : node ∉ fl) (h2 : node ∉ temp) (h3 : alGet s node = some nd)
    (h4 : toposort_helper s fuel nd.input_nodes fl (node :: temp) = .error e) :
    toposort_helper s (fuel + 1) (node :: rest) fl temp = .error e := by
  simp [toposort_helper, h1, h2, h3, h4]

theorem ts_cons_visit_ok {T : Type} (s : List (Key × Node T)) (fuel : Nat) (node : Key)
    (rest fl temp : List Key) (nd : Node T) (fl2 : List Key)
    (h1 : node ∉ fl) (h2 : node ∉ temp) (h3 : alGet s node = some nd)
    (h4 : toposort_helper s fuel nd.input_nodes fl (node :: temp) = .ok fl2) :
    toposort_helper s (fuel + 1) (node :: rest) fl temp =
      toposort_helper s fuel rest (node :: fl2) temp := by
  simp [toposort_helper, h1, h2, h3, h4]

/-! ### Association list lemmas -/

/-- Keys of an association list in storage order. -/
def keysOf {β : Type _} (l : List (Key × β)) : List Key :=
  l.map Prod.fst

theorem alSet_cons {β : Type _} (a : Key) (b : β) (rest : List (Key × β)) (k : Key) (v : β) :
    alSet ((a, b) :: rest) k v =
      if a = k then (a, v) :: rest else (a, b) :: alSet rest k v := by
  by_cases hak : a = k <;> simp [alSet, hak]

theorem alRemove_cons {β : Type _} (a : Key) (b : β) (rest : List (Key × β)) (k : Key) :
    alRemove ((a, b) :: rest) k =
      if a = k then alRemove rest k else (a, b) :: alRemove rest k := by
  by_cases hak : a = k <;> simp [alRemove, List.filter_cons, hak]

theorem alGet_cons {β : Type _} (a : Key) (b : β) (rest : List (Key × β)) (q : Key) :
    alGet ((a, b) :: rest) q = if a = q then some b else alGet rest q := rfl

theorem alGet_alSet {β : Type _} (l : List (Key × β)) (k q : Key) (v : β) :
    alGet (alSet l k v) q = if q = k then (alGet l k).map (fun _ => v) else alGet l q := by
  induction l with
  | nil => by_cases hq : q = k <;> simp [alGet, alSet, hq]
  | cons p rest ih =>
    obtain ⟨a, b⟩ := p
    rw [alSet_cons]
    by_cases hak : a = k
    · subst hak
      rw [if_pos rfl]
      by_cases hqa : q = a
      · subst hqa
        simp [alGet_cons]
      · have haq : ¬ (a = q) := fun hh => hqa hh.symm
        simp [alGet_cons, haq, hqa]
    · rw [if_neg hak]
      by_cases hqa : q = a
      · subst hqa
        have hqk : ¬ (q = k) := hak
        simp [alGet_cons, hqk]
      · have haq : ¬ (a = q) := fun hh => hqa hh.symm
        simp only [alGet_cons, if_neg haq, if_neg hak]
        exact ih

theorem alGet_alRemove {β : Type _} (l : List (Key × β)) (k q : Key) :
    alGet (alRemove l k) q = if q = k then none else alGet l q := by
  induction l with
  | nil =>
    simp only [alRemove, List.filter_nil, alGet]
    by_cases hq : q = k <;> simp [hq]
  | cons p rest ih =>
    obtain ⟨a, b⟩ := p
    rw [alRemove_cons]
    by_cases hak : a = k
    · rw [if_pos hak, ih]
      by_cases hqk : q = k
      · simp [hqk]
      · have haq : ¬ (a = q) := by
          rw [hak]
          exact fun hh => hqk hh.symm
        simp [hqk, alGet_cons, haq]
    · rw [if_neg hak]
      by_cases hqa : q = a
      · subst hqa
        have hqk : ¬ (q = k) := hak
        simp [alGet_cons, hqk]
      · have haq : ¬ (a = q) := fun hh => hqa hh.symm
        rw [alGet_cons, if_neg haq, alGet_cons, if_neg haq, ih]

theorem alGet_alModify {β : Type _} (l : List (Key × β)) (k q : Key) (f : β → β) :
    alGet (alModify l k f) q = if q = k then (alGet l k).map f else alGet l q := by
  unfold alModify
  cases hk : alGet l k with
  | none =>
    by_cases hq : q = k
    · subst hq
      simp [hk]
    · simp [hq]
  | some v =>
    rw [alGet_alSet]
    by_cases hq : q = k
    · subst hq
      simp [hk]
    · simp [hq]

theorem mem_keysOf_iff {β : Type _} (l : List (Key × β)) (q : Key) :
    q ∈ keysOf l ↔ (alGet l q).isSome := by
  induction l with
  | nil => simp [keysOf, alGet]
  | cons p rest ih =>
    obtain ⟨a, b⟩ := p
    by_cases haq : a = q
    · simp [keysOf, alGet_cons, haq]
    · have hqa : ¬ (q = a) := fun hh => haq hh.symm
      simp only [keysOf, List.map_cons, List.mem_cons, alGet_cons, if_neg haq]
      constructor
      · intro hh
        rcases hh with hh | hh
        · exact absurd hh hqa
        · exact (ih.mp hh)
      · intro hh
        exact Or.inr (ih.mpr hh)

theorem alGet_append {β : Type _} (l m : List (Key × β)) (q : Key) :
    alGet (l ++ m) q = match alGet l q with
      | some v => some v
      | none => alGet m q := by
  induction l with
  | nil => simp [alGet]
  | cons p rest ih =>
    obtain ⟨a, b⟩ := p
    by_cases haq : a = q <;> simp [alGet, haq, ih]

theorem keysOf_alSet {β : Type _} (l : List (Key × β)) (k : Key) (v : β) :
    keysOf (alSet l k v) = keysOf l := by
  induction l with
  | nil => rfl
  | cons p rest ih =>
    obtain ⟨a, b⟩ := p
    by_cases hak : a = k <;> simp [alSet, keysOf, hak] at * <;> simp [ih]

theorem length_alSet {β : Type _} (l : List (Key × β)) (k : Key) (v : β) :
    (alSet l k v).length = l.length := by
  have := congrArg List.length (keysOf_alSet l k v)
  simpa [keysOf] using this

/-- The refcount-increment loop succeeds when every key is present, and
then each refcount grows by the number of occurrences of its key. -/
theorem incrEach_ok (ks : List Key) (rc : List (Key × Nat))
    (h : ∀ k ∈ ks, (alGet rc k).isSome) :
    (incrEach ks rc).1 = none ∧
    ∀ q, alGet (incrEach ks rc).2 q = (alGet rc q).map (fun c => c + ks.count q) := by
  induction ks generalizing rc with
  | nil => simp [incrEach]
  | cons k rest ih =>
    have hk : (alGet rc k).isSome := h k (by simp)
    obtain ⟨c, hc⟩ := Option.isSome_iff_exists.mp hk
    have hrest : ∀ j ∈ rest, (alGet (alSet rc k (c + 1)) j).isSome := by
      intro j hj
      rw [alGet_alSet]
      by_cases hjk : j = k
      · simp [hjk, hc]
      · simpa [hjk] using h j (by simp [hj])
    obtain ⟨h1, h2⟩ := ih (alSet rc k (c + 1)) hrest
    constructor
    · simpa [incrEach, hc] using h1
    · intro q
      have := h2 q
      rw [alGet_alSet] at this
      by_cases hqk : q = k
      · subst hqk
        simp only [incrEach, hc]
        rw [this]
        simp [hc, List.count_cons]
        ring
      · simp only [incrEach, hc]
        rw [this]
        simp [hqk, List.count_cons]

/-! ### Concrete graphs used in counterexamples and witnesses

All of them are produced through the public construction API, so they are
states a client of the library can reach. -/

/-- A graph with an unreachable two-node chain: node 0 is the input of
node 1, both unreachable from the output node 2. -/
def deadChainGraph : ComputationGraph Nat :=
  let s0 := newGraph Nat 7
  let i0 := insert_node s0 "u" (fun _ => 1)
  let i1 := insert_node i0.1 "v" (fun _ => 2)
  let s1 := (set_inputs i1.1 i1.2 [i0.2]).2
  let i2 := insert_node s1 "w" (fun _ => 3)
  (designate_output i2.1 i2.2).2

/-- A graph with an unreachable two-node cycle: nodes 0 and 1 are each
the input of the other, both unreachable from the output node 2. -/
def deadCycleGraph : ComputationGraph Nat :=
  let s0 := newGraph Nat 7
  let i0 := insert_node s0 "p" (fun _ => 4)
  let i1 := insert_node i0.1 "q" (fun _ => 5)
  let s1 := (set_inputs i1.1 i1.2 [i0.2]).2
  let s2 := (set_inputs s1 i0.2 [i1.2]).2
  let i2 := insert_node s2 "r" (fun _ => 6)
  (designate_output i2.1 i2.2).2

/-!
### C1 — code bug

CLAIM C1 states that for every acyclic, fully wired graph with a
designated output, `compute` invokes every node reachable from the
output exactly once and after its inputs.  `deadChainGraph` is such a
graph (acyclic, every input wired, output designated), yet `compute`
panics inside the dead-code sweep before invoking any function: the
sweep visits slot 0 first, removes its refcount entry, and then the
sweep of node 1 calls `self.node_refcount.get_mut(0).unwrap()` on the
removed entry.  The claim (and the spec) describe the clearly intended
behaviour; the `unwrap` on a possibly already-swept input is the slip.
-/

/-- Claim C1: evaluation of the code at the failing input.  On the
acyclic, fully wired graph `deadChainGraph` the code panics during the
sweep after removing node 0 and invokes no node function at all, while
the claim demands that node 2 be invoked exactly once and the value 3
be returned. -/
theorem c1_compute_panics_on_dead_chain :
    compute deadChainGraph =
      (Except.error PanicErr.sweepMissingRefcount, [TraceEv.sweepRemove 0]) := rfl

/-!
### C4 — code bug

CLAIM C4 states that the dead-code sweep removes exactly the
unreachable nodes and decrements the counter of each removed node input
exactly once per occurrence, including when that input is itself an
unreachable node removed by the same sweep.  In `deadCycleGraph` the
sweep first removes node 0 (decrementing node 1 and deleting the
refcount entry of node 0) and then, while removing node 1, panics on
`get_mut(0).unwrap()` because the entry of node 0 is already gone.
Whichever direction `retain` iterates, one of the two nodes of the dead
cycle hits this panic, so the decrement the claim (and spec §4.3)
promises never completes.
-/

/-- Claim C4: evaluation of the code at the failing input.  On
`deadCycleGraph` the sweep removes node 0 and then panics instead of
completing the removal of the unreachable set and the per-occurrence
decrements. -/
theorem c4_sweep_panics_on_dead_cycle :
    compute deadCycleGraph =
      (Except.error PanicErr.sweepMissingRefcount, [TraceEv.sweepRemove 0]) := rfl

/-!
### C7 — designate_output
-/

/-- Claim C7: for a handle actually issued by the graph (so its key is
present whenever its token matches), `designate_output` fails exactly
when an output was already designated or the handle belongs to another
graph; on failure the graph is unchanged (so a repeated call leaves the
first designation intact), and on success the node is recorded as
output and only its refcount is incremented, by exactly one. -/
theorem c7_designate_output_spec {T : Type} (g : ComputationGraph T) (h : NodeHandle)
    (hiss : h.graph_id = g.graph_id →
      (alGet g.node_storage h.node_key).isSome ∧ (alGet g.node_refcount h.node_key).isSome) :
    ((designate_output g h).1.isSome ↔ (g.output_node.isSome ∨ h.graph_id ≠ g.graph_id)) ∧
    ((designate_output g h).1.isSome → (designate_output g h).2 = g) ∧
    ((designate_output g h).1 = none →
      (designate_output g h).2.output_node = some h.node_key ∧
      (designate_output g h).2.node_storage = g.node_storage ∧
      ∀ q, alGet (designate_output g h).2.node_refcount q =
        if q = h.node_key then (alGet g.node_refcount q).map (fun c => c + 1)
        else alGet g.node_refcount q) := by
  by_cases hout : g.output_node.isSome
  · simp [designate_output, hout]
  · by_cases hgid : h.graph_id = g.graph_id
    · obtain ⟨hs, hr⟩ := hiss hgid
      obtain ⟨nd, hnd⟩ := Option.isSome_iff_exists.mp hs
      obtain ⟨c, hc⟩ := Option.isSome_iff_exists.mp hr
      refine ⟨?_, ?_, ?_⟩
      · simp [designate_output, hout, hgid, hnd, hc]
      · simp [designate_output, hout, hgid, hnd, hc]
      · intro _
        refine ⟨?_, ?_, ?_⟩
        · simp [designate_output, hout, hgid, hnd, hc]
        · simp [designate_output, hout, hgid, hnd, hc]
        · intro q
          simp only [designate_output, hout, hgid]
          simp [hnd, hc, alGet_alSet]
          by_cases hq : q = h.node_key
          · simp [hq, hc]
          · simp [hq]
    · simp [designate_output, hout, hgid]

/-- Witness for C7 at a concrete input: a one-node graph with no output
designated; the call succeeds, records node 0 as output, and bumps its
refcount from 0 to 1. -/
theorem c7_designate_output_spec_witness :
    ((designate_output (insert_node (newGraph Nat 7) "n" (fun _ => 0)).1
        (insert_node (newGraph Nat 7) "n" (fun _ => 0)).2).1.isSome ↔
      ((insert_node (newGraph Nat 7) "n" (fun _ => 0)).1.output_node.isSome ∨
        (insert_node (newGraph Nat 7) "n" (fun _ => 0)).2.graph_id ≠
          (insert_node (newGraph Nat 7) "n" (fun _ => 0)).1.graph_id)) ∧
    ((designate_output (insert_node (newGraph Nat 7) "n" (fun _ => 0)).1
        (insert_node (newGraph Nat 7) "n" (fun _ => 0)).2).1.isSome →
      (designate_output (insert_node (newGraph Nat 7) "n" (fun _ => 0)).1
        (insert_node (newGraph Nat 7) "n" (fun _ => 0)).2).2 =
        (insert_node (newGraph Nat 7) "n" (fun _ => 0)).1) ∧
    ((designate_output (insert_node (newGraph Nat 7) "n" (fun _ => 0)).1
        (insert_node (newGraph Nat 7) "n" (fun _ => 0)).2).1 = none →
      (designate_output (insert_node (newGraph Nat 7) "n" (fun _ => 0)).1
        (insert_node (newGraph Nat 7) "n" (fun _ => 0)).2).2.output_node = some
          (insert_node (newGraph Nat 7) "n" (fun _ => 0)).2.node_key ∧
      (designate_output (insert_node (newGraph Nat 7) "n" (fun _ => 0)).1
        (insert_node (newGraph Nat 7) "n" (fun _ => 0)).2).2.node_storage =
        (insert_node (newGraph Nat 7) "n" (fun _ => 0)).1.node_storage ∧
      ∀ q, alGet (designate_output (insert_node (newGraph Nat 7) "n" (fun _ => 0)).1
          (insert_node (newGraph Nat 7) "n" (fun _ => 0)).2).2.node_refcount q =
        if q = (insert_node (newGraph Nat 7) "n" (fun _ => 0)).2.node_key then
          (alGet (insert_node (newGraph Nat 7) "n" (fun _ => 0)).1.node_refcount q).map
            (fun c => c + 1)
        else alGet (insert_node (newGraph Nat 7) "n" (fun _ => 0)).1.node_refcount q) :=
  c7_designate_output_spec
    (insert_node (newGraph Nat 7) "n" (fun _ => 0)).1
    (insert_node (newGraph Nat 7) "n" (fun _ => 0)).2
    (fun _ => ⟨rfl, rfl⟩)

/-!
### C9 — direct self-loop rejection
-/

/-- Claim C9: calling `set_inputs` on a node of this graph with an input
list containing the node itself fails immediately with the self-loop
panic, and the returned state is the unchanged graph — no input list
and no refcount was touched. -/
theorem c9_set_inputs_self_loop {T : Type} (g : ComputationGraph T) (h : NodeHandle)
    (inputs : List NodeHandle)
    (hgid : h.graph_id = g.graph_id)
    (hmem : h.node_key ∈ inputs.map (fun x => x.node_key)) :
    set_inputs g h inputs = (some PanicErr.selfLoop, g) := by
  simp [set_inputs, hgid, hmem]

/-- Witness for C9 at a concrete input: wiring node 0 with itself in the
input list fails and leaves the graph unchanged. -/
theorem c9_set_inputs_self_loop_witness :
    set_inputs (insert_node (newGraph Nat 7) "n" (fun _ => 0)).1
      (insert_node (newGraph Nat 7) "n" (fun _ => 0)).2
      [(insert_node (newGraph Nat 7) "n" (fun _ => 0)).2] =
      (some PanicErr.selfLoop, (insert_node (newGraph Nat 7) "n" (fun _ => 0)).1) :=
  c9_set_inputs_self_loop _ _ _ rfl (by simp)

/-!
### C10 — re-wiring a node never decrements the old inputs
-/

/-- Claim C10: a successful `set_inputs` call replaces the input list of
the target node with the new list and adds one to the refcount of every
key per occurrence in the new list, while every other refcount — in
particular those of the previously declared inputs — is left exactly as
it was (no decrement compensates for the replaced list). -/
theorem c10_set_inputs_replaces_without_decrement {T : Type}
    (g : ComputationGraph T) (h : NodeHandle) (inputs : List NodeHandle)
    (hgid : h.graph_id = g.graph_id)
    (hself : h.node_key ∉ inputs.map (fun x => x.node_key))
    (hpres : ∀ k ∈ inputs.map (fun x => x.node_key), (alGet g.node_refcount k).isSome)
    (htgt : (alGet g.node_storage h.node_key).isSome) :
    (set_inputs g h inputs).1 = none ∧
    (∀ q, alGet (set_inputs g h inputs).2.node_storage q =
      if q = h.node_key then
        (alGet g.node_storage q).map
          (fun nd => { nd with input_nodes := inputs.map (fun x => x.node_key) })
      else alGet g.node_storage q) ∧
    (∀ q, alGet (set_inputs g h inputs).2.node_refcount q =
      (alGet g.node_refcount q).map
        (fun c => c + (inputs.map (fun x => x.node_key)).count q)) := by
  obtain ⟨nd, hnd⟩ := Option.isSome_iff_exists.mp htgt
  obtain ⟨h1, h2⟩ := incrEach_ok (inputs.map (fun x => x.node_key)) g.node_refcount hpres
  obtain ⟨rc2, hrc2⟩ : ∃ rc2, incrEach (inputs.map (fun x => x.node_key)) g.node_refcount =
      (none, rc2) := by
    cases hie : incrEach (inputs.map (fun x => x.node_key)) g.node_refcount with
    | mk a b =>
      rw [hie] at h1
      simp at h1
      exact ⟨b, by rw [h1]⟩
  refine ⟨?_, ?_, ?_⟩
  · simp [set_inputs, hgid, hself, hrc2, hnd]
  · intro q
    simp only [set_inputs, hgid]
    simp only [if_neg (by simp : ¬ (¬ g.graph_id = g.graph_id)), if_neg hself, hrc2, hnd]
    simp only [alGet_alSet]
    by_cases hq : q = h.node_key
    · simp [hq, hnd]
    · simp [hq]
  · intro q
    have := h2 q
    rw [hrc2] at this
    simp [set_inputs, hgid, hself, hrc2, hnd]
    exact this

/-- Witness for C10 at a concrete input: node 1 is first wired to node 0
and then re-wired to node 0 again; the theorem applies to the second
call on the once-wired graph, whose refcount for node 0 is already 1. -/
theorem c10_set_inputs_replaces_without_decrement_witness :
    (set_inputs
        (set_inputs
          (insert_node (insert_node (newGraph Nat 7) "a" (fun _ => 1)).1 "b"
            (fun _ => 2)).1
          (insert_node (insert_node (newGraph Nat 7) "a" (fun _ => 1)).1 "b"
            (fun _ => 2)).2
          [(insert_node (newGraph Nat 7) "a" (fun _ => 1)).2]).2
        (insert_node (insert_node (newGraph Nat 7) "a" (fun _ => 1)).1 "b"
          (fun _ => 2)).2
        [(insert_node (newGraph Nat 7) "a" (fun _ => 1)).2]).1 = none ∧
    (∀ q, alGet (set_inputs
        (set_inputs
          (insert_node (insert_node (newGraph Nat 7) "a" (fun _ => 1)).1 "b"
            (fun _ => 2)).1
          (insert_node (insert_node (newGraph Nat 7) "a" (fun _ => 1)).1 "b"
            (fun _ => 2)).2
          [(insert_node (newGraph Nat 7) "a" (fun _ => 1)).2]).2
        (insert_node (insert_node (newGraph Nat 7) "a" (fun _ => 1)).1 "b"
          (fun _ => 2)).2
        [(insert_node (newGraph Nat 7) "a" (fun _ => 1)).2]).2.node_storage q =
      if q = (insert_node (insert_node (newGraph Nat 7) "a" (fun _ => 1)).1 "b"
          (fun _ => 2)).2.node_key then
        (alGet (set_inputs
          (insert_node (insert_node (newGraph Nat 7) "a" (fun _ => 1)).1 "b"
            (fun _ => 2)).1
          (insert_node (insert_node (newGraph Nat 7) "a" (fun _ => 1)).1 "b"
            (fun _ => 2)).2
          [(insert_node (newGraph Nat 7) "a" (fun _ => 1)).2]).2.node_storage q).map
          (fun nd => { nd with
            input_nodes := [(insert_node (newGraph Nat 7) "a" (fun _ => 1)).2].map
              (fun x => x.node_key) })
      else alGet (set_inputs
          (insert_node (insert_node (newGraph Nat 7) "a" (fun _ => 1)).1 "b"
            (fun _ => 2)).1
          (insert_node (insert_node (newGraph Nat 7) "a" (fun _ => 1)).1 "b"
            (fun _ => 2)).2
          [(insert_node (newGraph Nat 7) "a" (fun _ => 1)).2]).2.node_storage q) ∧
    (∀ q, alGet (set_inputs
        (set_inputs
          (insert_node (insert_node (newGraph Nat 7) "a" (fun _ => 1)).1 "b"
            (fun _ => 2)).1
          (insert_node (insert_node (newGraph Nat 7) "a" (fun _ => 1)).1 "b"
            (fun _ => 2)).2
          [(insert_node (newGraph Nat 7) "a" (fun _ => 1)).2]).2
        (insert_node (insert_node (newGraph Nat 7) "a" (fun _ => 1)).1 "b"
          (fun _ => 2)).2
        [(insert_node (newGraph Nat 7) "a" (fun _ => 1)).2]).2.node_refcount q =
      (alGet (set_inputs
          (insert_node (insert_node (newGraph Nat 7) "a" (fun _ => 1)).1 "b"
            (fun _ => 2)).1
          (insert_node (insert_node (newGraph Nat 7) "a" (fun _ => 1)).1 "b"
            (fun _ => 2)).2
          [(insert_node (newGraph Nat 7) "a" (fun _ => 1)).2]).2.node_refcount q).map
        (fun c => c + ([(insert_node (newGraph Nat 7) "a" (fun _ => 1)).2].map
          (fun x => x.node_key)).count q)) :=
  c10_set_inputs_replaces_without_decrement _ _ _ rfl (by decide)
    (by intro k hk; fin_cases hk <;> rfl) rfl

/-!
### C3 — the refcount invariant and builder operation sequences

The claims quantify over sequences of builder operations, so we model a
client program as a list of operations; node references inside an
operation are indices into the list of handles issued so far, which is
exactly what a client holding the returned handles can express. -/

/-- One public builder call. -/
inductive BuildOp (T : Type) where
  | insertNode (name : String) (f : List T → T)
  | setInputs (target : Nat) (inputs : List Nat)
  | designateOutput (target : Nat)

/-- Run a list of builder calls, threading the graph and the issued
handles; `none` when a call panics or an index refers to a handle that
was never issued. -/
def runOps {T : Type} : List (BuildOp T) → ComputationGraph T → List NodeHandle →
    Option (ComputationGraph T × List NodeHandle)
  | [], g, hs => some (g, hs)
  | .insertNode name f :: rest, g, hs =>
      runOps rest (insert_node g name f).1 (hs ++ [(insert_node g name f).2])
  | .setInputs t ins :: rest, g, hs =>
      match hs.get? t, ins.mapM hs.get? with
      | some h, some ihs =>
        match set_inputs g h ihs with
        | (none, g2) => runOps rest g2 hs
        | (some _, _) => none
      | _, _ => none
  | .designateOutput t :: rest, g, hs =>
      match hs.get? t with
      | some h =>
        match designate_output g h with
        | (none, g2) => runOps rest g2 hs
        | (some _, _) => none
      | none => none

/-- Run builder calls against a fresh graph with instance token `gid`. -/
def buildGraph {T : Type} (gid : Nat) (ops : List (BuildOp T)) :
    Option (ComputationGraph T × List NodeHandle) :=
  runOps ops (newGraph T gid) []

/-- Number of not-yet-satisfied consumers of a node in a builder-phase
graph: occurrences in the input lists of the stored nodes plus one for
the output designation. -/
def consumers {T : Type} (g : ComputationGraph T) (k : Key) : Nat :=
  (g.node_storage.map (fun p => p.2.input_nodes.count k)).sum +
    (if g.output_node = some k then 1 else 0)

/-- The invariant claimed by the spec: every stored node carries a
refcount entry equal to its consumer count, and no other refcount
entries exist. -/
def RefcountInvariant {T : Type} (g : ComputationGraph T) : Prop :=
  ∀ k, alGet g.node_refcount k =
    if (alGet g.node_storage k).isSome then some (consumers g k) else none

/-- The operation sequence of the C3 counterexample: two nodes, with the
second wired to the first twice. -/
def c3Ops : List (BuildOp Nat) :=
  [BuildOp.insertNode "a" (fun _ => 1),
   BuildOp.insertNode "b" (fun xs => xs.foldl (· + ·) 0),
   BuildOp.setInputs 1 [0],
   BuildOp.setInputs 1 [0]]

/-- The graph reached by running `c3Ops` through the public API. -/
def doubleWireGraph : ComputationGraph Nat :=
  let i0 := insert_node (newGraph Nat 7) "a" (fun _ => 1)
  let i1 := insert_node i0.1 "b" (fun xs => xs.foldl (· + ·) 0)
  let s1 := (set_inputs i1.1 i1.2 [i0.2]).2
  (set_inputs s1 i1.2 [i0.2]).2

/-- Claim C3 is false as stated: after the builder sequence `c3Ops`
(every call of which succeeds) node 0 has exactly one consumer — it
occurs once in the current input list of node 1 and is not the output —
but its live-reference counter is 2, because the second `set_inputs`
incremented it again without decrementing for the replaced list. -/
theorem c3_counterexample :
    ∃ g hs, buildGraph (T := Nat) 7 c3Ops = some (g, hs) ∧
      alGet g.node_refcount 0 = some 2 ∧ consumers g 0 = 1 ∧
      ¬ RefcountInvariant g := by
  refine ⟨doubleWireGraph, [⟨0, 7⟩, ⟨1, 7⟩], rfl, rfl, rfl, fun hinv => ?_⟩
  have h0 := hinv 0
  revert h0
  decide

/-!
### C5 — when are zero-refcount inputs removed?

The claim says they are removed immediately after — not before — the
invocation of the node whose step zeroed their counter.  The code does
the opposite: the `for old_key in nodes_cleanup` removal loop runs
before `node.eval`. -/

/-- A two-node chain: node 0 (const 5) is the input of the output node 1;
the counter of node 0 reaches zero during the step of node 1. -/
def chainGraph : ComputationGraph Nat :=
  let i0 := insert_node (newGraph Nat 7) "a" (fun _ => 5)
  let i1 := insert_node i0.1 "b" (fun xs => xs.foldl (· + ·) 0)
  let s1 := (set_inputs i1.1 i1.2 [i0.2]).2
  (designate_output s1 i1.2).2

/-- Claim C5 is false as stated: in the step of node 1 the counter of
input node 0 reaches zero, so the claim requires the removal of node 0
to appear after the invocation of node 1 in the event trace; in the
actual trace the removal (index 1) precedes the invocation (index 2),
so no invocation-before-removal pair of positions exists. -/
theorem c5_counterexample :
    compute chainGraph = (Except.ok 5,
      [TraceEv.invoke 0 [], TraceEv.removeNode 0, TraceEv.invoke 1 [5]]) ∧
    ¬ ∃ i j : Nat, i < j ∧
        (compute chainGraph).2.get? i = some (TraceEv.invoke 1 [5]) ∧
        (compute chainGraph).2.get? j = some (TraceEv.removeNode 0) := by
  refine ⟨rfl, ?_⟩
  rintro ⟨i, j, hij, hi, hj⟩
  have htr : (compute chainGraph).2 =
      [TraceEv.invoke 0 [], TraceEv.removeNode 0, TraceEv.invoke 1 [5]] := rfl
  rw [htr] at hi hj
  have hi2 : i = 2 := by
    match i, hi with
    | 0, hi => exact absurd hi (by decide)
    | 1, hi => exact absurd hi (by decide)
    | 2, _ => rfl
    | n + 3, hi => exact absurd hi (by simp)
  have hj1 : j = 1 := by
    match j, hj with
    | 0, hj => exact absurd hj (by decide)
    | 1, _ => rfl
    | 2, hj => exact absurd hj (by decide)
    | n + 3, hj => exact absurd hj (by simp)
  omega

/-- Shape of the event trace emitted by the evaluation loop: one segment
per executed node, consisting of the removals of the inputs whose
counter reached zero in this step followed by the invocation of the
node. -/
inductive StepTrace {T : Type} : List (TraceEv T) → Prop
  | nil : StepTrace []
  | step (ks : List Key) (n : Key) (args : List T) (rest : List (TraceEv T)) :
      StepTrace rest →
      StepTrace (ks.map TraceEv.removeNode ++ TraceEv.invoke n args :: rest)

theorem sweepStorage_trace_all_sweep {T : Type} (keep : List Key)
    (s : List (Key × Node T)) (rc : List (Key × Nat)) :
    ∀ e ∈ (sweepStorage keep s rc).2.2.2, ∃ k, e = TraceEv.sweepRemove k := by
  induction s generalizing rc with
  | nil => simp [sweepStorage_nil]
  | cons p rest ih =>
    obtain ⟨k, nd⟩ := p
    by_cases hk : k ∈ keep
    · rw [sweepStorage_cons_keep keep k nd rest rc hk]
      intro ev hev
      exact ih rc ev hev
    · cases hd : (decEach nd.input_nodes rc).1 with
      | some e =>
        rw [sweepStorage_cons_dead_err keep k nd rest rc e hk hd]
        simp
      | none =>
        rw [sweepStorage_cons_dead_ok keep k nd rest rc hk hd]
        intro ev hev
        simp only [List.mem_cons] at hev
        rcases hev with hev | hev
        · exact ⟨k, hev⟩
        · exact ih _ ev hev

theorem runStep_ok_trace {T : Type} (n : Key) (st : LoopState T)
    (h : (runStep n st).1 = none) :
    ∃ (ks : List Key) (args : List T),
      (runStep n st).2.2 = ks.map TraceEv.removeNode ++ [TraceEv.invoke n args] := by
  cases h1 : alGet st.storage n with
  | none => rw [runStep_missing n st h1] at h; simp at h
  | some nd =>
    cases h2 : (stepInputs nd.input_nodes st).1 with
    | some e => rw [runStep_inputErr n st nd e h1 h2] at h; simp at h
    | none =>
      cases h3 : alGet (removeKeys (stepInputs nd.input_nodes st).2.2.2
          (stepInputs nd.input_nodes st).2.1).storage n with
      | none => rw [runStep_goneSelf n st nd h1 h2 h3] at h; simp at h
      | some nd2 =>
        cases h4 : nd2.output_cache with
        | some v => rw [runStep_already n st nd nd2 v h1 h2 h3 h4] at h; simp at h
        | none =>
          rw [runStep_ok n st nd nd2 h1 h2 h3 h4]
          exact ⟨_, _, rfl⟩

theorem runLoop_ok_stepTrace {T : Type} (order : List Key) :
    ∀ st : LoopState T, (runLoop order st).1 = none →
      StepTrace (runLoop order st).2.2 := by
  induction order with
  | nil =>
    intro st _
    exact StepTrace.nil
  | cons n rest ih =>
    intro st h
    cases h1 : (runStep n st).1 with
    | some e => rw [runLoop_cons_err n rest st e h1] at h; simp at h
    | none =>
      rw [runLoop_cons_ok n rest st h1] at h ⊢
      obtain ⟨ks, args, hshape⟩ := runStep_ok_trace n st h1
      show StepTrace ((runStep n st).2.2 ++ (runLoop rest (runStep n st).2.1).2.2)
      rw [hshape, List.append_assoc]
      exact StepTrace.step ks n args _ (ih _ h)

theorem computation_order_trace_all_sweep {T : Type} (g : ComputationGraph T) :
    ∀ e ∈ (computation_order g).2.2.2, ∃ k, e = TraceEv.sweepRemove k := by
  cases hout : g.output_node with
  | none =>
    rw [computation_order_noOutput g hout]
    simp
  | some out =>
    cases hts : toposort_helper g.node_storage (fuelBound g.node_storage) [out] [] [] with
    | error e =>
      rw [computation_order_tsErr g out e hout hts]
      simp
    | ok sort_list =>
      cases hsw : (sweepStorage sort_list g.node_storage g.node_refcount).1 with
      | some e =>
        rw [computation_order_sweepErr g out sort_list e hout hts hsw]
        exact sweepStorage_trace_all_sweep sort_list g.node_storage g.node_refcount
      | none =>
        rw [computation_order_ok g out sort_list hout hts hsw]
        exact sweepStorage_trace_all_sweep sort_list g.node_storage g.node_refcount

/-- Claim C5, amended: in every successful `compute` run the trace is the
sweep removals followed by one segment per executed node, and inside
each segment the removals of the inputs whose counter reached zero in
this step come immediately before — not after — the invocation of the
node (the values of the removed inputs were already captured into the
shared references handed to the function). -/
theorem c5_removals_precede_invocation {T : Type} (g : ComputationGraph T)
    (v : T) (tr : List (TraceEv T)) (hc : compute g = (Except.ok v, tr)) :
    ∃ sweeps loopTr, tr = sweeps ++ loopTr ∧
      (∀ e ∈ sweeps, ∃ k, e = TraceEv.sweepRemove k) ∧ StepTrace loopTr := by
  cases hout : g.output_node with
  | none => rw [compute_noOutput g hout] at hc; simp at hc
  | some out =>
    cases h1 : (computation_order g).1 with
    | some e => rw [compute_orderErr g out e hout h1] at hc; simp at hc
    | none =>
      cases h2 : (runLoop (computation_order g).2.2.1
          ⟨(computation_order g).2.1.node_storage,
            (computation_order g).2.1.node_refcount, []⟩).1 with
      | some e => rw [compute_loopErr g out e hout h1 h2] at hc; simp at hc
      | none =>
        rw [compute_finalized g out hout h1 h2] at hc
        cases h3 : finalize out (runLoop (computation_order g).2.2.1
            ⟨(computation_order g).2.1.node_storage,
              (computation_order g).2.1.node_refcount, []⟩).2.1 with
        | error e => rw [h3] at hc; simp at hc
        | ok v2 =>
          rw [h3] at hc
          simp only [Prod.mk.injEq, Except.ok.injEq] at hc
          refine ⟨(computation_order g).2.2.2,
            (runLoop (computation_order g).2.2.1
              ⟨(computation_order g).2.1.node_storage,
                (computation_order g).2.1.node_refcount, []⟩).2.2,
            hc.2.symm, ?_, ?_⟩
          · exact computation_order_trace_all_sweep g
          · exact runLoop_ok_stepTrace (computation_order g).2.2.1 _ h2

/-- Witness for the amended C5 at a concrete input: the successful run on
`chainGraph` decomposes into no sweep removals and the step segments of
nodes 0 and 1. -/
theorem c5_removals_precede_invocation_witness :
    ∃ sweeps loopTr,
      [TraceEv.invoke 0 [], TraceEv.removeNode 0, TraceEv.invoke 1 [5]] =
        sweeps ++ loopTr ∧
      (∀ e ∈ sweeps, ∃ k, e = TraceEv.sweepRemove k) ∧ StepTrace loopTr :=
  c5_removals_precede_invocation chainGraph 5
    [TraceEv.invoke 0 [], TraceEv.removeNode 0, TraceEv.invoke 1 [5]] rfl

/-!
### Toposort theory

Paths and reachability follow the input edges (from a node towards its
inputs, opposite to the data flow, exactly as the DFS of the source
walks them). -/

/-- Nonempty path along input edges. -/
inductive PathPos {T : Type} (s : List (Key × Node T)) : Key → Key → Prop
  | single {m i : Key} : i ∈ inputsOf s m → PathPos s m i
  | cons {m i j : Key} : i ∈ inputsOf s m → PathPos s i j → PathPos s m j

/-- Reflexive reachability along input edges from a root. -/
inductive Reach {T : Type} (s : List (Key × Node T)) (root : Key) : Key → Prop
  | refl : Reach s root root
  | step {m i : Key} : Reach s root m → i ∈ inputsOf s m → Reach s root i

theorem Reach_trans {T : Type} (s : List (Key × Node T)) {a b c : Key}
    (h1 : Reach s a b) (h2 : Reach s b c) : Reach s a c := by
  induction h2 with
  | refl => exact h1
  | step _ hedge ih => exact Reach.step ih hedge

theorem PathPos_snoc {T : Type} (s : List (Key × Node T)) {a b i : Key}
    (h : PathPos s a b) (hedge : i ∈ inputsOf s b) : PathPos s a i := by
  induction h with
  | single h1 => exact PathPos.cons h1 (PathPos.single hedge)
  | cons h1 _ ih => exact PathPos.cons h1 (ih hedge)

/-- A finish list is well ordered when the inputs of every element occur
strictly below it (later in the list). -/
def WellOrdered {T : Type} (s : List (Key × Node T)) : List Key → Prop
  | [] => True
  | m :: ys => (∀ i ∈ inputsOf s m, i ∈ ys) ∧ WellOrdered s ys

theorem WellOrdered_split {T : Type} (s : List (Key × Node T)) :
    ∀ xs (m : Key) ys, WellOrdered s (xs ++ m :: ys) → ∀ i ∈ inputsOf s m, i ∈ ys := by
  intro xs
  induction xs with
  | nil => intro m ys h; exact h.1
  | cons x xs ih => intro m ys h; exact ih m ys h.2

theorem WellOrdered_mem_closed {T : Type} (s : List (Key × Node T)) (l : List Key)
    (hwo : WellOrdered s l) {m i : Key} (hm : m ∈ l) (hi : i ∈ inputsOf s m) : i ∈ l := by
  obtain ⟨xs, ys, hsplit⟩ := List.append_of_mem hm
  subst hsplit
  have := WellOrdered_split s xs m ys hwo i hi
  simp [this]

theorem PathPos_below {T : Type} (s : List (Key × Node T)) (l : List Key)
    (hwo : WellOrdered s l) {m j : Key} (hp : PathPos s m j) :
    ∀ xs ys, l = xs ++ m :: ys → j ∈ ys := by
  induction hp generalizing l with
  | single h1 =>
    intro xs ys hsplit
    subst hsplit
    exact WellOrdered_split s xs _ ys hwo _ h1
  | cons h1 hp' ih =>
    rename_i m0 i0 j0
    intro xs ys hsplit
    subst hsplit
    have hi := WellOrdered_split s xs m0 ys hwo i0 h1
    obtain ⟨as, bs, hys⟩ := List.append_of_mem hi
    subst hys
    have hj := ih (xs ++ m0 :: (as ++ i0 :: bs)) hwo (xs ++ m0 :: as) bs (by simp)
    simp [hj]

theorem no_self_path_of_wellOrdered {T : Type} (s : List (Key × Node T)) (l : List Key)
    (hwo : WellOrdered s l) (hnd : l.Nodup) {n : Key} (hn : n ∈ l) :
    ¬ PathPos s n n := by
  intro hp
  obtain ⟨xs, ys, hsplit⟩ := List.append_of_mem hn
  have hmem : n ∈ ys := PathPos_below s l hwo hp xs ys hsplit
  subst hsplit
  have := (List.nodup_append.mp hnd).2.1
  simp at this
  exact this.1 hmem

theorem ts_error_cases {T : Type} (s : List (Key × Node T)) :
    ∀ fuel (l fl temp : List Key) (e : PanicErr),
      toposort_helper s fuel l fl temp = .error e →
      e = .cycleDetected ∨ e = .missingStorage ∨ e = .fuelOut := by
  intro fuel
  induction fuel with
  | zero =>
    intro l fl temp e h
    cases l with
    | nil => rw [ts_nil] at h; exact absurd h (by simp)
    | cons node rest =>
      rw [ts_zero] at h
      simp at h
      simp [h]
  | succ fuel ih =>
    intro l fl temp e h
    cases l with
    | nil => rw [ts_nil] at h; exact absurd h (by simp)
    | cons node rest =>
      by_cases hfl : node ∈ fl
      · rw [ts_cons_mem s fuel node rest fl temp hfl] at h
        exact ih rest fl temp e h
      · by_cases htemp : node ∈ temp
        · rw [ts_cons_cycle s fuel node rest fl temp hfl htemp] at h
          simp at h
          simp [h]
        · cases hs : alGet s node with
          | none =>
            rw [ts_cons_missing s fuel node rest fl temp hfl htemp hs] at h
            simp at h
            simp [h]
          | some nd =>
            cases hrec : toposort_helper s fuel nd.input_nodes fl (node :: temp) with
            | error e2 =>
              rw [ts_cons_visit_err s fuel node rest fl temp nd e2 hfl htemp hs hrec] at h
              simp at h
              subst h
              exact ih nd.input_nodes fl (node :: temp) e2 hrec
            | ok fl2 =>
              rw [ts_cons_visit_ok s fuel node rest fl temp nd fl2 hfl htemp hs hrec] at h
              exact ih rest (node :: fl2) temp e h

/-- Closure of the arena: every input edge of a stored node points to a
stored node. -/
def Closed {T : Type} (s : List (Key × Node T)) : Prop :=
  ∀ k : Key, ∀ i ∈ inputsOf s k, (alGet s i).isSome

theorem ts_no_missing {T : Type} (s : List (Key × Node T)) (hcl : Closed s) :
    ∀ fuel (l fl temp : List Key), (∀ k ∈ l, (alGet s k).isSome) →
      toposort_helper s fuel l fl temp ≠ .error .missingStorage := by
  intro fuel
  induction fuel with
  | zero =>
    intro l fl temp hl h
    cases l with
    | nil => rw [ts_nil] at h; exact absurd h (by simp)
    | cons node rest => rw [ts_zero] at h; simp at h
  | succ fuel ih =>
    intro l fl temp hl h
    cases l with
    | nil => rw [ts_nil] at h; exact absurd h (by simp)
    | cons node rest =>
      by_cases hfl : node ∈ fl
      · rw [ts_cons_mem s fuel node rest fl temp hfl] at h
        exact ih rest fl temp (fun k hk => hl k (by simp [hk])) h
      · by_cases htemp : node ∈ temp
        · rw [ts_cons_cycle s fuel node rest fl temp hfl htemp] at h
          simp at h
        · cases hs : alGet s node with
          | none =>
            have := hl node (by simp)
            rw [hs] at this
            simp at this
          | some nd =>
            cases hrec : toposort_helper s fuel nd.input_nodes fl (node :: temp) with
            | error e2 =>
              rw [ts_cons_visit_err s fuel node rest fl temp nd e2 hfl htemp hs hrec] at h
              simp at h
              subst h
              refine ih nd.input_nodes fl (node :: temp) ?_ hrec
              intro k hk
              have : k ∈ inputsOf s node := by simp [inputsOf, hs, hk]
              exact hcl node k this
            | ok fl2 =>
              rw [ts_cons_visit_ok s fuel node rest fl temp nd fl2 hfl htemp hs hrec] at h
              exact ih rest (node :: fl2) temp (fun k hk => hl k (by simp [hk])) h

/-- Fuel weight of the pending work: one unit per not-yet-visiting node
plus one per input edge of such a node. -/
def tsWeight {T : Type} (s : List (Key × Node T)) (temp : List Key) : Nat :=
  ((s.filter (fun p => p.1 ∉ temp)).map (fun p => 1 + p.2.input_nodes.length)).sum

theorem tsWeight_nil_storage {T : Type} (temp : List Key) :
    tsWeight (T := T) [] temp = 0 := rfl

theorem tsWeight_cons {T : Type} (a : Key) (b : Node T) (rest : List (Key × Node T))
    (temp : List Key) :
    tsWeight ((a, b) :: rest) temp =
      (if a ∈ temp then 0 else 1 + b.input_nodes.length) + tsWeight rest temp := by
  by_cases ha : a ∈ temp
  · simp [tsWeight, List.filter_cons, ha]
  · simp [tsWeight, List.filter_cons, ha]

theorem tsWeight_cons_not_mem {T : Type} (s : List (Key × Node T)) (k : Key)
    (temp : List Key) (hk : k ∉ keysOf s) :
    tsWeight s (k :: temp) = tsWeight s temp := by
  induction s with
  | nil => rfl
  | cons p rest ih =>
    obtain ⟨a, b⟩ := p
    have hak : a ≠ k := by
      intro hh
      exact hk (by simp [keysOf, hh])
    have hrest : k ∉ keysOf rest := by
      intro hh
      refine hk ?_
      have : k ∈ keysOf rest := hh
      simp [keysOf] at this ⊢
      exact Or.inr this
    rw [tsWeight_cons, tsWeight_cons, ih hrest]
    have hmem : (a ∈ k :: temp) ↔ (a ∈ temp) := by simp [hak]
    rw [if_congr hmem rfl rfl]

theorem tsWeight_visit {T : Type} (s : List (Key × Node T)) (node : Key) (nd : Node T)
    (temp : List Key) (hnd : (keysOf s).Nodup) (hs : alGet s node = some nd)
    (htemp : node ∉ temp) :
    tsWeight s temp = tsWeight s (node :: temp) + 1 + nd.input_nodes.length := by
  induction s with
  | nil => simp [alGet] at hs
  | cons p rest ih =>
    obtain ⟨a, b⟩ := p
    have hnd2 : a ∉ keysOf rest ∧ (keysOf rest).Nodup := by
      have : keysOf ((a, b) :: rest) = a :: keysOf rest := rfl
      rw [this] at hnd
      exact List.nodup_cons.mp hnd
    rw [tsWeight_cons, tsWeight_cons]
    by_cases han : a = node
    · subst han
      have hb : b = nd := by
        rw [alGet_cons] at hs
        simpa using hs
      subst hb
      rw [tsWeight_cons_not_mem rest a temp hnd2.1]
      have h1 : a ∈ a :: temp := by simp
      rw [if_pos h1, if_neg htemp]
      omega
    · have hs2 : alGet rest node = some nd := by
        rw [alGet_cons] at hs
        simpa [han] using hs
      rw [ih hnd2.2 hs2]
      have hmem : (a ∈ node :: temp) ↔ (a ∈ temp) := by
        simp only [List.mem_cons]
        constructor
        · intro hh
          rcases hh with hh | hh
          · exact absurd hh han
          · exact hh
        · exact Or.inr
      rw [if_congr hmem rfl rfl]
      omega

theorem ts_no_fuelOut {T : Type} (s : List (Key × Node T))
    (hnd : (keysOf s).Nodup) :
    ∀ fuel (l fl temp : List Key), l.length + tsWeight s temp ≤ fuel →
      toposort_helper s fuel l fl temp ≠ .error .fuelOut := by
  intro fuel
  induction fuel with
  | zero =>
    intro l fl temp hle h
    cases l with
    | nil => rw [ts_nil] at h; exact absurd h (by simp)
    | cons node rest => simp at hle
  | succ fuel ih =>
    intro l fl temp hle h
    cases l with
    | nil => rw [ts_nil] at h; exact absurd h (by simp)
    | cons node rest =>
      by_cases hfl : node ∈ fl
      · rw [ts_cons_mem s fuel node rest fl temp hfl] at h
        refine ih rest fl temp ?_ h
        simp at hle
        omega
      · by_cases htemp : node ∈ temp
        · rw [ts_cons_cycle s fuel node rest fl temp hfl htemp] at h
          simp at h
        · cases hs : alGet s node with
          | none =>
            rw [ts_cons_missing s fuel node rest fl temp hfl htemp hs] at h
            simp at h
          | some nd =>
            have hw := tsWeight_visit s node nd temp hnd hs htemp
            cases hrec : toposort_helper s fuel nd.input_nodes fl (node :: temp) with
            | error e2 =>
              rw [ts_cons_visit_err s fuel node rest fl temp nd e2 hfl htemp hs hrec] at h
              simp at h
              subst h
              refine ih nd.input_nodes fl (node :: temp) ?_ hrec
              simp at hle
              omega
            | ok fl2 =>
              rw [ts_cons_visit_ok s fuel node rest fl temp nd fl2 hfl htemp hs hrec] at h
              refine ih rest (node :: fl2) temp ?_ h
              simp at hle
              omega

theorem ts_no_false_cycle {T : Type} (s : List (Key × Node T))
    (hacyc : ∀ n : Key, ¬ PathPos s n n) :
    ∀ fuel (l fl temp : List Key), (∀ t ∈ temp, ∀ k ∈ l, PathPos s t k) →
      toposort_helper s fuel l fl temp ≠ .error .cycleDetected := by
  intro fuel
  induction fuel with
  | zero =>
    intro l fl temp hstack h
    cases l with
    | nil => rw [ts_nil] at h; exact absurd h (by simp)
    | cons node rest => rw [ts_zero] at h; simp at h
  | succ fuel ih =>
    intro l fl temp hstack h
    cases l with
    | nil => rw [ts_nil] at h; exact absurd h (by simp)
    | cons node rest =>
      by_cases hfl : node ∈ fl
      · rw [ts_cons_mem s fuel node rest fl temp hfl] at h
        exact ih rest fl temp (fun t ht k hk => hstack t ht k (by simp [hk])) h
      · by_cases htemp : node ∈ temp
        · exact absurd (hstack node htemp node (by simp)) (hacyc node)
        · cases hs : alGet s node with
          | none =>
            rw [ts_cons_missing s fuel node rest fl temp hfl htemp hs] at h
            simp at h
          | some nd =>
            have hinp : inputsOf s node = nd.input_nodes := by simp [inputsOf, hs]
            cases hrec : toposort_helper s fuel nd.input_nodes fl (node :: temp) with
            | error e2 =>
              rw [ts_cons_visit_err s fuel node rest fl temp nd e2 hfl htemp hs hrec] at h
              simp at h
              subst h
              refine ih nd.input_nodes fl (node :: temp) ?_ hrec
              intro t ht k hk
              simp at ht
              rcases ht with ht | ht
              · subst ht
                exact PathPos.single (by rw [hinp]; exact hk)
              · exact PathPos_snoc s (hstack t ht node (by simp)) (by rw [hinp]; exact hk)
            | ok fl2 =>
              rw [ts_cons_visit_ok s fuel node rest fl temp nd fl2 hfl htemp hs hrec] at h
              exact ih rest (node :: fl2) temp
                (fun t ht k hk => hstack t ht k (by simp [hk])) h

theorem ts_ok_main {T : Type} (s : List (Key × Node T)) :
    ∀ fuel (l fl temp fl' : List Key),
      toposort_helper s fuel l fl temp = .ok fl' →
      (∃ new, fl' = new ++ fl ∧ ∀ m ∈ new, m ∉ fl ∧ m ∉ temp) ∧
      (∀ k ∈ l, k ∈ fl') ∧
      (WellOrdered s fl → WellOrdered s fl') ∧
      (fl.Nodup → fl'.Nodup) ∧
      (∀ m ∈ fl', m ∈ fl ∨ ∃ k ∈ l, Reach s k m) := by
  intro fuel
  induction fuel with
  | zero =>
    intro l fl temp fl' h
    cases l with
    | cons node rest => rw [ts_zero] at h; exact absurd h (by simp)
    | nil =>
      rw [ts_nil] at h
      have : fl = fl' := by simpa using h
      subst this
      exact ⟨⟨[], by simp⟩, by simp, id, id, fun m hm => Or.inl hm⟩
  | succ fuel ih =>
    intro l fl temp fl' h
    cases l with
    | nil =>
      rw [ts_nil] at h
      have : fl = fl' := by simpa using h
      subst this
      exact ⟨⟨[], by simp⟩, by simp, id, id, fun m hm => Or.inl hm⟩
    | cons node rest =>
      by_cases hfl : node ∈ fl
      · rw [ts_cons_mem s fuel node rest fl temp hfl] at h
        obtain ⟨hA, hB, hC, hD, hE⟩ := ih rest fl temp fl' h
        refine ⟨hA, ?_, hC, hD, ?_⟩
        · intro k hk
          simp at hk
          rcases hk with hk | hk
          · subst hk
            obtain ⟨new, hnew, _⟩ := hA
            rw [hnew]
            simp [hfl]
          · exact hB k hk
        · intro m hm
          rcases hE m hm with hm2 | ⟨k, hk, hr⟩
          · exact Or.inl hm2
          · exact Or.inr ⟨k, by simp [hk], hr⟩
      · by_cases htemp : node ∈ temp
        · rw [ts_cons_cycle s fuel node rest fl temp hfl htemp] at h
          exact absurd h (by simp)
        · cases hs : alGet s node with
          | none =>
            rw [ts_cons_missing s fuel node rest fl temp hfl htemp hs] at h
            exact absurd h (by simp)
          | some nd =>
            have hinp : inputsOf s node = nd.input_nodes := by simp [inputsOf, hs]
            cases hrec : toposort_helper s fuel nd.input_nodes fl (node :: temp) with
            | error e2 =>
              rw [ts_cons_visit_err s fuel node rest fl temp nd e2 hfl htemp hs hrec] at h
              exact absurd h (by simp)
            | ok fl2 =>
              rw [ts_cons_visit_ok s fuel node rest fl temp nd fl2 hfl htemp hs hrec] at h
              obtain ⟨⟨new1, hfl2eq, hnew1⟩, hB1, hC1, hD1, hE1⟩ :=
                ih nd.input_nodes fl (node :: temp) fl2 hrec
              obtain ⟨⟨new2, hfl'eq, hnew2⟩, hB2, hC2, hD2, hE2⟩ :=
                ih rest (node :: fl2) temp fl' h
              have hsubfl : ∀ m, m ∈ fl → m ∈ fl2 := by
                intro m hm
                rw [hfl2eq]
                simp [hm]
              refine ⟨⟨new2 ++ node :: new1, ?_, ?_⟩, ?_, ?_, ?_, ?_⟩
              · rw [hfl'eq, hfl2eq]
                simp
              · intro m hm
                simp at hm
                rcases hm with hm | hm | hm
                · have := hnew2 m hm
                  refine ⟨fun hmfl => this.1 ?_, this.2⟩
                  simp [hsubfl m hmfl]
                · subst hm
                  exact ⟨hfl, htemp⟩
                · have := hnew1 m hm
                  refine ⟨this.1, fun hmt => this.2 ?_⟩
                  simp [hmt]
              · intro k hk
                simp at hk
                rcases hk with hk | hk
                · subst hk
                  rw [hfl'eq]
                  simp
                · exact hB2 k hk
              · intro hwo
                refine hC2 ⟨?_, hC1 hwo⟩
                intro i hi
                exact hB1 i (by rw [hinp] at hi; exact hi)
              · intro hnd
                refine hD2 (List.nodup_cons.mpr ⟨?_, hD1 hnd⟩)
                intro hmem
                rw [hfl2eq] at hmem
                rcases List.mem_append.mp hmem with hmem | hmem
                · exact (hnew1 node hmem).2 (by simp)
                · exact hfl hmem
              · intro m hm
                rcases hE2 m hm with hm2 | ⟨k, hk, hr⟩
                · simp at hm2
                  rcases hm2 with hm2 | hm2
                  · subst hm2
                    exact Or.inr ⟨m, by simp, Reach.refl⟩
                  · rcases hE1 m hm2 with hm3 | ⟨k, hk, hr⟩
                    · exact Or.inl hm3
                    · refine Or.inr ⟨node, by simp, ?_⟩
                      refine Reach_trans s ?_ hr
                      exact Reach.step Reach.refl (by rw [hinp]; exact hk)
                · exact Or.inr ⟨k, by simp [hk], hr⟩

theorem Reach_mem_of_closed {T : Type} (s : List (Key × Node T)) (l : List Key)
    (hwo : WellOrdered s l) {root n : Key} (hroot : root ∈ l)
    (h : Reach s root n) : n ∈ l := by
  induction h with
  | refl => exact hroot
  | step _ hedge ih => exact WellOrdered_mem_closed s l hwo ih hedge

theorem tsWeight_nil_temp {T : Type} (s : List (Key × Node T)) :
    tsWeight s [] = s.length + (s.map (fun p => p.2.input_nodes.length)).sum := by
  induction s with
  | nil => rfl
  | cons p rest ih =>
    obtain ⟨a, b⟩ := p
    rw [tsWeight_cons, ih]
    simp only [List.mem_nil_iff, if_false, List.length_cons, List.map_cons, List.sum_cons]
    omega

/-!
### C2 — a reachable cycle fails with the cycle error before any invocation
-/

/-- Claim C2: in a graph with a designated, stored output whose arena is
closed under input edges and has unique keys, a cycle among the nodes
reachable from the output makes `compute` fail with the structural
cycle error, with an empty event trace — in particular no node function
is invoked and nothing is removed. -/
theorem c2_cycle_error {T : Type} (g : ComputationGraph T) (out n : Key)
    (hnd : (keysOf g.node_storage).Nodup)
    (hout : g.output_node = some out)
    (houts : (alGet g.node_storage out).isSome)
    (hcl : Closed g.node_storage)
    (hreach : Reach g.node_storage out n)
    (hcyc : PathPos g.node_storage n n) :
    compute g = (Except.error PanicErr.cycleDetected, []) := by
  have hts : toposort_helper g.node_storage (fuelBound g.node_storage) [out] [] [] =
      .error .cycleDetected := by
    cases hr : toposort_helper g.node_storage (fuelBound g.node_storage) [out] [] [] with
    | ok fl' =>
      obtain ⟨_, hB, hC, hD, _⟩ :=
        ts_ok_main g.node_storage (fuelBound g.node_storage) [out] [] [] fl' hr
      have hwo : WellOrdered g.node_storage fl' := hC trivial
      have hnodup : fl'.Nodup := hD List.nodup_nil
      have hout' : out ∈ fl' := hB out (by simp)
      have hn : n ∈ fl' := Reach_mem_of_closed g.node_storage fl' hwo hout' hreach
      exact absurd hcyc (no_self_path_of_wellOrdered g.node_storage fl' hwo hnodup hn)
    | error e =>
      rcases ts_error_cases g.node_storage (fuelBound g.node_storage) [out] [] [] e hr
        with he | he | he
      · rw [he]
      · subst he
        refine absurd hr (ts_no_missing g.node_storage hcl (fuelBound g.node_storage)
          [out] [] [] ?_)
        intro k hk
        simp at hk
        subst hk
        exact houts
      · subst he
        refine absurd hr (ts_no_fuelOut g.node_storage hnd (fuelBound g.node_storage)
          [out] [] [] ?_)
        rw [tsWeight_nil_temp]
        simp only [fuelBound, List.length_singleton]
        omega
  have hco := computation_order_tsErr g out .cycleDetected hout hts
  have hcompute := compute_orderErr g out .cycleDetected hout (by rw [hco])
  rw [hco] at hcompute
  simpa using hcompute

/-- A graph with a two-node cycle reachable from the output: nodes 0 and 1
are each the input of the other, and node 0 is the output (the
`cycle_loop` test of the repository). -/
def cycleGraph : ComputationGraph Nat :=
  let i1 := insert_node (newGraph Nat 7) "loopy_1" (fun _ => 5)
  let i2 := insert_node i1.1 "loopy_2" (fun _ => 5)
  let s3 := (set_inputs i2.1 i1.2 [i2.2]).2
  let s4 := (set_inputs s3 i2.2 [i1.2]).2
  (designate_output s4 i1.2).2

/-- Witness for C2 at a concrete input: the two-node cycle graph fails
with the cycle error and an empty trace. -/
theorem c2_cycle_error_witness :
    compute cycleGraph = (Except.error PanicErr.cycleDetected, []) := by
  have h01 : inputsOf cycleGraph.node_storage 0 = [1] := rfl
  have h10 : inputsOf cycleGraph.node_storage 1 = [0] := rfl
  refine c2_cycle_error cycleGraph 0 0 (by decide) rfl rfl ?_ Reach.refl ?_
  · intro k i hi
    match k with
    | 0 =>
      rw [h01] at hi
      simp at hi
      subst hi
      rfl
    | 1 =>
      rw [h10] at hi
      simp at hi
      subst hi
      rfl
    | (m + 2) =>
      have : inputsOf cycleGraph.node_storage (m + 2) = [] := rfl
      rw [this] at hi
      simp at hi
  · refine PathPos.cons (i := 1) ?_ (PathPos.single ?_)
    · rw [h01]
      simp
    · rw [h10]
      simp

/-!
### Evaluation loop theory

Reference semantics: the value of each node is obtained by processing
the evaluation order left to right, computing every node function on
the values of its inputs. -/

/-- Apply a node function to the values of its inputs taken from an
environment (all lookups succeed in every use below). -/
def applyNodeEnv {T : Type} (nd : Node T) (env : List (Key × T)) : T :=
  match nd.input_nodes.mapM (fun k => alGet env k) with
  | some args => nd.func args
  | none => nd.func []

/-- Extend an environment by evaluating the listed keys in order. -/
def evalEnvAux {T : Type} (s : List (Key × Node T)) :
    List Key → List (Key × T) → List (Key × T)
  | [], env => env
  | n :: rest, env =>
    match alGet s n with
    | none => evalEnvAux s rest env
    | some nd => evalEnvAux s rest (env ++ [(n, applyNodeEnv nd env)])

/-- The reference environment after evaluating the listed keys. -/
def evalEnv {T : Type} (s : List (Key × Node T)) (done : List Key) : List (Key × T) :=
  evalEnvAux s done []

theorem evalEnvAux_append {T : Type} (s : List (Key × Node T)) (l1 l2 : List Key)
    (env : List (Key × T)) :
    evalEnvAux s (l1 ++ l2) env = evalEnvAux s l2 (evalEnvAux s l1 env) := by
  induction l1 generalizing env with
  | nil => rfl
  | cons n rest ih =>
    cases hs : alGet s n with
    | none => simp [evalEnvAux, hs, ih]
    | some nd => simp [evalEnvAux, hs, ih]

theorem evalEnvAux_preserves {T : Type} (s : List (Key × Node T)) (l : List Key) :
    ∀ (env : List (Key × T)) (q : Key) (v : T), alGet env q = some v →
      alGet (evalEnvAux s l env) q = some v := by
  induction l with
  | nil => intro env q v h; exact h
  | cons n rest ih =>
    intro env q v h
    cases hs : alGet s n with
    | none =>
      simp only [evalEnvAux, hs]
      exact ih env q v h
    | some nd =>
      simp only [evalEnvAux, hs]
      refine ih _ q v ?_
      rw [alGet_append, h]

theorem evalEnvAux_isSome {T : Type} (s : List (Key × Node T)) (l : List Key) :
    ∀ (env : List (Key × T)) (q : Key), q ∈ l → (alGet s q).isSome →
      (alGet (evalEnvAux s l env) q).isSome := by
  induction l with
  | nil => intro env q hq; simp at hq
  | cons n rest ih =>
    intro env q hq hs2
    simp only [List.mem_cons] at hq
    rcases hq with hq | hq
    · subst hq
      obtain ⟨nd, hnd⟩ := Option.isSome_iff_exists.mp hs2
      simp only [evalEnvAux, hnd]
      have hbound : alGet (env ++ [(q, applyNodeEnv nd env)]) q =
          some ((alGet env q).getD (applyNodeEnv nd env)) := by
        rw [alGet_append]
        cases he : alGet env q with
        | none => simp [alGet]
        | some w => simp
      rw [evalEnvAux_preserves s rest _ q _ hbound]
      simp
    · cases hs : alGet s n with
      | none =>
        simp only [evalEnvAux, hs]
        exact ih env q hq hs2
      | some nd =>
        simp only [evalEnvAux, hs]
        exact ih _ q hq hs2

theorem evalEnv_stable {T : Type} (s : List (Key × Node T)) (done ext : List Key)
    (q : Key) (v : T) (h : alGet (evalEnv s done) q = some v) :
    alGet (evalEnv s (done ++ ext)) q = some v := by
  rw [evalEnv, evalEnvAux_append]
  exact evalEnvAux_preserves s ext _ q v h

/-- Occurrence count of a key among the inputs of the pending nodes. -/
def occTodo {T : Type} (s : List (Key × Node T)) (todo : List Key) (q : Key) : Nat :=
  (todo.map (fun n => (inputsOf s n).count q)).sum

theorem occTodo_cons {T : Type} (s : List (Key × Node T)) (n : Key) (rest : List Key)
    (q : Key) : occTodo s (n :: rest) q = (inputsOf s n).count q + occTodo s rest q := by
  simp [occTodo]

/-- Remaining live-reference value of a key: pending consumers plus the
output designation. -/
def liveVal {T : Type} (s : List (Key × Node T)) (out : Key) (todo : List Key)
    (q : Key) : Nat :=
  occTodo s todo q + (if q = out then 1 else 0)

/-- The evaluation loop invariant between iterations, with `done` the
executed prefix and `todo` the remaining order: pending nodes are
stored unevaluated; an executed node is stored (with its reference
value as counter, a cached value equal to the reference semantics, and
a single live strong count) exactly while consumers remain; everything
else is gone. -/
def LoopInv {T : Type} (s : List (Key × Node T)) (out : Key) (done todo : List Key)
    (st : LoopState T) : Prop :=
  (∀ q, alGet st.storage q =
     if q ∈ todo then alGet s q
     else if q ∈ done ∧ liveVal s out todo q ≠ 0 then
       (alGet s q).map (fun nd => { nd with output_cache := alGet (evalEnv s done) q })
     else none) ∧
  (∀ q, alGet st.refcount q =
     if q ∈ todo ∨ (q ∈ done ∧ liveVal s out todo q ≠ 0) then
       some (liveVal s out todo q)
     else none) ∧
  (∀ q, alGet st.arcs q =
     if q ∈ done ∧ liveVal s out todo q ≠ 0 then some 1 else none) ∧
  (keysOf st.storage).Nodup

/-- Executed-prefix order predicate: each pending node has all of its
inputs among the already executed nodes. -/
def TopoOrdAux {T : Type} (s : List (Key × Node T)) : List Key → List Key → Prop
  | _, [] => True
  | done, n :: rest => (∀ i ∈ inputsOf s n, i ∈ done) ∧ TopoOrdAux s (done ++ [n]) rest

theorem alGet_arcDec_self (a : List (Key × Nat)) (k : Key) :
    alGet (arcDec a k) k =
      match alGet a k with
      | none => none
      | some c => if c ≤ 1 then none else some (c - 1) := by
  unfold arcDec
  cases ha : alGet a k with
  | none => simp [ha]
  | some c =>
    by_cases hc : c ≤ 1
    · simp [hc, alGet_alRemove]
    · simp [hc, alGet_alSet, ha]

theorem alGet_arcDec_other (a : List (Key × Nat)) (k q : Key) (hq : q ≠ k) :
    alGet (arcDec a k) q = alGet a q := by
  unfold arcDec
  cases ha : alGet a k with
  | none => rfl
  | some c =>
    by_cases hc : c ≤ 1
    · simp [hc, alGet_alRemove, hq]
    · simp [hc, alGet_alSet, hq]

theorem foldl_arcDec_formula (L : List Key) :
    ∀ (a : List (Key × Nat)) (q : Key),
      alGet (L.foldl arcDec a) q =
        if L.count q = 0 then alGet a q
        else match alGet a q with
          | none => none
          | some c => if c ≤ L.count q then none else some (c - L.count q) := by
  induction L with
  | nil => intro a q; simp
  | cons k L' ih =>
    intro a q
    have hfold : (k :: L').foldl arcDec a = L'.foldl arcDec (arcDec a k) := rfl
    rw [hfold, ih (arcDec a k) q]
    by_cases hqk : q = k
    · subst hqk
      have hcnt : (q :: L').count q = L'.count q + 1 := by simp [List.count_cons]
      rw [hcnt]
      rw [alGet_arcDec_self]
      cases ha : alGet a q with
      | none => simp
      | some c =>
        by_cases hc1 : c ≤ 1
        · have hle : c ≤ L'.count q + 1 := by omega
          simp [hc1, hle]
        · by_cases hc' : L'.count q = 0
          · have hgt : ¬ (c ≤ L'.count q + 1) := by omega
            simp [hc1, hc', hgt]
          · by_cases hle : c - 1 ≤ L'.count q
            · have h2 : c ≤ L'.count q + 1 := by omega
              simp [hc1, hc', hle, h2]
            · have h2 : ¬ (c ≤ L'.count q + 1) := by omega
              simp only [hc1, if_false, hc', Option.some.injEq, h2]
              have h3 : ¬ (c - 1 ≤ L'.count q) := hle
              simp [h3]
              omega
    · have hcnt : (k :: L').count q = L'.count q := by simp [List.count_cons, hqk]
      rw [hcnt, alGet_arcDec_other a k q hqk]

theorem foldl_arcDec_live (L : List Key) (a : List (Key × Nat)) (q : Key) (c : Nat)
    (h : alGet a q = some c) (hgt : L.count q < c) :
    alGet (L.foldl arcDec a) q = some (c - L.count q) := by
  rw [foldl_arcDec_formula, h]
  by_cases hc0 : L.count q = 0
  · rw [if_pos hc0, hc0]
    rfl
  · rw [if_neg hc0]
    show (if c ≤ L.count q then none else some (c - L.count q)) = some (c - L.count q)
    rw [if_neg (by omega)]

theorem foldl_arcDec_dead (L : List Key) (a : List (Key × Nat)) (q : Key) (c : Nat)
    (h : alGet a q = some c) (hc : c ≠ 0) (hle : c ≤ L.count q) :
    alGet (L.foldl arcDec a) q = none := by
  rw [foldl_arcDec_formula, h]
  rw [if_neg (by omega : ¬ L.count q = 0)]
  show (if c ≤ L.count q then none else some (c - L.count q)) = none
  rw [if_pos hle]

theorem foldl_arcDec_none (L : List Key) (a : List (Key × Nat)) (q : Key)
    (h : alGet a q = none) :
    alGet (L.foldl arcDec a) q = none := by
  rw [foldl_arcDec_formula, h]
  by_cases hc0 : L.count q = 0 <;> simp [hc0]

theorem nodup_keys_alRemove {β : Type _} (l : List (Key × β)) (k : Key)
    (h : (keysOf l).Nodup) : (keysOf (alRemove l k)).Nodup := by
  have hsub : List.Sublist (keysOf (alRemove l k)) (keysOf l) := by
    unfold alRemove keysOf
    exact List.Sublist.map Prod.fst (List.filter_sublist l)
  exact List.Nodup.sublist hsub h

theorem removeKeys_spec {T : Type} (cl : List Key) :
    ∀ st : LoopState T, cl.Nodup →
      (∀ q, alGet (removeKeys cl st).storage q =
        if q ∈ cl then none else alGet st.storage q) ∧
      (∀ q, alGet (removeKeys cl st).refcount q =
        if q ∈ cl then none else alGet st.refcount q) ∧
      (∀ q, alGet (removeKeys cl st).arcs q =
        if q ∈ cl then
          (match alGet st.arcs q with
           | none => none
           | some c => if c ≤ 1 then none else some (c - 1))
        else alGet st.arcs q) ∧
      ((keysOf st.storage).Nodup → (keysOf (removeKeys cl st).storage).Nodup) := by
  induction cl with
  | nil =>
    intro st _
    exact ⟨fun q => by simp [removeKeys], fun q => by simp [removeKeys],
      fun q => by simp [removeKeys], fun h => h⟩
  | cons k cl' ih =>
    intro st hnd
    have hk : k ∉ cl' := (List.nodup_cons.mp hnd).1
    have hnd' : cl'.Nodup := (List.nodup_cons.mp hnd).2
    have hstep : removeKeys (k :: cl') st =
        removeKeys cl' ⟨alRemove st.storage k, alRemove st.refcount k,
          arcDec st.arcs k⟩ := rfl
    obtain ⟨hS, hR, hA, hN⟩ := ih ⟨alRemove st.storage k, alRemove st.refcount k,
      arcDec st.arcs k⟩ hnd'
    rw [hstep]
    refine ⟨?_, ?_, ?_, ?_⟩
    · intro q
      rw [hS q]
      by_cases hq : q ∈ cl'
      · simp [hq]
      · by_cases hqk : q = k
        · subst hqk
          simp [hq, alGet_alRemove]
        · simp [hq, hqk, alGet_alRemove]
    · intro q
      rw [hR q]
      by_cases hq : q ∈ cl'
      · simp [hq]
      · by_cases hqk : q = k
        · subst hqk
          simp [hq, alGet_alRemove]
        · simp [hq, hqk, alGet_alRemove]
    · intro q
      rw [hA q]
      by_cases hq : q ∈ cl'
      · have hqk : q ≠ k := fun hh => hk (hh ▸ hq)
        simp only [hq, if_true, List.mem_cons, hqk, false_or]
        rw [alGet_arcDec_other st.arcs k q hqk]
      · by_cases hqk : q = k
        · subst hqk
          simp only [hq, if_false, List.mem_cons, true_or, if_true]
          rw [alGet_arcDec_self]
        · have : q ∉ k :: cl' := by simp [hqk, hq]
          simp only [hq, if_false, this, if_false]
          rw [alGet_arcDec_other st.arcs k q hqk]
    · intro h
      exact hN (nodup_keys_alRemove st.storage k h)

theorem decEach_ok (ks : List Key) :
    ∀ rc : List (Key × Nat), (decEach ks rc).1 = none →
      ∀ q, alGet (decEach ks rc).2 q = (alGet rc q).map (fun c => c - ks.count q) := by
  induction ks with
  | nil =>
    intro rc _ q
    simp [decEach]
  | cons k rest ih =>
    intro rc hok q
    cases hk : alGet rc k with
    | none =>
      rw [decEach_cons_missing k rest rc hk] at hok
      simp at hok
    | some c =>
      rw [decEach_cons_some k rest rc c hk] at hok ⊢
      rw [ih (alSet rc k (c - 1)) hok q, alGet_alSet]
      by_cases hq : q = k
      · subst hq
        simp [hk, List.count_cons]
        omega
      · simp [hq, List.count_cons]

theorem stepInputs_ok {T : Type} (L : List Key) :
    ∀ st : LoopState T,
      (∀ k ∈ L, ∃ c, alGet st.refcount k = some c ∧ L.count k ≤ c) →
      (∀ k ∈ L, ∃ nd v, alGet st.storage k = some nd ∧ nd.output_cache = some v) →
      (stepInputs L st).1 = none ∧
      (stepInputs L st).2.1.storage = st.storage ∧
      (∀ q, alGet (stepInputs L st).2.1.refcount q =
        (alGet st.refcount q).map (fun c => c - L.count q)) ∧
      (∀ q, alGet (stepInputs L st).2.1.arcs q =
        (alGet st.arcs q).map (fun c => c + L.count q)) ∧
      (L.mapM (fun k => (alGet st.storage k).bind (fun nd => nd.output_cache)) =
        some (stepInputs L st).2.2.1) ∧
      (∀ q, q ∈ (stepInputs L st).2.2.2 ↔
        q ∈ L ∧ alGet st.refcount q = some (L.count q)) ∧
      (stepInputs L st).2.2.2.Nodup := by
  induction L with
  | nil =>
    intro st _ _
    refine ⟨rfl, rfl, ?_, ?_, rfl, ?_, List.nodup_nil⟩
    · intro q
      rw [stepInputs_nil]
      cases h : alGet st.refcount q <;> simp [h]
    · intro q
      rw [stepInputs_nil]
      cases h : alGet st.arcs q <;> simp [h]
    · intro q
      rw [stepInputs_nil]
      simp
  | cons k L' ih =>
    intro st hrc hval
    obtain ⟨c, hck, hcle⟩ := hrc k (by simp)
    have hcnt1 : L'.count k + 1 ≤ c := by
      have : (k :: L').count k = L'.count k + 1 := by simp [List.count_cons]
      rw [this] at hcle
      exact hcle
    have hc0 : c ≠ 0 := by omega
    obtain ⟨nd, v, hnd, hv⟩ := hval k (by simp)
    rw [stepInputs_cons_ok k L' st c nd v hck hc0 hnd hv]
    have hrc' : ∀ j ∈ L', ∃ cj, alGet (LoopState.mk st.storage
        (alSet st.refcount k (c - 1)) (alModify st.arcs k (· + 1))).refcount j =
        some cj ∧ L'.count j ≤ cj := by
      intro j hj
      simp only [alGet_alSet]
      by_cases hjk : j = k
      · subst hjk
        refine ⟨c - 1, by simp [hck], by omega⟩
      · obtain ⟨cj, hcj, hle⟩ := hrc j (by simp [hj])
        refine ⟨cj, by simp [hjk, hcj], ?_⟩
        have : (k :: L').count j = L'.count j := by simp [List.count_cons, hjk]
        rw [this] at hle
        exact hle
    have hval' : ∀ j ∈ L', ∃ ndj vj, alGet (LoopState.mk st.storage
        (alSet st.refcount k (c - 1)) (alModify st.arcs k (· + 1))).storage j =
        some ndj ∧ ndj.output_cache = some vj := by
      intro j hj
      exact hval j (by simp [hj])
    obtain ⟨ih1, ih2, ih3, ih4, ih5, ih6, ih7⟩ :=
      ih ⟨st.storage, alSet st.refcount k (c - 1), alModify st.arcs k (· + 1)⟩ hrc' hval'
    refine ⟨ih1, ih2, ?_, ?_, ?_, ?_, ?_⟩
    · intro q
      rw [ih3 q]
      simp only [alGet_alSet]
      by_cases hq : q = k
      · subst hq
        simp [hck, List.count_cons]
        omega
      · simp [hq, List.count_cons]
    · intro q
      rw [ih4 q]
      simp only [alGet_alModify]
      by_cases hq : q = k
      · subst hq
        cases ha : alGet st.arcs q <;> simp [List.count_cons]
        omega
      · cases ha : alGet st.arcs q <;> simp [hq, List.count_cons]
    · have hfk : (alGet st.storage k).bind (fun nd => nd.output_cache) = some v := by
        rw [hnd]
        simp [hv]
      rw [List.mapM_cons, hfk]
      have ih5' : L'.mapM (fun j => (alGet st.storage j).bind
          (fun nd => nd.output_cache)) = some (stepInputs L'
            ⟨st.storage, alSet st.refcount k (c - 1),
              alModify st.arcs k (· + 1)⟩).2.2.1 := ih5
      rw [ih5']
      rfl
    · intro q
      have h6q : q ∈ (stepInputs L' ⟨st.storage, alSet st.refcount k (c - 1),
          alModify st.arcs k (· + 1)⟩).2.2.2 ↔
          q ∈ L' ∧ alGet (alSet st.refcount k (c - 1)) q = some (L'.count q) := ih6 q
      have hsetq : alGet (alSet st.refcount k (c - 1)) q =
          if q = k then some (c - 1) else alGet st.refcount q := by
        rw [alGet_alSet]
        by_cases hq2 : q = k
        · rw [if_pos hq2, if_pos hq2, hck]
          rfl
        · rw [if_neg hq2, if_neg hq2]
      rw [hsetq] at h6q
      by_cases hq : q = k
      · subst hq
        rw [if_pos rfl] at h6q
        by_cases hz : c - 1 = 0
        · rw [if_pos hz]
          have hcnt0 : L'.count q = 0 := by omega
          have hc1 : c = 1 := by omega
          constructor
          · intro _
            refine ⟨by simp, ?_⟩
            rw [hck]
            have hcc : (q :: L').count q = 1 := by simp [List.count_cons, hcnt0]
            rw [hcc, hc1]
          · intro _
            exact List.mem_cons_self _ _
        · rw [if_neg hz, h6q]
          constructor
          · rintro ⟨hmem, heq⟩
            rw [Option.some.injEq] at heq
            refine ⟨by simp, ?_⟩
            rw [hck]
            have hcc : (q :: L').count q = L'.count q + 1 := by simp [List.count_cons]
            rw [hcc]
            congr 1
            omega
          · rintro ⟨_, heq⟩
            rw [hck] at heq
            simp only [Option.some.injEq] at heq
            have hcq : (q :: L').count q = L'.count q + 1 := by simp [List.count_cons]
            rw [hcq] at heq
            have hc' : c - 1 = L'.count q := by omega
            have hpos : 0 < L'.count q := by omega
            exact ⟨List.count_pos_iff_mem.mp hpos, by simp [hc']⟩
      · rw [if_neg hq] at h6q
        have hLcnt : (k :: L').count q = L'.count q := by simp [List.count_cons, hq]
        by_cases hz : c - 1 = 0
        · rw [if_pos hz]
          simp only [List.mem_cons]
          rw [h6q, hLcnt]
          constructor
          · rintro (hh | hh)
            · exact absurd hh hq
            · exact ⟨Or.inr hh.1, hh.2⟩
          · rintro ⟨hh | hh, h2⟩
            · exact absurd hh hq
            · exact Or.inr ⟨hh, h2⟩
        · rw [if_neg hz]
          simp only [List.mem_cons]
          rw [h6q, hLcnt]
          constructor
          · rintro ⟨h1, h2⟩
            exact ⟨Or.inr h1, h2⟩
          · rintro ⟨hh | hh, h2⟩
            · exact absurd hh hq
            · exact ⟨hh, h2⟩
    · have h6k : k ∈ (stepInputs L' ⟨st.storage, alSet st.refcount k (c - 1),
          alModify st.arcs k (· + 1)⟩).2.2.2 ↔
          k ∈ L' ∧ alGet (alSet st.refcount k (c - 1)) k = some (L'.count k) := ih6 k
      have hsetk : alGet (alSet st.refcount k (c - 1)) k = some (c - 1) := by
        rw [alGet_alSet, if_pos rfl, hck]
        rfl
      rw [hsetk] at h6k
      by_cases hz : c - 1 = 0
      · rw [if_pos hz]
        refine List.nodup_cons.mpr ⟨?_, ih7⟩
        intro hkmem
        obtain ⟨hkL, heq⟩ := h6k.mp hkmem
        simp only [Option.some.injEq] at heq
        have hcnt0 : L'.count k = 0 := by omega
        rw [List.count_eq_zero] at hcnt0
        exact hcnt0 hkL
      · rw [if_neg hz]
        exact ih7

/-- Occurrence count of a key among the inputs of the nodes removed by the
sweep. -/
def sweptOcc {T : Type} (keep : List Key) (s : List (Key × Node T)) (q : Key) : Nat :=
  ((s.filter (fun p => p.1 ∉ keep)).map (fun p => p.2.input_nodes.count q)).sum

theorem sweptOcc_cons {T : Type} (keep : List Key) (k : Key) (nd : Node T)
    (rest : List (Key × Node T)) (q : Key) :
    sweptOcc keep ((k, nd) :: rest) q =
      (if k ∈ keep then 0 else nd.input_nodes.count q) + sweptOcc keep rest q := by
  by_cases hk : k ∈ keep
  · simp [sweptOcc, List.filter_cons, hk]
  · simp [sweptOcc, List.filter_cons, hk]

theorem sweepStorage_ok {T : Type} (keep : List Key) (s : List (Key × Node T)) :
    ∀ rc : List (Key × Nat), (keysOf s).Nodup →
      (sweepStorage keep s rc).1 = none →
      ((sweepStorage keep s rc).2.1 = s.filter (fun p => p.1 ∈ keep)) ∧
      (∀ q, alGet (sweepStorage keep s rc).2.2.1 q =
        if (alGet s q).isSome ∧ q ∉ keep then none
        else (alGet rc q).map (fun c => c - sweptOcc keep s q)) := by
  induction s with
  | nil =>
    intro rc _ _
    refine ⟨rfl, ?_⟩
    intro q
    rw [sweepStorage_nil]
    have : sweptOcc (T := T) keep [] q = 0 := rfl
    rw [this]
    cases h : alGet rc q <;> simp [alGet, h]
  | cons p rest ih =>
    obtain ⟨k, nd⟩ := p
    intro rc hnd hok
    have hndk : k ∉ keysOf rest ∧ (keysOf rest).Nodup := by
      have : keysOf ((k, nd) :: rest) = k :: keysOf rest := rfl
      rw [this] at hnd
      exact List.nodup_cons.mp hnd
    by_cases hk : k ∈ keep
    · rw [sweepStorage_cons_keep keep k nd rest rc hk] at hok ⊢
      obtain ⟨ihS, ihR⟩ := ih rc hndk.2 hok
      constructor
      · have : List.filter (fun p => decide (p.1 ∈ keep)) ((k, nd) :: rest) =
            (k, nd) :: List.filter (fun p => decide (p.1 ∈ keep)) rest := by
          simp [List.filter_cons, hk]
        rw [this, ← ihS]
      · intro q
        rw [ihR q, sweptOcc_cons]
        rw [if_pos hk]
        simp only [Nat.zero_add]
        by_cases hq : q = k
        · subst hq
          have hrest : alGet rest q = none := by
            cases hg : alGet rest q with
            | none => rfl
            | some x =>
              exact absurd ((mem_keysOf_iff rest q).mpr (by simp [hg])) hndk.1
          have hL : ¬ ((alGet rest q).isSome ∧ q ∉ keep) := by simp [hrest]
          have hR : ¬ ((alGet ((q, nd) :: rest) q).isSome ∧ q ∉ keep) := by
            intro hh
            exact hh.2 hk
          rw [if_neg hL, if_neg hR]
        · have hkq : ¬ (k = q) := fun hh => hq hh.symm
          have hcons : alGet ((k, nd) :: rest) q = alGet rest q := by
            rw [alGet_cons, if_neg hkq]
          rw [hcons]
    · cases hd : (decEach nd.input_nodes rc).1 with
      | some e =>
        rw [sweepStorage_cons_dead_err keep k nd rest rc e hk hd] at hok
        simp at hok
      | none =>
        rw [sweepStorage_cons_dead_ok keep k nd rest rc hk hd] at hok ⊢
        obtain ⟨ihS, ihR⟩ := ih (alRemove (decEach nd.input_nodes rc).2 k) hndk.2 hok
        constructor
        · have : List.filter (fun p => decide (p.1 ∈ keep)) ((k, nd) :: rest) =
              List.filter (fun p => decide (p.1 ∈ keep)) rest := by
            simp [List.filter_cons, hk]
          rw [this, ← ihS]
        · intro q
          rw [ihR q, sweptOcc_cons]
          rw [if_neg hk]
          by_cases hq : q = k
          · subst hq
            have hrest : alGet rest q = none := by
              cases hg : alGet rest q with
              | none => rfl
              | some x =>
                exact absurd ((mem_keysOf_iff rest q).mpr (by simp [hg])) hndk.1
            have hL : ¬ ((alGet rest q).isSome ∧ q ∉ keep) := by simp [hrest]
            rw [if_neg hL, alGet_alRemove, if_pos rfl]
            have hR : ((alGet ((q, nd) :: rest) q).isSome ∧ q ∉ keep) :=
              ⟨by rw [alGet_cons, if_pos rfl]; rfl, hk⟩
            rw [if_pos hR]
            rfl
          · have hkq : ¬ (k = q) := fun hh => hq hh.symm
            have hcons : alGet ((k, nd) :: rest) q = alGet rest q := by
              rw [alGet_cons, if_neg hkq]
            rw [hcons]
            by_cases hcnd : (alGet rest q).isSome ∧ q ∉ keep
            · rw [if_pos hcnd, if_pos hcnd]
            · rw [if_neg hcnd, if_neg hcnd]
              rw [alGet_alRemove, if_neg hq]
              rw [decEach_ok nd.input_nodes rc hd q]
              cases hg : alGet rc q with
              | none => rfl
              | some cv =>
                simp only [Option.map_some']
                rw [Option.some.injEq]
                omega

theorem liveVal_cons {T : Type} (s : List (Key × Node T)) (out n : Key)
    (rest : List Key) (q : Key) :
    liveVal s out (n :: rest) q = (inputsOf s n).count q + liveVal s out rest q := by
  by_cases h : q = out <;> simp [liveVal, occTodo_cons, h] <;> omega

theorem occTodo_ge {T : Type} (s : List (Key × Node T)) (todo : List Key) (m q : Key)
    (hm : m ∈ todo) : (inputsOf s m).count q ≤ occTodo s todo q := by
  refine List.single_le_sum (fun x _ => Nat.zero_le x) _ ?_
  exact List.mem_map.mpr ⟨m, hm, rfl⟩

theorem alGet_append_single_ne {β : Type _} (env : List (Key × β)) (n q : Key) (w : β)
    (hq : q ≠ n) : alGet (env ++ [(n, w)]) q = alGet env q := by
  rw [alGet_append]
  cases he : alGet env q with
  | some v => rfl
  | none =>
    have : ¬ (n = q) := fun hh => hq hh.symm
    simp [alGet, this]

theorem alGet_append_single_self {β : Type _} (env : List (Key × β)) (n : Key) (w : β)
    (hn : alGet env n = none) : alGet (env ++ [(n, w)]) n = some w := by
  rw [alGet_append, hn]
  simp [alGet]

theorem evalEnv_step {T : Type} (s : List (Key × Node T)) (done : List Key) (n : Key)
    (nd : Node T) (hnd : alGet s n = some nd) :
    evalEnv s (done ++ [n]) =
      evalEnv s done ++ [(n, applyNodeEnv nd (evalEnv s done))] := by
  rw [evalEnv, evalEnvAux_append]
  simp [evalEnvAux, hnd, evalEnv]

theorem evalEnvAux_none_of_not_mem {T : Type} (s : List (Key × Node T)) (l : List Key) :
    ∀ (env : List (Key × T)) (q : Key), q ∉ l → alGet env q = none →
      alGet (evalEnvAux s l env) q = none := by
  induction l with
  | nil => intro env q _ h; exact h
  | cons n rest ih =>
    intro env q hq henv
    have hqn : q ≠ n := fun hh => hq (by simp [hh])
    have hqrest : q ∉ rest := fun hh => hq (by simp [hh])
    cases hs : alGet s n with
    | none =>
      simp only [evalEnvAux, hs]
      exact ih env q hqrest henv
    | some nd =>
      simp only [evalEnvAux, hs]
      refine ih _ q hqrest ?_
      rw [alGet_append_single_ne _ _ _ _ hqn]
      exact henv

theorem evalEnv_none_of_not_mem {T : Type} (s : List (Key × Node T)) (done : List Key)
    (q : Key) (hq : q ∉ done) : alGet (evalEnv s done) q = none :=
  evalEnvAux_none_of_not_mem s done [] q hq rfl

theorem mapM_option_congr {α β : Type _} (L : List α) (f g : α → Option β)
    (h : ∀ k ∈ L, f k = g k) : L.mapM f = L.mapM g := by
  induction L with
  | nil => rfl
  | cons k rest ih =>
    rw [List.mapM_cons, List.mapM_cons, h k (by simp),
      ih (fun j hj => h j (by simp [hj]))]

theorem mapM_option_stable {α β : Type _} (L : List α) (f g : α → Option β)
    (args : List β) (hf : L.mapM f = some args)
    (h : ∀ k ∈ L, ∀ v, f k = some v → g k = some v) : L.mapM g = some args := by
  induction L generalizing args with
  | nil =>
    have h0 : ([] : List α).mapM f = some [] := rfl
    rw [h0] at hf
    have : args = [] := by simpa using hf.symm
    subst this
    rfl
  | cons k rest ih =>
    rw [List.mapM_cons] at hf ⊢
    cases hfk : f k with
    | none => rw [hfk] at hf; simp at hf
    | some v =>
      rw [hfk] at hf
      cases hrest : rest.mapM f with
      | none => rw [hrest] at hf; simp at hf
      | some vs =>
        rw [hrest] at hf
        simp at hf
        rw [h k (by simp) v hfk, ih vs hrest (fun j hj => h j (by simp [hj]))]
        simp [hf]

theorem runStep_preserves {T : Type} (s : List (Key × Node T)) (out : Key)
    (done rest : List Key) (n : Key) (st : LoopState T)
    (hcache : ∀ q nd, alGet s q = some nd → nd.output_cache = none)
    (hnodup : (done ++ n :: rest).Nodup)
    (hkeys : ∀ q, q ∈ keysOf s ↔ q ∈ done ++ n :: rest)
    (hinp_done : ∀ i ∈ inputsOf s n, i ∈ done)
    (hdone_closed : ∀ m ∈ done, ∀ i ∈ inputsOf s m, i ∈ done)
    (hconsumer : ∀ q ∈ done ++ n :: rest, q ≠ out →
      ∃ m ∈ done ++ n :: rest, q ∈ inputsOf s m)
    (hinv : LoopInv s out done (n :: rest) st) :
    (runStep n st).1 = none ∧
    LoopInv s out (done ++ [n]) rest (runStep n st).2.1 ∧
    (∀ m margs, TraceEv.invoke m margs ∈ (runStep n st).2.2 →
      m = n ∧ (inputsOf s m).mapM (fun k => alGet (evalEnv s (done ++ [n])) k) =
        some margs) := by
  obtain ⟨hS, hR, hA, hN⟩ := hinv
  have hnd3 := List.nodup_append.mp hnodup
  have hdisj : ∀ q, q ∈ done → q ∈ n :: rest → False := fun q hq hq2 => hnd3.2.2 hq hq2
  have hn_notdone : n ∉ done := fun h => hdisj n h (by simp)
  have hn_notrest : n ∉ rest := (List.nodup_cons.mp hnd3.2.1).1
  have hn_mem : n ∈ keysOf s := (hkeys n).mpr (by simp)
  obtain ⟨nd, hnd⟩ := Option.isSome_iff_exists.mp ((mem_keysOf_iff s n).mp hn_mem)
  have hinpnd : inputsOf s n = nd.input_nodes := by simp [inputsOf, hnd]
  have hL_done : ∀ k ∈ nd.input_nodes, k ∈ done := by
    intro k hk
    exact hinp_done k (by rw [hinpnd]; exact hk)
  have hSn : alGet st.storage n = some nd := by
    have h0 := hS n
    rw [if_pos (by simp : n ∈ n :: rest)] at h0
    rw [h0, hnd]
  have hlive : ∀ q, liveVal s out (n :: rest) q =
      nd.input_nodes.count q + liveVal s out rest q := by
    intro q
    rw [liveVal_cons, hinpnd]
  have hrcL : ∀ k ∈ nd.input_nodes,
      alGet st.refcount k = some (liveVal s out (n :: rest) k) := by
    intro k hk
    have hkd := hL_done k hk
    have hcnt : 0 < nd.input_nodes.count k := List.count_pos_iff_mem.mpr hk
    have hlv : liveVal s out (n :: rest) k ≠ 0 := by
      rw [hlive k]
      omega
    have h0 := hR k
    rw [if_pos (Or.inr ⟨hkd, hlv⟩)] at h0
    exact h0
  have hstoreL : ∀ k, k ∈ done → liveVal s out (n :: rest) k ≠ 0 →
      ∃ sk, alGet s k = some sk ∧
        alGet st.storage k = some { sk with output_cache := alGet (evalEnv s done) k } := by
    intro k hkd hlv
    have hknr : k ∉ n :: rest := fun hh => hdisj k hkd hh
    have hks : k ∈ keysOf s := (hkeys k).mpr (by simp [hkd])
    obtain ⟨sk, hsk⟩ := Option.isSome_iff_exists.mp ((mem_keysOf_iff s k).mp hks)
    refine ⟨sk, hsk, ?_⟩
    have h0 := hS k
    rw [if_neg hknr, if_pos ⟨hkd, hlv⟩, hsk] at h0
    simpa using h0
  have hrcpre : ∀ k ∈ nd.input_nodes, ∃ c, alGet st.refcount k = some c ∧
      nd.input_nodes.count k ≤ c := by
    intro k hk
    refine ⟨liveVal s out (n :: rest) k, hrcL k hk, ?_⟩
    rw [hlive k]
    omega
  have hvalpre : ∀ k ∈ nd.input_nodes, ∃ ndk v, alGet st.storage k = some ndk ∧
      ndk.output_cache = some v := by
    intro k hk
    have hkd := hL_done k hk
    have hcnt : 0 < nd.input_nodes.count k := List.count_pos_iff_mem.mpr hk
    have hlv : liveVal s out (n :: rest) k ≠ 0 := by
      rw [hlive k]
      omega
    obtain ⟨sk, hsk, hstk⟩ := hstoreL k hkd hlv
    have hks : k ∈ keysOf s := (hkeys k).mpr (by simp [hkd])
    have henv : (alGet (evalEnv s done) k).isSome :=
      evalEnvAux_isSome s done [] k hkd ((mem_keysOf_iff s k).mp hks)
    obtain ⟨v, hv⟩ := Option.isSome_iff_exists.mp henv
    exact ⟨{ sk with output_cache := alGet (evalEnv s done) k }, v, hstk, by simp [hv]⟩
  obtain ⟨si1, siS, siR, siA, siArgs, siCl, siClNd⟩ :=
    stepInputs_ok nd.input_nodes st hrcpre hvalpre
  have hclean : ∀ q, q ∈ (stepInputs nd.input_nodes st).2.2.2 ↔
      q ∈ nd.input_nodes ∧ liveVal s out rest q = 0 := by
    intro q
    rw [siCl q]
    constructor
    · rintro ⟨hqL, heq⟩
      rw [hrcL q hqL] at heq
      rw [Option.some.injEq] at heq
      have := hlive q
      have hcnt : 0 < nd.input_nodes.count q := List.count_pos_iff_mem.mpr hqL
      exact ⟨hqL, by omega⟩
    · rintro ⟨hqL, hz⟩
      refine ⟨hqL, ?_⟩
      rw [hrcL q hqL, Option.some.injEq, hlive q, hz]
      omega
  have hclean_done : ∀ q ∈ (stepInputs nd.input_nodes st).2.2.2, q ∈ done := by
    intro q hq
    exact hL_done q ((hclean q).mp hq).1
  have hn_notclean : n ∉ (stepInputs nd.input_nodes st).2.2.2 := by
    intro hh
    exact hn_notdone (hclean_done n hh)
  obtain ⟨rkS, rkR, rkA, rkN⟩ :=
    removeKeys_spec (stepInputs nd.input_nodes st).2.2.2
      (stepInputs nd.input_nodes st).2.1 siClNd
  have h3 : alGet (removeKeys (stepInputs nd.input_nodes st).2.2.2
      (stepInputs nd.input_nodes st).2.1).storage n = some nd := by
    rw [rkS n, if_neg hn_notclean, siS]
    exact hSn
  have h4 : nd.output_cache = none := hcache n nd hnd
  have hrs := runStep_ok n st nd nd hSn si1 h3 h4
  -- environment facts
  have henvn : alGet (evalEnv s done) n = none := evalEnv_none_of_not_mem s done n hn_notdone
  have hargsEnv : nd.input_nodes.mapM (fun k => alGet (evalEnv s done) k) =
      some ((stepInputs nd.input_nodes st).2.2.1) := by
    have hcong : nd.input_nodes.mapM
        (fun k => (alGet st.storage k).bind (fun nd0 => nd0.output_cache)) =
        nd.input_nodes.mapM (fun k => alGet (evalEnv s done) k) := by
      refine mapM_option_congr _ _ _ ?_
      intro k hk
      show (alGet st.storage k).bind (fun nd0 => nd0.output_cache) =
        alGet (evalEnv s done) k
      have hkd := hL_done k hk
      have hcnt : 0 < nd.input_nodes.count k := List.count_pos_iff_mem.mpr hk
      have hlv : liveVal s out (n :: rest) k ≠ 0 := by
        rw [hlive k]
        omega
      obtain ⟨sk, hsk, hstk⟩ := hstoreL k hkd hlv
      rw [hstk]
      rfl
    rw [← hcong]
    exact siArgs
  have happly : applyNodeEnv nd (evalEnv s done) =
      nd.func ((stepInputs nd.input_nodes st).2.2.1) := by
    unfold applyNodeEnv
    rw [hargsEnv]
  have henv' : evalEnv s (done ++ [n]) =
      evalEnv s done ++ [(n, applyNodeEnv nd (evalEnv s done))] :=
    evalEnv_step s done n nd hnd
  have hlive1n : liveVal s out rest n ≠ 0 := by
    by_cases hno : n = out
    · subst hno
      simp [liveVal]
    · obtain ⟨m, hm, hmin⟩ := hconsumer n (by simp) hno
      have hm_rest : m ∈ rest := by
        simp only [List.mem_append, List.mem_cons] at hm
        rcases hm with hm | hm | hm
        · exact absurd (hdone_closed m hm n hmin) hn_notdone
        · rw [hm] at hmin
          exact absurd (hinp_done n hmin) hn_notdone
        · exact hm
      intro hz
      unfold liveVal at hz
      have hocc : (inputsOf s m).count n ≤ occTodo s rest n := occTodo_ge s rest m n hm_rest
      have hcnt : 0 < (inputsOf s m).count n := List.count_pos_iff_mem.mpr hmin
      omega
  rw [hrs]
  refine ⟨rfl, ⟨?_, ?_, ?_, ?_⟩, ?_⟩
  · -- storage clause
    intro q
    rw [alGet_alSet, henv']
    by_cases hqn : q = n
    · subst hqn
      rw [if_pos rfl, h3, if_neg hn_notrest,
        if_pos (⟨by simp, hlive1n⟩ : q ∈ done ++ [q] ∧ liveVal s out rest q ≠ 0), hnd]
      simp only [Option.map_some']
      rw [alGet_append_single_self _ _ _ henvn, happly]
    · rw [if_neg hqn, rkS q]
      by_cases hqc : q ∈ (stepInputs nd.input_nodes st).2.2.2
      · obtain ⟨hqL, hlz⟩ := (hclean q).mp hqc
        have hqd : q ∈ done := hL_done q hqL
        have hqnr : q ∉ rest := fun hh => hdisj q hqd (by simp [hh])
        rw [if_pos hqc, if_neg hqnr, if_neg (by rintro ⟨-, hne⟩; exact hne hlz)]
      · rw [if_neg hqc, siS]
        have h0 := hS q
        by_cases hqr : q ∈ rest
        · rw [if_pos (by simp [hqr] : q ∈ n :: rest)] at h0
          rw [h0, if_pos hqr]
        · have hqnnr : q ∉ n :: rest := by simp [hqn, hqr]
          rw [if_neg hqnnr] at h0
          by_cases hqd : q ∈ done
          · by_cases hlv : liveVal s out (n :: rest) q = 0
            · have hlv1 : liveVal s out rest q = 0 := by
                have := hlive q
                omega
              rw [if_neg (by rintro ⟨-, hne⟩; exact hne hlv)] at h0
              rw [h0, if_neg hqr, if_neg (by rintro ⟨-, hne⟩; exact hne hlv1)]
            · rw [if_pos ⟨hqd, hlv⟩] at h0
              have hlv1 : liveVal s out rest q ≠ 0 := by
                by_cases hqL : q ∈ nd.input_nodes
                · intro hz
                  exact hqc ((hclean q).mpr ⟨hqL, hz⟩)
                · have hcnt : nd.input_nodes.count q = 0 := List.count_eq_zero.mpr hqL
                  have := hlive q
                  omega
              rw [h0, if_neg hqr,
                if_pos ⟨List.mem_append.mpr (Or.inl hqd), hlv1⟩]
              cases hsq : alGet s q with
              | none => simp
              | some sq =>
                simp only [Option.map_some']
                rw [alGet_append_single_ne _ _ _ _ hqn]
          · rw [if_neg (by rintro ⟨hc, -⟩; exact hqd hc)] at h0
            have hqd1 : q ∉ done ++ [n] := by simp [hqd, hqn]
            rw [h0, if_neg hqr, if_neg (by rintro ⟨hc, -⟩; exact hqd1 hc)]
  · -- refcount clause
    intro q
    rw [rkR q]
    by_cases hqc : q ∈ (stepInputs nd.input_nodes st).2.2.2
    · obtain ⟨hqL, hlz⟩ := (hclean q).mp hqc
      have hqd : q ∈ done := hL_done q hqL
      have hqnr : q ∉ rest := fun hh => hdisj q hqd (by simp [hh])
      rw [if_pos hqc,
        if_neg (by rintro (hr | ⟨-, hne⟩); exacts [hqnr hr, hne hlz])]
    · rw [if_neg hqc, siR q]
      have h0 := hR q
      by_cases hqn : q = n
      · subst hqn
        rw [if_pos (Or.inl (by simp : q ∈ q :: rest))] at h0
        have hcnt : nd.input_nodes.count q = 0 :=
          List.count_eq_zero.mpr (fun hh => hn_notdone (hL_done q hh))
        rw [h0]
        simp only [Option.map_some']
        rw [if_pos (Or.inr ⟨by simp, hlive1n⟩), Option.some.injEq]
        have := hlive q
        omega
      · by_cases hqr : q ∈ rest
        · have hqL : q ∉ nd.input_nodes := fun hh => hdisj q (hL_done q hh) (by simp [hqr])
          have hcnt : nd.input_nodes.count q = 0 := List.count_eq_zero.mpr hqL
          rw [if_pos (Or.inl (by simp [hqr] : q ∈ n :: rest))] at h0
          rw [h0]
          simp only [Option.map_some']
          rw [if_pos (Or.inl hqr), Option.some.injEq]
          have := hlive q
          omega
        · by_cases hqd : q ∈ done
          · by_cases hlv : liveVal s out (n :: rest) q = 0
            · have hlv1 : liveVal s out rest q = 0 := by
                have := hlive q
                omega
              rw [if_neg (by
                rintro (hr | ⟨-, hne⟩)
                · exact (by simp [hqn, hqr] at hr : False)
                · exact hne hlv)] at h0
              rw [h0]
              simp only [Option.map_none']
              rw [if_neg (by rintro (hr | ⟨-, hne⟩); exacts [hqr hr, hne hlv1])]
            · rw [if_pos (Or.inr ⟨hqd, hlv⟩)] at h0
              have hlv1 : liveVal s out rest q ≠ 0 := by
                by_cases hqL : q ∈ nd.input_nodes
                · intro hz
                  exact hqc ((hclean q).mpr ⟨hqL, hz⟩)
                · have hcnt : nd.input_nodes.count q = 0 := List.count_eq_zero.mpr hqL
                  have := hlive q
                  omega
              rw [h0]
              simp only [Option.map_some']
              rw [if_pos (Or.inr ⟨List.mem_append.mpr (Or.inl hqd), hlv1⟩),
                Option.some.injEq]
              have := hlive q
              omega
          · rw [if_neg (by
              rintro (hr | ⟨hd, -⟩)
              · exact (by simp [hqn, hqr] at hr : False)
              · exact hqd hd)] at h0
            rw [h0]
            simp only [Option.map_none']
            rw [if_neg (by
              rintro (hr | ⟨hd, -⟩)
              · exact hqr hr
              · rcases List.mem_append.mp hd with hd | hd
                · exact hqd hd
                · exact hqn (by simpa using hd))]
  · -- arcs clause
    intro q
    by_cases hqn : q = n
    · subst hqn
      have hA0 : alGet st.arcs q = none := by
        have h0 := hA q
        rwa [if_neg (by rintro ⟨hd, -⟩; exact hn_notdone hd)] at h0
      have hA2 : alGet (removeKeys (stepInputs nd.input_nodes st).2.2.2
          (stepInputs nd.input_nodes st).2.1).arcs q = none := by
        rw [rkA q, if_neg hn_notclean, siA q, hA0]
        rfl
      have hbase : alGet ((removeKeys (stepInputs nd.input_nodes st).2.2.2
          (stepInputs nd.input_nodes st).2.1).arcs ++ [(q, 1)]) q = some 1 := by
        rw [alGet_append, hA2]
        simp [alGet]
      have hcnt : nd.input_nodes.count q = 0 :=
        List.count_eq_zero.mpr (fun hh => hn_notdone (hL_done q hh))
      rw [foldl_arcDec_live nd.input_nodes _ q 1 hbase (by omega), hcnt,
        if_pos ⟨by simp, hlive1n⟩]
    · have hbase : alGet ((removeKeys (stepInputs nd.input_nodes st).2.2.2
          (stepInputs nd.input_nodes st).2.1).arcs ++ [(n, 1)]) q =
          alGet (removeKeys (stepInputs nd.input_nodes st).2.2.2
            (stepInputs nd.input_nodes st).2.1).arcs q :=
        alGet_append_single_ne _ _ _ _ hqn
      by_cases hqc : q ∈ (stepInputs nd.input_nodes st).2.2.2
      · obtain ⟨hqL, hlz⟩ := (hclean q).mp hqc
        have hqd : q ∈ done := hL_done q hqL
        have hcnt : 0 < nd.input_nodes.count q := List.count_pos_iff_mem.mpr hqL
        have hlv : liveVal s out (n :: rest) q ≠ 0 := by
          rw [hlive q]
          omega
        have hA0 : alGet st.arcs q = some 1 := by
          have h0 := hA q
          rwa [if_pos ⟨hqd, hlv⟩] at h0
        have hb : alGet ((removeKeys (stepInputs nd.input_nodes st).2.2.2
            (stepInputs nd.input_nodes st).2.1).arcs ++ [(n, 1)]) q =
            some (nd.input_nodes.count q) := by
          rw [hbase, rkA q, if_pos hqc, siA q, hA0]
          show (if 1 + nd.input_nodes.count q ≤ 1 then none
            else some (1 + nd.input_nodes.count q - 1)) =
            some (nd.input_nodes.count q)
          rw [if_neg (by omega : ¬ 1 + nd.input_nodes.count q ≤ 1)]
          congr 1
          omega
        rw [foldl_arcDec_dead nd.input_nodes _ q (nd.input_nodes.count q) hb
          (by omega) (le_refl _),
          if_neg (by rintro ⟨-, hne⟩; exact hne hlz)]
      · have h0 := hA q
        by_cases hqd : q ∈ done
        · by_cases hlv : liveVal s out (n :: rest) q = 0
          · rw [if_neg (by rintro ⟨-, hne⟩; exact hne hlv)] at h0
            have hlv1 : liveVal s out rest q = 0 := by
              have := hlive q
              omega
            have hb : alGet ((removeKeys (stepInputs nd.input_nodes st).2.2.2
                (stepInputs nd.input_nodes st).2.1).arcs ++ [(n, 1)]) q = none := by
              rw [hbase, rkA q, if_neg hqc, siA q, h0]
              rfl
            rw [foldl_arcDec_none nd.input_nodes _ q hb,
              if_neg (by rintro ⟨-, hne⟩; exact hne hlv1)]
          · rw [if_pos ⟨hqd, hlv⟩] at h0
            have hlv1 : liveVal s out rest q ≠ 0 := by
              by_cases hqL : q ∈ nd.input_nodes
              · intro hz
                exact hqc ((hclean q).mpr ⟨hqL, hz⟩)
              · have hcnt : nd.input_nodes.count q = 0 := List.count_eq_zero.mpr hqL
                have := hlive q
                omega
            have hb : alGet ((removeKeys (stepInputs nd.input_nodes st).2.2.2
                (stepInputs nd.input_nodes st).2.1).arcs ++ [(n, 1)]) q =
                some (1 + nd.input_nodes.count q) := by
              rw [hbase, rkA q, if_neg hqc, siA q, h0]
              rfl
            rw [foldl_arcDec_live nd.input_nodes _ q (1 + nd.input_nodes.count q) hb
              (by omega)]
            have h1c : 1 + nd.input_nodes.count q - nd.input_nodes.count q = 1 := by
              omega
            rw [h1c, if_pos ⟨List.mem_append.mpr (Or.inl hqd), hlv1⟩]
        · rw [if_neg (by rintro ⟨hd, -⟩; exact hqd hd)] at h0
          have hb : alGet ((removeKeys (stepInputs nd.input_nodes st).2.2.2
              (stepInputs nd.input_nodes st).2.1).arcs ++ [(n, 1)]) q = none := by
            rw [hbase, rkA q, if_neg hqc, siA q, h0]
            rfl
          rw [foldl_arcDec_none nd.input_nodes _ q hb,
            if_neg (by
              rintro ⟨hd, -⟩
              rcases List.mem_append.mp hd with hd | hd
              · exact hqd hd
              · exact hqn (by simpa using hd))]
  · -- nodup clause
    have hnd1 : (keysOf (stepInputs nd.input_nodes st).2.1.storage).Nodup := by
      rw [siS]
      exact hN
    rw [keysOf_alSet]
    exact rkN hnd1
  · -- trace clause
    intro m margs hmem
    rw [List.mem_append] at hmem
    rcases hmem with hmem | hmem
    · exfalso
      obtain ⟨k, -, hk⟩ := List.mem_map.mp hmem
      simp at hk
    · rw [List.mem_singleton] at hmem
      obtain ⟨hm, hargs⟩ := TraceEv.invoke.inj hmem
      refine ⟨hm, ?_⟩
      rw [hm, hargs, hinpnd, henv']
      have hkne : ∀ k ∈ nd.input_nodes, k ≠ n := by
        intro k hk hh
        rw [hh] at hk
        exact hn_notdone (hL_done n hk)
      have hcong : nd.input_nodes.mapM (fun k =>
          alGet (evalEnv s done ++ [(n, applyNodeEnv nd (evalEnv s done))]) k) =
          nd.input_nodes.mapM (fun k => alGet (evalEnv s done) k) := by
        refine mapM_option_congr _ _ _ ?_
        intro k hk
        show alGet (evalEnv s done ++ [(n, applyNodeEnv nd (evalEnv s done))]) k =
          alGet (evalEnv s done) k
        exact alGet_append_single_ne _ _ _ _ (hkne k hk)
      rw [hcong]
      exact hargsEnv

theorem runLoop_main {T : Type} (s : List (Key × Node T)) (out : Key) :
    ∀ (todo done : List Key) (st : LoopState T),
      (∀ q nd, alGet s q = some nd → nd.output_cache = none) →
      (done ++ todo).Nodup →
      (∀ q, q ∈ keysOf s ↔ q ∈ done ++ todo) →
      TopoOrdAux s done todo →
      (∀ m ∈ done, ∀ i ∈ inputsOf s m, i ∈ done) →
      (∀ q ∈ done ++ todo, q ≠ out → ∃ m ∈ done ++ todo, q ∈ inputsOf s m) →
      LoopInv s out done todo st →
      (runLoop todo st).1 = none ∧
      LoopInv s out (done ++ todo) [] (runLoop todo st).2.1 ∧
      (∀ m margs, TraceEv.invoke m margs ∈ (runLoop todo st).2.2 →
        m ∈ todo ∧ (inputsOf s m).mapM (fun k => alGet (evalEnv s (done ++ todo)) k) =
          some margs) := by
  intro todo
  induction todo with
  | nil =>
    intro done st _ _ _ _ _ _ hinv
    refine ⟨rfl, by simpa using hinv, ?_⟩
    intro m margs hmem
    simp [runLoop] at hmem
  | cons n rest ih =>
    intro done st hcache hnodup hkeys hord hclosed hcons hinv
    obtain ⟨hok, hinv1, htr1⟩ := runStep_preserves s out done rest n st hcache hnodup
      hkeys hord.1 hclosed hcons hinv
    have hassoc : done ++ n :: rest = (done ++ [n]) ++ rest := by simp
    have hnodup' : ((done ++ [n]) ++ rest).Nodup := by
      rw [← hassoc]
      exact hnodup
    have hkeys' : ∀ q, q ∈ keysOf s ↔ q ∈ (done ++ [n]) ++ rest := by
      intro q
      rw [← hassoc]
      exact hkeys q
    have hclosed' : ∀ m ∈ done ++ [n], ∀ i ∈ inputsOf s m, i ∈ done ++ [n] := by
      intro m hm i hi
      rcases List.mem_append.mp hm with hm | hm
      · exact List.mem_append.mpr (Or.inl (hclosed m hm i hi))
      · have hmn : m = n := by simpa using hm
        subst hmn
        exact List.mem_append.mpr (Or.inl (hord.1 i hi))
    have hcons' : ∀ q ∈ (done ++ [n]) ++ rest, q ≠ out →
        ∃ m ∈ (done ++ [n]) ++ rest, q ∈ inputsOf s m := by
      intro q hq hqo
      rw [← hassoc] at hq
      obtain ⟨m, hm, hmi⟩ := hcons q hq hqo
      exact ⟨m, hassoc ▸ hm, hmi⟩
    obtain ⟨ihok, ihinv, ihtr⟩ := ih (done ++ [n]) (runStep n st).2.1 hcache hnodup'
      hkeys' hord.2 hclosed' hcons' hinv1
    rw [runLoop_cons_ok n rest st hok]
    refine ⟨ihok, ?_, ?_⟩
    · rw [hassoc]
      exact ihinv
    · intro m margs hmem
      rw [List.mem_append] at hmem
      rcases hmem with hmem | hmem
      · obtain ⟨hmn, hargs⟩ := htr1 m margs hmem
        refine ⟨by simp [hmn], ?_⟩
        rw [hassoc]
        exact mapM_option_stable _ _ _ _ hargs (fun k hk v hv =>
          evalEnv_stable s (done ++ [n]) rest k v hv)
      · obtain ⟨hmn, hargs⟩ := ihtr m margs hmem
        refine ⟨by simp [hmn], ?_⟩
        rw [hassoc]
        exact hargs

theorem alGet_filter_mem {T : Type} (keep : List Key) (s : List (Key × Node T)) (q : Key) :
    alGet (s.filter (fun p => p.1 ∈ keep)) q = if q ∈ keep then alGet s q else none := by
  induction s with
  | nil => by_cases hq : q ∈ keep <;> simp [alGet, hq]
  | cons p rest ih =>
    obtain ⟨k, nd⟩ := p
    by_cases hk : k ∈ keep
    · by_cases hkq : k = q
      · subst hkq
        simp [List.filter_cons, hk, alGet_cons]
      · simp [List.filter_cons, hk, alGet_cons, hkq, ih]
    · by_cases hkq : k = q
      · subst hkq
        simp [List.filter_cons, hk, alGet_cons, ih]
      · simp [List.filter_cons, hk, alGet_cons, hkq, ih]

theorem decEach_err (ks : List Key) :
    ∀ (rc : List (Key × Nat)) (e : PanicErr), (decEach ks rc).1 = some e →
      e = PanicErr.sweepMissingRefcount := by
  induction ks with
  | nil =>
    intro rc e h
    simp [decEach] at h
  | cons k rest ih =>
    intro rc e h
    cases hk : alGet rc k with
    | none =>
      rw [decEach_cons_missing k rest rc hk] at h
      simp at h
      exact h.symm
    | some c =>
      rw [decEach_cons_some k rest rc c hk] at h
      exact ih _ e h

theorem sweep_err {T : Type} (keep : List Key) (s : List (Key × Node T)) :
    ∀ (rc : List (Key × Nat)) (e : PanicErr), (sweepStorage keep s rc).1 = some e →
      e = PanicErr.sweepMissingRefcount := by
  induction s with
  | nil =>
    intro rc e h
    rw [sweepStorage_nil] at h
    simp at h
  | cons p rest ih =>
    obtain ⟨k, nd⟩ := p
    intro rc e h
    by_cases hk : k ∈ keep
    · rw [sweepStorage_cons_keep keep k nd rest rc hk] at h
      exact ih rc e h
    · cases hd : (decEach nd.input_nodes rc).1 with
      | some e2 =>
        rw [sweepStorage_cons_dead_err keep k nd rest rc e2 hk hd] at h
        simp at h
        rw [← h]
        exact decEach_err nd.input_nodes rc e2 hd
      | none =>
        rw [sweepStorage_cons_dead_ok keep k nd rest rc hk hd] at h
        exact ih _ e h

theorem sweep_trace_events {T : Type} (keep : List Key) (s : List (Key × Node T)) :
    ∀ (rc : List (Key × Nat)) (ev : TraceEv T), ev ∈ (sweepStorage keep s rc).2.2.2 →
      ∃ k, ev = TraceEv.sweepRemove k := by
  induction s with
  | nil =>
    intro rc ev h
    rw [sweepStorage_nil] at h
    simp at h
  | cons p rest ih =>
    obtain ⟨k, nd⟩ := p
    intro rc ev h
    by_cases hk : k ∈ keep
    · rw [sweepStorage_cons_keep keep k nd rest rc hk] at h
      exact ih rc ev h
    · cases hd : (decEach nd.input_nodes rc).1 with
      | some e2 =>
        rw [sweepStorage_cons_dead_err keep k nd rest rc e2 hk hd] at h
        simp at h
      | none =>
        rw [sweepStorage_cons_dead_ok keep k nd rest rc hk hd] at h
        rcases List.mem_cons.mp h with h | h
        · exact ⟨k, h⟩
        · exact ih _ ev h

theorem mapM_some_length {α β : Type _} (L : List α) (f : α → Option β) :
    ∀ args : List β, L.mapM f = some args → args.length = L.length := by
  induction L with
  | nil =>
    intro args h
    have h0 : ([] : List α).mapM f = some [] := rfl
    rw [h0] at h
    have : args = [] := by simpa using h.symm
    subst this
    rfl
  | cons k rest ih =>
    intro args h
    rw [List.mapM_cons] at h
    cases hk : f k with
    | none =>
      rw [hk] at h
      simp at h
    | some v =>
      rw [hk] at h
      cases hrest : rest.mapM f with
      | none =>
        rw [hrest] at h
        simp at h
      | some vs =>
        rw [hrest] at h
        have : args = v :: vs := by simpa using h.symm
        subst this
        simp [ih vs hrest]

theorem nodup_mem_singleton (l : List Key) (a : Key) (hnd : l.Nodup)
    (hmem : ∀ x, x ∈ l ↔ x = a) : l = [a] := by
  cases l with
  | nil => exact absurd ((hmem a).mpr rfl) (by simp)
  | cons x xs =>
    have hx : x = a := (hmem x).mp (by simp)
    subst hx
    cases xs with
    | nil => rfl
    | cons y ys =>
      have hy : y = x := (hmem y).mp (by simp)
      subst hy
      exact absurd (List.nodup_cons.mp hnd).1 (by simp)

theorem TopoOrdAux_append {T : Type} (s : List (Key × Node T)) :
    ∀ (t1 t2 done : List Key), TopoOrdAux s done t1 → TopoOrdAux s (done ++ t1) t2 →
      TopoOrdAux s done (t1 ++ t2) := by
  intro t1
  induction t1 with
  | nil =>
    intro t2 done _ h2
    rw [List.append_nil] at h2
    exact h2
  | cons n t1' ih =>
    intro t2 done h1 h2
    refine ⟨h1.1, ?_⟩
    refine ih t2 (done ++ [n]) h1.2 ?_
    have hassoc : (done ++ [n]) ++ t1' = done ++ n :: t1' := by simp
    rw [hassoc]
    exact h2

theorem TopoOrdAux_reverse {T : Type} (s s' : List (Key × Node T)) :
    ∀ fl : List Key, WellOrdered s fl → (∀ m ∈ fl, inputsOf s' m = inputsOf s m) →
      TopoOrdAux s' [] fl.reverse := by
  intro fl
  induction fl with
  | nil =>
    intro _ _
    exact trivial
  | cons m ys ih =>
    intro hwo hinp
    rw [List.reverse_cons]
    refine TopoOrdAux_append s' ys.reverse [m] [] (ih hwo.2 ?_) ?_
    · intro m2 hm2
      exact hinp m2 (by simp [hm2])
    · refine ⟨?_, trivial⟩
      intro i hi
      rw [hinp m (by simp)] at hi
      have := hwo.1 i hi
      simp [this]

theorem Reach_consumer {T : Type} (s : List (Key × Node T)) (out q : Key)
    (h : Reach s out q) (hq : q ≠ out) :
    ∃ m, Reach s out m ∧ q ∈ inputsOf s m := by
  cases h with
  | refl => exact absurd rfl hq
  | step hm hedge => exact ⟨_, hm, hedge⟩

theorem Reach_stored {T : Type} (s : List (Key × Node T)) (out q : Key)
    (hcl : Closed s) (hout : (alGet s out).isSome) (h : Reach s out q) :
    (alGet s q).isSome := by
  cases h with
  | refl => exact hout
  | step _ hedge => exact hcl _ _ hedge

theorem occ_filter_split {T : Type} (keep : List Key) (q : Key) :
    ∀ s : List (Key × Node T),
      (s.map (fun p => p.2.input_nodes.count q)).sum =
        ((s.filter (fun p => p.1 ∈ keep)).map (fun p => p.2.input_nodes.count q)).sum +
          sweptOcc keep s q := by
  intro s
  induction s with
  | nil => rfl
  | cons p rest ih =>
    obtain ⟨k, nd⟩ := p
    rw [sweptOcc_cons]
    by_cases hk : k ∈ keep
    · rw [List.filter_cons, if_pos (by simpa using hk), if_pos hk]
      simp only [List.map_cons, List.sum_cons]
      rw [ih]
      omega
    · rw [List.filter_cons, if_neg (by simpa using hk), if_neg hk]
      simp only [List.map_cons, List.sum_cons]
      rw [ih]
      omega

theorem map_inputs_eq {T : Type} (q : Key) :
    ∀ s : List (Key × Node T), (keysOf s).Nodup →
      (keysOf s).map (fun k => (inputsOf s k).count q) =
        s.map (fun p => p.2.input_nodes.count q) := by
  intro s
  induction s with
  | nil => intro _; rfl
  | cons p rest ih =>
    obtain ⟨k, nd⟩ := p
    intro hnd
    have hkeys : keysOf ((k, nd) :: rest) = k :: keysOf rest := rfl
    rw [hkeys] at hnd ⊢
    have hk : k ∉ keysOf rest := (List.nodup_cons.mp hnd).1
    rw [List.map_cons, List.map_cons]
    have hhead : inputsOf ((k, nd) :: rest) k = nd.input_nodes := by
      simp [inputsOf, alGet_cons]
    rw [hhead]
    have htail : (keysOf rest).map (fun k2 => (inputsOf ((k, nd) :: rest) k2).count q) =
        (keysOf rest).map (fun k2 => (inputsOf rest k2).count q) := by
      refine List.map_congr_left ?_
      intro k2 hk2
      have hne : ¬ (k = k2) := fun hh => hk (hh ▸ hk2)
      simp [inputsOf, alGet_cons, hne]
    rw [htail, ih (List.nodup_cons.mp hnd).2]

theorem finalize_ok {T : Type} (out : Key) (st : LoopState T) (nd : Node T) (v : T)
    (hlen : st.storage.length = 1)
    (hget : alGet st.storage out = some nd)
    (hcache : nd.output_cache = some v)
    (harc : alGet st.arcs out = some 1) :
    finalize out st = Except.ok v := by
  simp [finalize, hlen, hget, hcache, harc]

theorem toposort_succeeds {T : Type} (s : List (Key × Node T)) (out : Key)
    (hnd : (keysOf s).Nodup) (hcl : Closed s) (houtS : (alGet s out).isSome)
    (hacyc : ∀ n, ¬ PathPos s n n) :
    ∃ fl, toposort_helper s (fuelBound s) [out] [] [] = .ok fl := by
  cases hr : toposort_helper s (fuelBound s) [out] [] [] with
  | ok fl => exact ⟨fl, rfl⟩
  | error e =>
    rcases ts_error_cases s (fuelBound s) [out] [] [] e hr with he | he | he
    · subst he
      exact absurd hr (ts_no_false_cycle s hacyc (fuelBound s) [out] [] []
        (fun t ht => absurd ht (by simp)))
    · subst he
      refine absurd hr (ts_no_missing s hcl (fuelBound s) [out] [] [] ?_)
      intro k hk
      have hko : k = out := by simpa using hk
      subst hko
      exact houtS
    · subst he
      refine absurd hr (ts_no_fuelOut s hnd (fuelBound s) [out] [] [] ?_)
      rw [tsWeight_nil_temp]
      have h1 : ([out] : List Key).length = 1 := rfl
      rw [h1]
      unfold fuelBound
      omega

theorem loop_setup_and_run {T : Type} (g : ComputationGraph T) (out : Key)
    (fl : List Key)
    (hout : g.output_node = some out)
    (hnd : (keysOf g.node_storage).Nodup)
    (hcl : Closed g.node_storage)
    (houtS : (alGet g.node_storage out).isSome)
    (hcache : ∀ q nd, alGet g.node_storage q = some nd → nd.output_cache = none)
    (hrc : RefcountInvariant g)
    (hts : toposort_helper g.node_storage (fuelBound g.node_storage) [out] [] [] =
      .ok fl)
    (hsw : (sweepStorage fl g.node_storage g.node_refcount).1 = none) :
    (runLoop fl.reverse
        ⟨(sweepStorage fl g.node_storage g.node_refcount).2.1,
         (sweepStorage fl g.node_storage g.node_refcount).2.2.1, []⟩).1 = none ∧
    keysOf (runLoop fl.reverse
        ⟨(sweepStorage fl g.node_storage g.node_refcount).2.1,
         (sweepStorage fl g.node_storage g.node_refcount).2.2.1, []⟩).2.1.storage =
      [out] ∧
    alGet (runLoop fl.reverse
        ⟨(sweepStorage fl g.node_storage g.node_refcount).2.1,
         (sweepStorage fl g.node_storage g.node_refcount).2.2.1, []⟩).2.1.arcs out =
      some 1 ∧
    (∃ v, finalize out (runLoop fl.reverse
        ⟨(sweepStorage fl g.node_storage g.node_refcount).2.1,
         (sweepStorage fl g.node_storage g.node_refcount).2.2.1, []⟩).2.1 =
      Except.ok v) ∧
    (∀ m margs, TraceEv.invoke m margs ∈ (runLoop fl.reverse
        ⟨(sweepStorage fl g.node_storage g.node_refcount).2.1,
         (sweepStorage fl g.node_storage g.node_refcount).2.2.1, []⟩).2.2 →
      m ∈ fl.reverse ∧
      (inputsOf (sweepStorage fl g.node_storage g.node_refcount).2.1 m).mapM
        (fun k => alGet (evalEnv (sweepStorage fl g.node_storage g.node_refcount).2.1
          fl.reverse) k) = some margs) := by
  obtain ⟨hswS, hswR⟩ := sweepStorage_ok fl g.node_storage g.node_refcount hnd hsw
  set s1 := (sweepStorage fl g.node_storage g.node_refcount).2.1 with hs1def
  set rc1 := (sweepStorage fl g.node_storage g.node_refcount).2.2.1 with hrc1def
  obtain ⟨-, hB, hC, hD, hE⟩ := ts_ok_main g.node_storage (fuelBound g.node_storage)
    [out] [] [] fl hts
  have hwo : WellOrdered g.node_storage fl := hC trivial
  have hflnd : fl.Nodup := hD List.nodup_nil
  have houtfl : out ∈ fl := hB out (by simp)
  have hreach : ∀ m ∈ fl, Reach g.node_storage out m := by
    intro m hm
    rcases hE m hm with hm0 | ⟨k, hk, hr⟩
    · simp at hm0
    · have hko : k = out := by simpa using hk
      subst hko
      exact hr
  have hstored : ∀ m ∈ fl, (alGet g.node_storage m).isSome := fun m hm =>
    Reach_stored _ out m hcl houtS (hreach m hm)
  have hs1get : ∀ q, alGet s1 q = if q ∈ fl then alGet g.node_storage q else none := by
    intro q
    rw [hswS, alGet_filter_mem]
  have hinp1 : ∀ m ∈ fl, inputsOf s1 m = inputsOf g.node_storage m := by
    intro m hm
    unfold inputsOf
    rw [hs1get m, if_pos hm]
  have hkeys1 : ∀ q, q ∈ keysOf s1 ↔ q ∈ fl := by
    intro q
    rw [mem_keysOf_iff]
    constructor
    · intro hq
      by_cases hqfl : q ∈ fl
      · exact hqfl
      · rw [hs1get q, if_neg hqfl] at hq
        simp at hq
    · intro hq
      rw [hs1get q, if_pos hq]
      exact hstored q hq
  have hnd1 : (keysOf s1).Nodup := by
    rw [hswS]
    have hsub : List.Sublist
        (keysOf (g.node_storage.filter (fun p => p.1 ∈ fl)))
        (keysOf g.node_storage) :=
      List.Sublist.map _ (List.filter_sublist _)
    exact hnd.sublist hsub
  have hperm : fl.reverse.Perm (keysOf s1) :=
    (List.perm_ext_iff_of_nodup (List.nodup_reverse.mpr hflnd) hnd1).mpr
      (fun q => by rw [List.mem_reverse]; exact (hkeys1 q).symm)
  have hocc : ∀ q, occTodo s1 fl.reverse q =
      ((g.node_storage.filter (fun p => p.1 ∈ fl)).map
        (fun p => p.2.input_nodes.count q)).sum := by
    intro q
    have h1 : occTodo s1 fl.reverse q =
        ((keysOf s1).map (fun n => (inputsOf s1 n).count q)).sum := by
      unfold occTodo
      exact List.Perm.sum_eq (List.Perm.map _ hperm)
    rw [h1, map_inputs_eq q s1 hnd1, hswS]
  have hrc1get : ∀ q, alGet rc1 q =
      if q ∈ fl.reverse then some (liveVal s1 out fl.reverse q) else none := by
    intro q
    rw [hswR q]
    by_cases hq : q ∈ fl
    · rw [if_neg (fun hh => hh.2 hq)]
      have hqs : (alGet g.node_storage q).isSome := hstored q hq
      rw [hrc q, if_pos hqs]
      simp only [Option.map_some']
      rw [if_pos (List.mem_reverse.mpr hq), Option.some.injEq]
      have hsplit := occ_filter_split fl q g.node_storage
      have houtTerm : consumers g q =
          (g.node_storage.map (fun p => p.2.input_nodes.count q)).sum +
            (if q = out then 1 else 0) := by
        unfold consumers
        rw [hout]
        by_cases hqo : q = out
        · subst hqo
          simp
        · rw [if_neg (fun hh : some out = some q => hqo (by simpa using hh.symm)),
            if_neg hqo]
      have hlv : liveVal s1 out fl.reverse q =
          ((g.node_storage.filter (fun p => p.1 ∈ fl)).map
            (fun p => p.2.input_nodes.count q)).sum + (if q = out then 1 else 0) := by
        unfold liveVal
        rw [hocc q]
      rw [houtTerm, hlv, hsplit]
      generalize (if q = out then 1 else 0 : Nat) = d
      omega
    · by_cases hqs : (alGet g.node_storage q).isSome
      · rw [if_pos ⟨hqs, hq⟩, if_neg (fun hh => hq (List.mem_reverse.mp hh))]
      · rw [if_neg (fun hh => hqs hh.1), hrc q, if_neg hqs]
        simp only [Option.map_none']
        rw [if_neg (fun hh => hq (List.mem_reverse.mp hh))]
  have hcache1 : ∀ q nd, alGet s1 q = some nd → nd.output_cache = none := by
    intro q nd hq
    rw [hs1get q] at hq
    by_cases hqfl : q ∈ fl
    · rw [if_pos hqfl] at hq
      exact hcache q nd hq
    · rw [if_neg hqfl] at hq
      exact absurd hq (by simp)
  have hto : TopoOrdAux s1 [] fl.reverse :=
    TopoOrdAux_reverse g.node_storage s1 fl hwo hinp1
  have hcons0 : ∀ q ∈ ([] : List Key) ++ fl.reverse, q ≠ out →
      ∃ m ∈ ([] : List Key) ++ fl.reverse, q ∈ inputsOf s1 m := by
    intro q hq hqo
    have hqfl : q ∈ fl := List.mem_reverse.mp (by simpa using hq)
    obtain ⟨m, hmr, hmi⟩ := Reach_consumer g.node_storage out q (hreach q hqfl) hqo
    have hmfl : m ∈ fl := Reach_mem_of_closed g.node_storage fl hwo houtfl hmr
    refine ⟨m, by simp [List.mem_reverse, hmfl], ?_⟩
    rw [hinp1 m hmfl]
    exact hmi
  have hinv0 : LoopInv s1 out [] fl.reverse ⟨s1, rc1, []⟩ := by
    refine ⟨?_, ?_, ?_, hnd1⟩
    · intro q
      by_cases hq : q ∈ fl.reverse
      · rw [if_pos hq]
      · rw [if_neg hq, if_neg (by rintro ⟨hh, -⟩; simp at hh)]
        rw [hs1get q, if_neg (fun hh => hq (List.mem_reverse.mpr hh))]
    · intro q
      rw [hrc1get q]
      by_cases hq : q ∈ fl.reverse
      · rw [if_pos hq, if_pos (Or.inl hq)]
      · rw [if_neg hq, if_neg ?_]
        rintro (hh | hh)
        · exact hq hh
        · exact absurd hh.1 (by simp)
    · intro q
      rw [if_neg (by rintro ⟨hh, -⟩; simp at hh)]
      rfl
  obtain ⟨hok, hfin, htr⟩ := runLoop_main s1 out fl.reverse [] ⟨s1, rc1, []⟩
    hcache1 (by simpa using List.nodup_reverse.mpr hflnd)
    (fun q => by rw [List.nil_append, List.mem_reverse]; exact hkeys1 q)
    hto (fun m hm => absurd hm (by simp)) hcons0 hinv0
  obtain ⟨hFS, hFR, hFA, hFN⟩ := hfin
  have hlv0 : ∀ q, liveVal s1 out [] q = if q = out then 1 else 0 := by
    intro q
    simp [liveVal, occTodo]
  have houtrev : out ∈ ([] : List Key) ++ fl.reverse := by
    simp [List.mem_reverse, houtfl]
  have hs1out : (alGet s1 out).isSome := by
    rw [hs1get out, if_pos houtfl]
    exact hstored out houtfl
  obtain ⟨ndo, hndo⟩ := Option.isSome_iff_exists.mp hs1out
  have hcachev : (alGet (evalEnv s1 fl.reverse) out).isSome :=
    evalEnvAux_isSome s1 fl.reverse [] out (List.mem_reverse.mpr houtfl) hs1out
  obtain ⟨v, hv⟩ := Option.isSome_iff_exists.mp hcachev
  have hgetout : alGet (runLoop fl.reverse ⟨s1, rc1, []⟩).2.1.storage out =
      some { ndo with output_cache := some v } := by
    rw [hFS out, if_neg (by simp), if_pos ⟨houtrev, by simp [hlv0 out]⟩, hndo]
    simp [hv]
  have hmemS : ∀ q, q ∈ keysOf (runLoop fl.reverse ⟨s1, rc1, []⟩).2.1.storage ↔
      q = out := by
    intro q
    rw [mem_keysOf_iff]
    constructor
    · intro hq
      by_contra hqo
      rw [hFS q, if_neg (by simp), if_neg ?hdead] at hq
      · simp at hq
      case hdead =>
        rintro ⟨-, hne⟩
        rw [hlv0 q, if_neg hqo] at hne
        exact hne rfl
    · intro hq
      subst hq
      rw [hgetout]
      rfl
  have hkeysS : keysOf (runLoop fl.reverse ⟨s1, rc1, []⟩).2.1.storage = [out] :=
    nodup_mem_singleton _ out hFN hmemS
  have harc : alGet (runLoop fl.reverse ⟨s1, rc1, []⟩).2.1.arcs out = some 1 := by
    rw [hFA out, if_pos ⟨houtrev, by simp [hlv0 out]⟩]
  have hlen : (runLoop fl.reverse ⟨s1, rc1, []⟩).2.1.storage.length = 1 := by
    have h2 : (keysOf (runLoop fl.reverse ⟨s1, rc1, []⟩).2.1.storage).length =
        (runLoop fl.reverse ⟨s1, rc1, []⟩).2.1.storage.length := by
      simp [keysOf]
    rw [hkeysS] at h2
    simpa using h2.symm
  have hfinal : finalize out (runLoop fl.reverse ⟨s1, rc1, []⟩).2.1 = Except.ok v :=
    finalize_ok out _ { ndo with output_cache := some v } v hlen hgetout rfl harc
  exact ⟨hok, hkeysS, harc, ⟨v, hfinal⟩, htr⟩

theorem alGet_eq_none_of_not_mem {β : Type _} (l : List (Key × β)) (q : Key)
    (h : q ∉ keysOf l) : alGet l q = none := by
  cases hg : alGet l q with
  | none => rfl
  | some v => exact absurd ((mem_keysOf_iff l q).mpr (by simp [hg])) h

/-- Claim C6: in an acyclic graph with a designated, stored output, unique
keys, a closed arena, builder-clean caches, and counters equal to consumer
counts (as established by wiring each node at most once), `compute` either
panics inside the (buggy) dead-code sweep — before the evaluation loop ever
starts — or the loop finishes with exactly the output node left in storage,
its cached value carrying a single strong count, and the final extraction
returns that value: the length-assertion and `try_unwrap` failure branches
are unreachable. -/
theorem c6_unique_output_remains {T : Type} (g : ComputationGraph T) (out : Key)
    (hout : g.output_node = some out)
    (hnd : (keysOf g.node_storage).Nodup)
    (hcl : Closed g.node_storage)
    (houtS : (alGet g.node_storage out).isSome)
    (hcache : ∀ q nd, alGet g.node_storage q = some nd → nd.output_cache = none)
    (hrc : RefcountInvariant g)
    (hacyc : ∀ n, ¬ PathPos g.node_storage n n) :
    (∃ tr, compute g = (Except.error PanicErr.sweepMissingRefcount, tr)) ∨
    (∃ v,
      keysOf (runLoop (computation_order g).2.2.1
        ⟨(computation_order g).2.1.node_storage,
         (computation_order g).2.1.node_refcount, []⟩).2.1.storage = [out] ∧
      alGet (runLoop (computation_order g).2.2.1
        ⟨(computation_order g).2.1.node_storage,
         (computation_order g).2.1.node_refcount, []⟩).2.1.arcs out = some 1 ∧
      finalize out (runLoop (computation_order g).2.2.1
        ⟨(computation_order g).2.1.node_storage,
         (computation_order g).2.1.node_refcount, []⟩).2.1 = Except.ok v ∧
      (compute g).1 = Except.ok v) := by
  obtain ⟨fl, hts⟩ := toposort_succeeds g.node_storage out hnd hcl houtS hacyc
  cases hswc : (sweepStorage fl g.node_storage g.node_refcount).1 with
  | some e =>
    left
    have he := sweep_err fl g.node_storage g.node_refcount e hswc
    subst he
    have hco := computation_order_sweepErr g out fl PanicErr.sweepMissingRefcount
      hout hts hswc
    refine ⟨(sweepStorage fl g.node_storage g.node_refcount).2.2.2, ?_⟩
    have h1 : (computation_order g).1 = some PanicErr.sweepMissingRefcount := by
      rw [hco]
    have h2 := compute_orderErr g out PanicErr.sweepMissingRefcount hout h1
    rw [h2, hco]
  | none =>
    right
    obtain ⟨hok, hkeysS, harc, ⟨v, hfinal⟩, -⟩ :=
      loop_setup_and_run g out fl hout hnd hcl houtS hcache hrc hts hswc
    have hco := computation_order_ok g out fl hout hts hswc
    have h1 : (computation_order g).1 = none := by rw [hco]
    have h2 : (runLoop (computation_order g).2.2.1
        ⟨(computation_order g).2.1.node_storage,
         (computation_order g).2.1.node_refcount, []⟩).1 = none := by
      rw [hco]
      exact hok
    have h4 : finalize out (runLoop (computation_order g).2.2.1
        ⟨(computation_order g).2.1.node_storage,
         (computation_order g).2.1.node_refcount, []⟩).2.1 = Except.ok v := by
      rw [hco]
      exact hfinal
    refine ⟨v, ?_, ?_, h4, ?_⟩
    · rw [hco]
      exact hkeysS
    · rw [hco]
      exact harc
    · have h3 := compute_finalized g out hout h1 h2
      rw [h3, h4]

/-- Claim C8: under the same builder invariants, every function invocation
recorded by `compute` receives exactly one value per declared input, in the
declared order: the argument list is the map of the reference environment
over the node's stored input list. -/
theorem c8_args_in_declared_order {T : Type} (g : ComputationGraph T) (out : Key)
    (hout : g.output_node = some out)
    (hnd : (keysOf g.node_storage).Nodup)
    (hcl : Closed g.node_storage)
    (houtS : (alGet g.node_storage out).isSome)
    (hcache : ∀ q nd, alGet g.node_storage q = some nd → nd.output_cache = none)
    (hrc : RefcountInvariant g)
    (hacyc : ∀ n, ¬ PathPos g.node_storage n n) :
    ∀ m margs, TraceEv.invoke m margs ∈ (compute g).2 →
      m ∈ (computation_order g).2.2.1 ∧
      (inputsOf (computation_order g).2.1.node_storage m).mapM
        (fun k => alGet (evalEnv (computation_order g).2.1.node_storage
          (computation_order g).2.2.1) k) = some margs ∧
      margs.length = (inputsOf (computation_order g).2.1.node_storage m).length := by
  obtain ⟨fl, hts⟩ := toposort_succeeds g.node_storage out hnd hcl houtS hacyc
  cases hswc : (sweepStorage fl g.node_storage g.node_refcount).1 with
  | some e =>
    intro m margs hmem
    have he := sweep_err fl g.node_storage g.node_refcount e hswc
    subst he
    have hco := computation_order_sweepErr g out fl PanicErr.sweepMissingRefcount
      hout hts hswc
    have h1 : (computation_order g).1 = some PanicErr.sweepMissingRefcount := by
      rw [hco]
    have h2 := compute_orderErr g out PanicErr.sweepMissingRefcount hout h1
    rw [h2, hco] at hmem
    have hmem2 : TraceEv.invoke m margs ∈
        (sweepStorage fl g.node_storage g.node_refcount).2.2.2 := hmem
    obtain ⟨k, hk⟩ := sweep_trace_events fl g.node_storage g.node_refcount _ hmem2
    simp at hk
  | none =>
    obtain ⟨hok, hkeysS, harc, ⟨v, hfinal⟩, htr⟩ :=
      loop_setup_and_run g out fl hout hnd hcl houtS hcache hrc hts hswc
    have hco := computation_order_ok g out fl hout hts hswc
    have h1 : (computation_order g).1 = none := by rw [hco]
    have h2 : (runLoop (computation_order g).2.2.1
        ⟨(computation_order g).2.1.node_storage,
         (computation_order g).2.1.node_refcount, []⟩).1 = none := by
      rw [hco]
      exact hok
    have h4 : finalize out (runLoop (computation_order g).2.2.1
        ⟨(computation_order g).2.1.node_storage,
         (computation_order g).2.1.node_refcount, []⟩).2.1 = Except.ok v := by
      rw [hco]
      exact hfinal
    have h3 := compute_finalized g out hout h1 h2
    intro m margs hmem
    rw [h3, h4] at hmem
    have hmem2 : TraceEv.invoke m margs ∈
        (computation_order g).2.2.2 ++ (runLoop (computation_order g).2.2.1
          ⟨(computation_order g).2.1.node_storage,
           (computation_order g).2.1.node_refcount, []⟩).2.2 := hmem
    rw [List.mem_append] at hmem2
    rcases hmem2 with hmem2 | hmem2
    · rw [hco] at hmem2
      have hmem3 : TraceEv.invoke m margs ∈
          (sweepStorage fl g.node_storage g.node_refcount).2.2.2 := hmem2
      obtain ⟨k, hk⟩ := sweep_trace_events fl g.node_storage g.node_refcount _ hmem3
      simp at hk
    · rw [hco] at hmem2
      have hmem3 : TraceEv.invoke m margs ∈ (runLoop fl.reverse
          ⟨(sweepStorage fl g.node_storage g.node_refcount).2.1,
           (sweepStorage fl g.node_storage g.node_refcount).2.2.1, []⟩).2.2 := hmem2
      obtain ⟨hm, hargs⟩ := htr m margs hmem3
      refine ⟨?_, ?_, ?_⟩
      · rw [hco]
        exact hm
      · rw [hco]
        exact hargs
      · rw [hco]
        exact mapM_some_length _ _ margs hargs

/-- Only input edge of the chain graph: node 1 consumes node 0. -/
theorem chain_edge : ∀ m i, i ∈ inputsOf chainGraph.node_storage m →
    m = 1 ∧ i = 0 := by
  intro m i hi
  by_cases h0 : m = 0
  · subst h0
    rw [show inputsOf chainGraph.node_storage 0 = [] from rfl] at hi
    simp at hi
  · by_cases h1 : m = 1
    · subst h1
      rw [show inputsOf chainGraph.node_storage 1 = [0] from rfl] at hi
      have h2 : i = 0 := by simpa using hi
      exact ⟨rfl, h2⟩
    · have hnone : alGet chainGraph.node_storage m = none := by
        refine alGet_eq_none_of_not_mem _ m ?_
        rw [show keysOf chainGraph.node_storage = [0, 1] from rfl]
        simp [h0, h1]
      unfold inputsOf at hi
      rw [hnone] at hi
      simp at hi

theorem chain_closed : Closed chainGraph.node_storage := by
  intro k i hi
  obtain ⟨-, h0⟩ := chain_edge k i hi
  subst h0
  rfl

theorem chain_acyclic : ∀ n, ¬ PathPos chainGraph.node_storage n n := by
  have hchar : ∀ a b, PathPos chainGraph.node_storage a b → a = 1 ∧ b = 0 := by
    intro a b h
    induction h with
    | single h1 => exact chain_edge _ _ h1
    | cons h1 h2 ih =>
      have ha := chain_edge _ _ h1
      have hb := ih
      rw [ha.2] at hb
      exact absurd hb.1 (by simp)
  intro n h
  obtain ⟨h1, h0⟩ := hchar n n h
  subst h1
  simp at h0

theorem chain_cache : ∀ q nd, alGet chainGraph.node_storage q = some nd →
    nd.output_cache = none := by
  intro q nd h
  by_cases h0 : q = 0
  · subst h0
    have h3 : (alGet chainGraph.node_storage 0).bind
        (fun nd0 => nd0.output_cache) = none := rfl
    rw [h] at h3
    simpa using h3
  · by_cases h1 : q = 1
    · subst h1
      have h3 : (alGet chainGraph.node_storage 1).bind
          (fun nd0 => nd0.output_cache) = none := rfl
      rw [h] at h3
      simpa using h3
    · have hnone : alGet chainGraph.node_storage q = none := by
        refine alGet_eq_none_of_not_mem _ q ?_
        rw [show keysOf chainGraph.node_storage = [0, 1] from rfl]
        simp [h0, h1]
      rw [hnone] at h
      exact absurd h (by simp)

theorem chain_rc : RefcountInvariant chainGraph := by
  intro k
  by_cases h0 : k = 0
  · subst h0
    rfl
  · by_cases h1 : k = 1
    · subst h1
      rfl
    · have hs : alGet chainGraph.node_storage k = none := by
        refine alGet_eq_none_of_not_mem _ k ?_
        rw [show keysOf chainGraph.node_storage = [0, 1] from rfl]
        simp [h0, h1]
      have hr : alGet chainGraph.node_refcount k = none := by
        refine alGet_eq_none_of_not_mem _ k ?_
        rw [show keysOf chainGraph.node_refcount = [0, 1] from rfl]
        simp [h0, h1]
      rw [hs, hr]
      rfl

/-- Witness for C6 at the two-node chain graph: the loop ends with exactly
node 1 (the output) in storage and `compute` returns its value 5. -/
theorem c6_unique_output_remains_witness :
    keysOf (runLoop (computation_order chainGraph).2.2.1
      ⟨(computation_order chainGraph).2.1.node_storage,
       (computation_order chainGraph).2.1.node_refcount, []⟩).2.1.storage = [1] ∧
    (compute chainGraph).1 = Except.ok 5 := by
  rcases c6_unique_output_remains chainGraph 1 rfl (by decide) chain_closed rfl
      chain_cache chain_rc chain_acyclic with ⟨tr, htr⟩ | ⟨v, hkeys, -, -, h4⟩
  · have hc : (compute chainGraph).1 = Except.error PanicErr.sweepMissingRefcount := by
      rw [htr]
    rw [show (compute chainGraph).1 = Except.ok 5 from rfl] at hc
    exact absurd hc (by simp)
  · have h5 := h4
    rw [show (compute chainGraph).1 = Except.ok 5 from rfl] at h5
    have hv : v = 5 := by simpa using h5.symm
    subst hv
    exact ⟨hkeys, h4⟩

/-- Witness for C8 at the chain graph: the recorded invocation of node 1
received exactly the cached value of its single declared input, `[5]`. -/
theorem c8_args_in_declared_order_witness :
    1 ∈ (computation_order chainGraph).2.2.1 ∧
    (inputsOf (computation_order chainGraph).2.1.node_storage 1).mapM
      (fun k => alGet (evalEnv (computation_order chainGraph).2.1.node_storage
        (computation_order chainGraph).2.2.1) k) = some [5] ∧
    ([5] : List Nat).length =
      (inputsOf (computation_order chainGraph).2.1.node_storage 1).length := by
  refine c8_args_in_declared_order chainGraph 1 rfl (by decide) chain_closed rfl
    chain_cache chain_rc chain_acyclic 1 [5] ?_
  rw [show (compute chainGraph).2 =
    [TraceEv.invoke 0 [], TraceEv.removeNode 0, TraceEv.invoke 1 [5]] from rfl]
  simp

theorem incrEach_spec (ks : List Key) :
    ∀ rc : List (Key × Nat), (incrEach ks rc).1 = none →
      ∀ q, alGet (incrEach ks rc).2 q = (alGet rc q).map (fun c => c + ks.count q) := by
  induction ks with
  | nil =>
    intro rc _ q
    simp [incrEach]
  | cons k rest ih =>
    intro rc hok q
    cases hk : alGet rc k with
    | none =>
      rw [show incrEach (k :: rest) rc = (some .missingRefcount, rc) from by
        simp [incrEach, hk]] at hok
      simp at hok
    | some c =>
      rw [show incrEach (k :: rest) rc = incrEach rest (alSet rc k (c + 1)) from by
        simp [incrEach, hk]] at hok ⊢
      rw [ih (alSet rc k (c + 1)) hok q, alGet_alSet]
      by_cases hq : q = k
      · subst hq
        simp [hk, List.count_cons]
        omega
      · simp [hq, List.count_cons]

theorem mem_alSet {β : Type _} (l : List (Key × β)) (k : Key) (v : β) :
    ∀ p ∈ alSet l k v, p = (k, v) ∨ p ∈ l := by
  induction l with
  | nil =>
    intro p hp
    simp [alSet] at hp
  | cons a rest ih =>
    obtain ⟨a1, b1⟩ := a
    intro p hp
    rw [alSet_cons] at hp
    by_cases hak : a1 = k
    · rw [if_pos hak] at hp
      rcases List.mem_cons.mp hp with hp | hp
      · subst hak
        exact Or.inl hp
      · exact Or.inr (by simp [hp])
    · rw [if_neg hak] at hp
      rcases List.mem_cons.mp hp with hp | hp
      · exact Or.inr (by simp [hp])
      · rcases ih p hp with hp2 | hp2
        · exact Or.inl hp2
        · exact Or.inr (by simp [hp2])

theorem sum_map_alSet {T : Type} (f : Node T → Nat) :
    ∀ (l : List (Key × Node T)) (k : Key) (nd ndnew : Node T),
      alGet l k = some nd →
      ((alSet l k ndnew).map (fun p => f p.2)).sum + f nd =
        (l.map (fun p => f p.2)).sum + f ndnew := by
  intro l
  induction l with
  | nil =>
    intro k nd ndnew h
    simp [alGet] at h
  | cons p rest ih =>
    obtain ⟨a, b⟩ := p
    intro k nd ndnew hget
    rw [alSet_cons]
    by_cases hak : a = k
    · rw [if_pos hak]
      rw [alGet_cons, if_pos hak] at hget
      have hb : b = nd := by simpa using hget
      subst hb
      simp only [List.map_cons, List.sum_cons]
      omega
    · rw [if_neg hak]
      rw [alGet_cons, if_neg hak] at hget
      simp only [List.map_cons, List.sum_cons]
      have := ih k nd ndnew hget
      omega

theorem mapM_mem_exists {α β : Type _} (L : List α) (f : α → Option β) :
    ∀ out, L.mapM f = some out → ∀ b ∈ out, ∃ a ∈ L, f a = some b := by
  induction L with
  | nil =>
    intro out h b hb
    have h0 : ([] : List α).mapM f = some [] := rfl
    rw [h0] at h
    have hout : out = [] := by simpa using h.symm
    subst hout
    simp at hb
  | cons x xs ih =>
    intro out h b hb
    rw [List.mapM_cons] at h
    cases hx : f x with
    | none =>
      rw [hx] at h
      simp at h
    | some v =>
      rw [hx] at h
      cases hxs : xs.mapM f with
      | none =>
        rw [hxs] at h
        simp at h
      | some vs =>
        rw [hxs] at h
        have hout : out = v :: vs := by simpa using h.symm
        subst hout
        rcases List.mem_cons.mp hb with hb | hb
        · subst hb
          exact ⟨x, by simp, hx⟩
        · obtain ⟨a, ha, hfa⟩ := ih vs hxs b hb
          exact ⟨a, by simp [ha], hfa⟩

theorem set_inputs_ok_spec {T : Type} (g : ComputationGraph T) (h : NodeHandle)
    (inputs : List NodeHandle) (g2 : ComputationGraph T)
    (hok : set_inputs g h inputs = (none, g2)) :
    h.graph_id = g.graph_id ∧
    h.node_key ∉ inputs.map (fun x => x.node_key) ∧
    ∃ nd rc2,
      incrEach (inputs.map (fun x => x.node_key)) g.node_refcount = (none, rc2) ∧
      alGet g.node_storage h.node_key = some nd ∧
      g2 = { g with
              node_refcount := rc2,
              node_storage := alSet g.node_storage h.node_key
                { nd with input_nodes := inputs.map (fun x => x.node_key) } } := by
  unfold set_inputs at hok
  by_cases hgid : h.graph_id ≠ g.graph_id
  · rw [if_pos hgid] at hok
    simp at hok
  · rw [if_neg hgid] at hok
    push_neg at hgid
    by_cases hself : h.node_key ∈ inputs.map (fun x => x.node_key)
    · rw [if_pos hself] at hok
      simp at hok
    · rw [if_neg hself] at hok
      refine ⟨hgid, hself, ?_⟩
      cases hincr : incrEach (inputs.map (fun x => x.node_key)) g.node_refcount with
      | mk e rc2 =>
        rw [hincr] at hok
        cases e with
        | some e0 => simp at hok
        | none =>
          have hok2 : (match alGet g.node_storage h.node_key with
              | none => (some PanicErr.missingStorage, { g with node_refcount := rc2 })
              | some nd => (none, { g with
                  node_refcount := rc2,
                  node_storage := alSet g.node_storage h.node_key
                    { nd with input_nodes := inputs.map (fun x => x.node_key) } })) =
              ((none : Option PanicErr), g2) := hok
          cases hnd : alGet g.node_storage h.node_key with
          | none =>
            rw [hnd] at hok2
            simp at hok2
          | some nd =>
            rw [hnd] at hok2
            have hg2 : { g with
                node_refcount := rc2,
                node_storage := alSet g.node_storage h.node_key
                  { nd with input_nodes := inputs.map (fun x => x.node_key) } } = g2 :=
              congrArg Prod.snd hok2
            exact ⟨nd, rc2, rfl, rfl, hg2.symm⟩

theorem designate_output_ok_spec {T : Type} (g : ComputationGraph T) (h : NodeHandle)
    (g2 : ComputationGraph T) (hok : designate_output g h = (none, g2)) :
    ∃ c, g.output_node = none ∧ h.graph_id = g.graph_id ∧
      (alGet g.node_storage h.node_key).isSome ∧
      alGet g.node_refcount h.node_key = some c ∧
      g2 = { g with
              output_node := some h.node_key,
              node_refcount := alSet g.node_refcount h.node_key (c + 1) } := by
  unfold designate_output at hok
  by_cases h1 : g.output_node.isSome
  · rw [if_pos h1] at hok
    simp at hok
  · rw [if_neg h1] at hok
    by_cases h2 : h.graph_id ≠ g.graph_id
    · rw [if_pos h2] at hok
      simp at hok
    · rw [if_neg h2] at hok
      push_neg at h2
      by_cases h3 : (alGet g.node_storage h.node_key).isNone
      · rw [if_pos h3] at hok
        simp at hok
      · rw [if_neg h3] at hok
        cases hc : alGet g.node_refcount h.node_key with
        | none =>
          rw [hc] at hok
          simp at hok
        | some c =>
          rw [hc] at hok
          have hg2 : { g with
              output_node := some h.node_key,
              node_refcount := alSet g.node_refcount h.node_key (c + 1) } = g2 :=
            congrArg Prod.snd hok
          refine ⟨c, ?_, h2, ?_, rfl, hg2.symm⟩
          · cases hout : g.output_node with
            | none => rfl
            | some o =>
              rw [hout] at h1
              simp at h1
          · cases ho : alGet g.node_storage h.node_key with
            | none =>
              rw [ho] at h3
              simp at h3
            | some v => simp [ho]

/-- Handle indices targeted by the `set_inputs` calls of a builder script. -/
def setTargets {T : Type} : List (BuildOp T) → List Nat
  | [] => []
  | .setInputs t _ :: rest => t :: setTargets rest
  | .insertNode _ _ :: rest => setTargets rest
  | .designateOutput _ :: rest => setTargets rest

/-- Invariant of a graph under construction through the public API: the
counters match the consumer counts, the i-th issued handle holds key i,
keys at or above the counter are unused, and all recorded edges and the
output designation point below the counter. -/
def BuilderInv {T : Type} (g : ComputationGraph T) (hs : List NodeHandle) : Prop :=
  RefcountInvariant g ∧
  (∀ t h, hs.get? t = some h → h.node_key = t) ∧
  hs.length = g.next_key ∧
  (∀ k, g.next_key ≤ k →
    alGet g.node_storage k = none ∧ alGet g.node_refcount k = none) ∧
  (∀ p ∈ g.node_storage, ∀ i ∈ p.2.input_nodes, i < g.next_key) ∧
  (∀ o, g.output_node = some o → o < g.next_key)

theorem get?_some_lt {α : Type _} (l : List α) (i : Nat) (x : α)
    (hx : l.get? i = some x) : i < l.length := by
  by_contra hh
  rw [List.get?_eq_none.mpr (by omega)] at hx
  simp at hx

theorem runOps_preserves_rc {T : Type} :
    ∀ (ops : List (BuildOp T)) (g : ComputationGraph T) (hs : List NodeHandle)
      (res : ComputationGraph T × List NodeHandle),
      BuilderInv g hs →
      (setTargets ops).Nodup →
      (∀ t ∈ setTargets ops, ∀ h, hs.get? t = some h →
        inputsOf g.node_storage h.node_key = []) →
      runOps ops g hs = some res →
      RefcountInvariant res.1 := by
  intro ops
  induction ops with
  | nil =>
    intro g hs res hinv _ _ hrun
    have hrun2 : some (g, hs) = some res := hrun
    have hres : (g, hs) = res := by simpa using hrun2
    rw [← hres]
    exact hinv.1
  | cons op rest ih =>
    intro g hs res hinv hnodup hunset hrun
    obtain ⟨hrc, hkey, hlen, hfresh, hbound, hob⟩ := hinv
    cases op with
    | insertNode name f =>
      have hstep : runOps (BuildOp.insertNode name f :: rest) g hs =
          runOps rest (insert_node g name f).1 (hs ++ [(insert_node g name f).2]) := rfl
      rw [hstep] at hrun
      have hg2 : (insert_node g name f).1 = { g with
          node_storage := g.node_storage ++ [(g.next_key, ⟨name, f, [], none⟩)],
          node_refcount := g.node_refcount ++ [(g.next_key, 0)],
          next_key := g.next_key + 1 } := rfl
      have hh2 : (insert_node g name f).2 = ⟨g.next_key, g.graph_id⟩ := rfl
      rw [hg2, hh2] at hrun
      set g2 : ComputationGraph T := { g with
          node_storage := g.node_storage ++ [(g.next_key, ⟨name, f, [], none⟩)],
          node_refcount := g.node_refcount ++ [(g.next_key, 0)],
          next_key := g.next_key + 1 } with hg2def
      have hpS : g2.node_storage =
          g.node_storage ++ [(g.next_key, ⟨name, f, [], none⟩)] := rfl
      have hpR : g2.node_refcount = g.node_refcount ++ [(g.next_key, 0)] := rfl
      have hpO : g2.output_node = g.output_node := rfl
      have hpN : g2.next_key = g.next_key + 1 := rfl
      have hsn := hfresh g.next_key (le_refl _)
      have hS2 : ∀ q, alGet (g.node_storage ++
          [(g.next_key, (⟨name, f, [], none⟩ : Node T))]) q =
          if q = g.next_key then some ⟨name, f, [], none⟩
          else alGet g.node_storage q := by
        intro q
        by_cases hq : q = g.next_key
        · subst hq
          rw [if_pos rfl]
          exact alGet_append_single_self _ _ _ hsn.1
        · rw [if_neg hq]
          exact alGet_append_single_ne _ _ _ _ hq
      have hR2 : ∀ q, alGet (g.node_refcount ++ [(g.next_key, 0)]) q =
          if q = g.next_key then some 0 else alGet g.node_refcount q := by
        intro q
        by_cases hq : q = g.next_key
        · subst hq
          rw [if_pos rfl]
          exact alGet_append_single_self _ _ _ hsn.2
        · rw [if_neg hq]
          exact alGet_append_single_ne _ _ _ _ hq
      have hconsEq : ∀ q, consumers g2 q = consumers g q := by
        intro q
        unfold consumers
        rw [hpS, hpO, List.map_append, List.sum_append]
        simp
      have hconsn : consumers g g.next_key = 0 := by
        unfold consumers
        have hsum : (g.node_storage.map
            (fun p => p.2.input_nodes.count g.next_key)).sum = 0 := by
          refine List.sum_eq_zero ?_
          intro x hx
          obtain ⟨p, hp, hpx⟩ := List.mem_map.mp hx
          rw [← hpx]
          refine List.count_eq_zero.mpr ?_
          intro hmem
          exact absurd (hbound p hp _ hmem) (lt_irrefl _)
        rw [hsum]
        cases hout : g.output_node with
        | none => simp
        | some o =>
          have hb := hob o hout
          have hne : ¬ (some o = some g.next_key) := by
            intro hh
            have ho2 : o = g.next_key := by simpa using hh
            rw [ho2] at hb
            exact absurd hb (lt_irrefl _)
          rw [if_neg hne]
      refine ih g2 (hs ++ [⟨g.next_key, g.graph_id⟩]) res
        ⟨?_, ?_, ?_, ?_, ?_, ?_⟩ hnodup ?_ hrun
      · intro q
        rw [hpR, hpS, hR2 q, hS2 q]
        by_cases hq : q = g.next_key
        · subst hq
          simp [hconsEq, hconsn]
        · rw [if_neg hq, if_neg hq, hconsEq q]
          exact hrc q
      · intro t h ht
        by_cases hlt : t < hs.length
        · rw [List.get?_append hlt] at ht
          exact hkey t h ht
        · by_cases heq : t = hs.length
          · subst heq
            rw [List.get?_concat_length] at ht
            have hh : (⟨g.next_key, g.graph_id⟩ : NodeHandle) = h := by simpa using ht
            rw [← hh]
            exact hlen.symm
          · rw [List.get?_eq_none.mpr (by simp; omega)] at ht
            simp at ht
      · rw [hpN]
        simp [hlen]
      · intro k hk
        rw [hpN] at hk
        have hk2 : g.next_key ≤ k := Nat.le_of_succ_le hk
        have hkne : ¬ (k = g.next_key) := fun hh =>
          absurd (hh ▸ hk) (Nat.not_succ_le_self _)
        constructor
        · rw [hpS, hS2 k, if_neg hkne]
          exact (hfresh k hk2).1
        · rw [hpR, hR2 k, if_neg hkne]
          exact (hfresh k hk2).2
      · intro p hp i hi
        rw [hpS] at hp
        rw [hpN]
        rcases List.mem_append.mp hp with hp | hp
        · exact Nat.lt_succ_of_lt (hbound p hp i hi)
        · have hp2 : p = (g.next_key, (⟨name, f, [], none⟩ : Node T)) := by simpa using hp
          subst hp2
          simp at hi
      · intro o ho
        rw [hpO] at ho
        rw [hpN]
        exact Nat.lt_succ_of_lt (hob o ho)
      · intro t' ht' h' hget'
        have ht'2 : t' ∈ setTargets (BuildOp.insertNode name f :: rest) := by
          rw [show setTargets (BuildOp.insertNode name f :: rest) =
            setTargets rest from rfl]
          exact ht'
        by_cases hlt : t' < hs.length
        · rw [List.get?_append hlt] at hget'
          have hkeyt := hkey t' h' hget'
          have hinp := hunset t' ht'2 h' hget'
          have hne : ¬ (h'.node_key = g.next_key) := by
            rw [hkeyt]
            intro hh
            rw [hh, hlen] at hlt
            exact absurd hlt (lt_irrefl _)
          unfold inputsOf
          rw [hpS, hS2 h'.node_key, if_neg hne]
          unfold inputsOf at hinp
          exact hinp
        · by_cases heq : t' = hs.length
          · subst heq
            rw [List.get?_concat_length] at hget'
            have hh : (⟨g.next_key, g.graph_id⟩ : NodeHandle) = h' := by simpa using hget'
            rw [← hh]
            unfold inputsOf
            rw [hpS, hS2 g.next_key, if_pos rfl]
          · rw [List.get?_eq_none.mpr (by simp; omega)] at hget'
            simp at hget'
    | setInputs t ins =>
      cases hgt : hs.get? t with
      | none =>
        have hgt2 : hs[t]? = none := by
          rw [← List.get?_eq_getElem?]
          exact hgt
        have hstep : runOps (BuildOp.setInputs t ins :: rest) g hs = none := by
          simp [runOps, hgt2]
        rw [hstep] at hrun
        simp at hrun
      | some h =>
        have hgt2 : hs[t]? = some h := by
          rw [← List.get?_eq_getElem?]
          exact hgt
        cases hins : ins.mapM hs.get? with
        | none =>
          have hins2 : List.mapM.loop hs.get? ins [] = none := hins
          have hstep : runOps (BuildOp.setInputs t ins :: rest) g hs = none := by
            simp [runOps, hgt2, hins2]
          rw [hstep] at hrun
          simp at hrun
        | some ihs =>
          have hins2 : List.mapM.loop hs.get? ins [] = some ihs := hins
          cases hset : set_inputs g h ihs with
          | mk e g2 =>
            cases e with
            | some e0 =>
              have hstep : runOps (BuildOp.setInputs t ins :: rest) g hs = none := by
                simp [runOps, hgt2, hins2, hset]
              rw [hstep] at hrun
              simp at hrun
            | none =>
              have hstep : runOps (BuildOp.setInputs t ins :: rest) g hs =
                  runOps rest g2 hs := by
                simp [runOps, hgt2, hins2, hset]
              rw [hstep] at hrun
              obtain ⟨hgid, hself, nd, rc2, hincr, hnd, hg2⟩ :=
                set_inputs_ok_spec g h ihs g2 hset
              have hpS : g2.node_storage = alSet g.node_storage h.node_key
                  { nd with input_nodes := ihs.map (fun x => x.node_key) } := by
                rw [hg2]
              have hpR : g2.node_refcount = rc2 := by rw [hg2]
              have hpO : g2.output_node = g.output_node := by rw [hg2]
              have hpN : g2.next_key = g.next_key := by rw [hg2]
              have hkeyt := hkey t h hgt
              have htlt := get?_some_lt hs t h hgt
              have hklt : h.node_key < g.next_key := by
                rw [hkeyt, ← hlen]
                exact htlt
              have hmemT : t ∈ setTargets (BuildOp.setInputs t ins :: rest) := by
                rw [show setTargets (BuildOp.setInputs t ins :: rest) =
                  t :: setTargets rest from rfl]
                simp
              have hinps := hunset t hmemT h hgt
              have hndin : nd.input_nodes = [] := by
                unfold inputsOf at hinps
                rw [hnd] at hinps
                exact hinps
              have h1 : (incrEach (ihs.map (fun x => x.node_key))
                  g.node_refcount).1 = none := by
                rw [hincr]
              have h2 := incrEach_spec (ihs.map (fun x => x.node_key))
                g.node_refcount h1
              rw [hincr] at h2
              have hrc2 : ∀ q, alGet rc2 q = (alGet g.node_refcount q).map
                  (fun c => c + (ihs.map (fun x => x.node_key)).count q) := h2
              have hS2 : ∀ q, alGet (alSet g.node_storage h.node_key
                  { nd with input_nodes := ihs.map (fun x => x.node_key) }) q =
                  if q = h.node_key then
                    some { nd with input_nodes := ihs.map (fun x => x.node_key) }
                  else alGet g.node_storage q := by
                intro q
                rw [alGet_alSet]
                by_cases hq : q = h.node_key
                · subst hq
                  rw [if_pos rfl, if_pos rfl, hnd]
                  rfl
                · rw [if_neg hq, if_neg hq]
              have hconsEq : ∀ q, consumers g2 q =
                  consumers g q + (ihs.map (fun x => x.node_key)).count q := by
                intro q
                unfold consumers
                rw [hpS, hpO]
                have hsum := sum_map_alSet (fun nd2 => nd2.input_nodes.count q)
                  g.node_storage h.node_key nd
                  { nd with input_nodes := ihs.map (fun x => x.node_key) } hnd
                have hsum2 : ((alSet g.node_storage h.node_key
                    { nd with input_nodes := ihs.map (fun x => x.node_key) }).map
                      (fun p => p.2.input_nodes.count q)).sum +
                    nd.input_nodes.count q =
                    (g.node_storage.map (fun p => p.2.input_nodes.count q)).sum +
                    (ihs.map (fun x => x.node_key)).count q := hsum
                rw [hndin] at hsum2
                simp only [List.count_nil] at hsum2
                generalize (if g.output_node = some q then 1 else 0 : Nat) = d
                omega
              refine ih g2 hs res ⟨?_, hkey, ?_, ?_, ?_, ?_⟩
                (by exact (List.nodup_cons.mp hnodup).2) ?_ hrun
              · intro q
                rw [hpR, hpS, hrc2 q, hS2 q]
                by_cases hq : q = h.node_key
                · subst hq
                  rw [if_pos rfl, hrc h.node_key, hnd]
                  simp [hconsEq]
                · rw [if_neg hq, hrc q]
                  by_cases hqs : (alGet g.node_storage q).isSome
                  · rw [if_pos hqs, if_pos hqs]
                    simp [hconsEq]
                  · rw [if_neg hqs, if_neg hqs]
                    rfl
              · rw [hpN]
                exact hlen
              · intro k hk
                rw [hpN] at hk
                have hkne : ¬ (k = h.node_key) := fun hh =>
                  absurd (Nat.lt_of_lt_of_le hklt (hh ▸ hk)) (lt_irrefl _)
                constructor
                · rw [hpS, hS2 k, if_neg hkne]
                  exact (hfresh k hk).1
                · rw [hpR, hrc2 k, (hfresh k hk).2]
                  rfl
              · intro p hp i hi
                rw [hpS] at hp
                rw [hpN]
                rcases mem_alSet _ _ _ p hp with hp2 | hp2
                · subst hp2
                  have hi2 : i ∈ ihs.map (fun x => x.node_key) := hi
                  obtain ⟨x, hx, hxk⟩ := List.mem_map.mp hi2
                  obtain ⟨a, ha, hfa⟩ := mapM_mem_exists ins hs.get? ihs hins x hx
                  have hxa := hkey a x hfa
                  have halt := get?_some_lt hs a x hfa
                  rw [← hxk, hxa, ← hlen]
                  exact halt
                · exact hbound p hp2 i hi
              · intro o ho
                rw [hpO] at ho
                rw [hpN]
                exact hob o ho
              · intro t' ht' h' hget'
                have ht'2 : t' ∈ setTargets (BuildOp.setInputs t ins :: rest) := by
                  rw [show setTargets (BuildOp.setInputs t ins :: rest) =
                    t :: setTargets rest from rfl]
                  simp [ht']
                have hinp' := hunset t' ht'2 h' hget'
                have hkey' := hkey t' h' hget'
                have htne : t' ≠ t := by
                  intro hh
                  subst hh
                  exact (List.nodup_cons.mp hnodup).1 ht'
                have hne : ¬ (h'.node_key = h.node_key) := by
                  rw [hkey', hkeyt]
                  exact htne
                unfold inputsOf
                rw [hpS, hS2 h'.node_key, if_neg hne]
                unfold inputsOf at hinp'
                exact hinp'
    | designateOutput t =>
      cases hgt : hs.get? t with
      | none =>
        have hgt2 : hs[t]? = none := by
          rw [← List.get?_eq_getElem?]
          exact hgt
        have hstep : runOps (BuildOp.designateOutput t :: rest) g hs = none := by
          simp [runOps, hgt2]
        rw [hstep] at hrun
        simp at hrun
      | some h =>
        have hgt2 : hs[t]? = some h := by
          rw [← List.get?_eq_getElem?]
          exact hgt
        cases hdes : designate_output g h with
        | mk e g2 =>
          cases e with
          | some e0 =>
            have hstep : runOps (BuildOp.designateOutput t :: rest) g hs = none := by
              simp [runOps, hgt2, hdes]
            rw [hstep] at hrun
            simp at hrun
          | none =>
            have hstep : runOps (BuildOp.designateOutput t :: rest) g hs =
                runOps rest g2 hs := by
              simp [runOps, hgt2, hdes]
            rw [hstep] at hrun
            obtain ⟨c, hon, hgid, hstS, hc, hg2⟩ := designate_output_ok_spec g h g2 hdes
            have hpS : g2.node_storage = g.node_storage := by rw [hg2]
            have hpR : g2.node_refcount =
                alSet g.node_refcount h.node_key (c + 1) := by rw [hg2]
            have hpO : g2.output_node = some h.node_key := by rw [hg2]
            have hpN : g2.next_key = g.next_key := by rw [hg2]
            have hkeyt := hkey t h hgt
            have htlt := get?_some_lt hs t h hgt
            have hklt : h.node_key < g.next_key := by
              rw [hkeyt, ← hlen]
              exact htlt
            have hconsEq : ∀ q, consumers g2 q =
                consumers g q + (if q = h.node_key then 1 else 0) := by
              intro q
              unfold consumers
              rw [hpS, hpO, hon]
              by_cases hq : q = h.node_key
              · subst hq
                rw [if_pos rfl, if_pos rfl, if_neg (by simp)]
              · rw [if_neg hq,
                  if_neg (fun hh : some h.node_key = some q => hq (by simpa using hh.symm)),
                  if_neg (by simp)]
            refine ih g2 hs res ⟨?_, hkey, ?_, ?_, ?_, ?_⟩ hnodup ?_ hrun
            · intro q
              rw [hpR, hpS, alGet_alSet]
              by_cases hq : q = h.node_key
              · subst hq
                rw [if_pos rfl, hc, if_pos hstS, hconsEq, if_pos rfl]
                have hcc : c = consumers g h.node_key := by
                  have h5 := hrc h.node_key
                  rw [hc, if_pos hstS] at h5
                  simpa using h5
                rw [hcc]
                rfl
              · rw [if_neg hq, hrc q, hconsEq q, if_neg hq]
                simp
            · rw [hpN]
              exact hlen
            · intro k hk
              rw [hpN] at hk
              constructor
              · rw [hpS]
                exact (hfresh k hk).1
              · rw [hpR, alGet_alSet, if_neg (fun hh : k = h.node_key =>
                  absurd (Nat.lt_of_lt_of_le hklt (hh ▸ hk)) (lt_irrefl _))]
                exact (hfresh k hk).2
            · intro p hp i hi
              rw [hpS] at hp
              rw [hpN]
              exact hbound p hp i hi
            · intro o ho
              rw [hpO] at ho
              have ho2 : o = h.node_key := by simpa using ho.symm
              subst ho2
              rw [hpN]
              exact hklt
            · intro t' ht' h' hget'
              have hinp' := hunset t' (by
                rw [show setTargets (BuildOp.designateOutput t :: rest) =
                  setTargets rest from rfl]
                exact ht') h' hget'
              unfold inputsOf
              rw [hpS]
              unfold inputsOf at hinp'
              exact hinp'

/-- Claim C3, amended: after every builder sequence that wires each node at
most once (no handle index is targeted twice by `set_inputs`), the
live-reference counter of every stored node equals its number of
not-yet-satisfied consumers — occurrences in input lists plus one for the
output designation — and absent nodes carry no counter.  The original,
unrestricted claim is refuted by `c3_counterexample`: a second `set_inputs`
on the same node leaves the replaced inputs' counters inflated. -/
theorem c3_single_wiring_invariant {T : Type} (gid : Nat) (ops : List (BuildOp T))
    (g : ComputationGraph T) (hs : List NodeHandle)
    (hnodup : (setTargets ops).Nodup)
    (hbuild : buildGraph gid ops = some (g, hs)) :
    RefcountInvariant g := by
  have hinv0 : BuilderInv (newGraph T gid) [] := by
    refine ⟨?_, ?_, rfl, ?_, ?_, ?_⟩
    · intro k
      rfl
    · intro t h ht
      simp at ht
    · intro k _
      exact ⟨rfl, rfl⟩
    · intro p hp
      simp [newGraph] at hp
    · intro o ho
      simp [newGraph] at ho
  exact runOps_preserves_rc ops (newGraph T gid) [] (g, hs) hinv0 hnodup
    (fun t ht h hget => by simp at hget) hbuild

/-- The chain graph's builder script; each node is wired at most once. -/
def chainOps : List (BuildOp Nat) :=
  [BuildOp.insertNode "a" (fun _ => 5),
   BuildOp.insertNode "b" (fun xs => xs.foldl (· + ·) 0),
   BuildOp.setInputs 1 [0],
   BuildOp.designateOutput 1]

/-- Witness for the amended C3 at the chain build: the single-wired script
produces a graph whose counters all equal the consumer counts. -/
theorem c3_single_wiring_invariant_witness :
    (setTargets chainOps).Nodup ∧ RefcountInvariant chainGraph :=
  ⟨by decide, c3_single_wiring_invariant 7 chainOps chainGraph [⟨0, 7⟩, ⟨1, 7⟩]
    (by decide) rfl⟩

end DagCompute
